import Mathlib

/-!
# MilkCat keyphrase extraction: `PhraseExtractor`

A shallow embedding of `src/keyphrase/phrase_extractor.cc` and the properties of it that
the specification states.

* C++ `int` values (word ids, document positions, counts) are `Int`, without overflow: the
  values the extractor computes from a document are bounded by the size of the document plus
  one, which is an `int` itself. Where a map that is not built from a document matters, the
  wrap-around of `int sum` is explicit (`wrapInt`, `CalcAdjacentInt`).
* Vectors are `List`s with `push_back` as `++ [x]`. In `State` the records are values. The
  pools and the pointers into them are in `Driver`: the same functions on a state whose
  vectors hold pointers, where `Alloc` may hand out a record with the content it was left with;
  `Driver_Extract_sim` shows that `Driver.Extract`, from any prior driver, runs as `Extract`
  does on values.
* `double` arithmetic is a parameter (`Env`): the extractor is written once over an arbitrary
  carrier `E` and instantiated with the reals (`realEnv`) where a claim is about exact values.
* The iteration order of `utils::unordered_map` is a parameter as well (`Env.iter`).
* `State.reads` and `State.iterations` are ghost fields: the log of the positions passed to
  `document_->word(...)` and the number of `DoIteration` calls made by `Extract`.
* The loop of `Extract` need not end: `Extract` takes fuel, and `Extract.steps` gives the
  state after any number of runs of the loop body, so that "a phrase emitted by `Extract`"
  is a phrase of the output list of some `Extract.steps`.
-/

namespace MilkCat

/-- Modelled from the spec: the read-only `Document` view of section 3 and 6
(`keyphrase/document.h` is not among the sources). `word` is total on `Int`: its values
outside `[0, size)` stand for whatever an out-of-range read yields. -/
structure Document where
  size : Nat
  word : Int → Int
  words_size : Nat
  word_index : Int → List Int
  tf : Int → Int
  is_stopword : Int → Bool

/-- The arithmetic of `double` and the enumeration order of the hash map, which the source
leaves to the platform. `lit` reads a floating literal, `ofInt` is the conversion of an
integer operand, `iter` lists the entries of a map (kept in first-insertion order) in the
order the map's iterator visits them. -/
structure Env (E : Type) where
  lit : ℚ → E
  ofInt : Int → E
  add : E → E → E
  mul : E → E → E
  div : E → E → E
  neg : E → E
  log : E → E
  lt : E → E → Bool
  iter : List (Int × Int) → List (Int × Int)
  iter_perm : ∀ m, (iter m).Perm m

/-- The record `Adjacent` filled by `CalcAdjacent`. -/
structure Adjacent (E : Type) where
  entropy : E
  major_word : Int
  major_word_freq : Int

/-- The record `PhraseCandidate`: the words of the candidate and its inverted index. -/
structure PhraseCandidate where
  words : List Int
  index : List Int
deriving DecidableEq, Repr

/-- The record `Phrase`, as set by `set_document`, `set_words` and `set_tf`. -/
structure Phrase (E : Type) where
  document : Document
  words : List Int
  tf : E

/-- The members of `PhraseExtractor` that `Extract` works on, with the two ghost fields. -/
structure State (E : Type) where
  from_set : List PhraseCandidate
  to_set : List PhraseCandidate
  phrases : List (Phrase E)
  reads : List Int
  iterations : Nat

variable {E : Type}

/-- The constant `const double PhraseExtractor::kShiftThreshold = 2.0;` of line 39. -/
def kShiftThreshold (env : Env E) : E := env.lit 2.0

/-- The constant `const double PhraseExtractor::kBoundaryThreshold = 0.5;` of line 40. -/
def kBoundaryThreshold (env : Env E) : E := env.lit 0.5

/-- Modelled from the spec: `IsBoundary` is declared in `keyphrase/phrase_extractor.h`, which
is not among the sources; section 4.3: true iff `adjacent.entropy > kBoundaryThreshold`. -/
def IsBoundary (env : Env E) (adjacent : Adjacent E) : Bool :=
  env.lt (kBoundaryThreshold env) adjacent.entropy

/-- Modelled from the spec: `IsPhrase` is declared in `keyphrase/phrase_extractor.h`, which
is not among the sources; section 4.3: true iff `adjacent.entropy < kShiftThreshold`. -/
def IsPhrase (env : Env E) (adjacent : Adjacent E) : Bool :=
  env.lt adjacent.entropy (kShiftThreshold env)

/-- The statement `term_freq[key] += 1` on a map kept as an association list in
first-insertion order (a missing key is inserted with value `0` first). -/
def incr : List (Int × Int) → Int → List (Int × Int)
  | [], key => [(key, 1)]
  | (k, v) :: rest, key => if k = key then (k, v + 1) :: rest else (k, v) :: incr rest key

/-- The first loop of `CalcAdjacent`: `(sum, max_freq, max_word)` after visiting `items`.
The sum is the exact one: it is the value of `int sum` as long as the counts sum to at most
`INT_MAX`, which holds for the maps built from a document (`CalcAdjacent.sumInt` is the sum
with the wrap-around of `int`, `CalcAdjacentInt_eq` compares the two). -/
def CalcAdjacent.scan (items : List (Int × Int)) : Int × Int × Int :=
  items.foldl (fun a it => if it.2 > a.2.1 then (a.1 + it.2, it.2, it.1)
                           else (a.1 + it.2, a.2.1, a.2.2)) (0, 0, 0)

/-- The second loop of `CalcAdjacent`: the entropy accumulated over `items`. -/
def CalcAdjacent.entropy (env : Env E) (sum : Int) (items : List (Int × Int)) : E :=
  items.foldl (fun e it =>
    let p := env.div (env.ofInt it.2) (env.add (env.lit 1e-38) (env.ofInt sum))
    env.add e (env.mul (env.neg p) (env.log p))) (env.lit 0.0)

/-- The function `PhraseExtractor::CalcAdjacent`: the map is enumerated once by `env.iter`
and both loops visit its entries in that order. -/
def CalcAdjacent (env : Env E) (term_freq : List (Int × Int)) : Adjacent E :=
  let items := env.iter term_freq
  let a := CalcAdjacent.scan items
  { entropy := CalcAdjacent.entropy env a.1 items
    major_word := a.2.2
    major_word_freq := a.2.1 }

/-- The loop of `LeftAdjacent`: the frequency map and the positions read from the document. -/
def LeftAdjacent.collect (doc : Document) (word_index : List Int) (index_offset : Int) :
    List (Int × Int) × List Int :=
  word_index.foldl (fun a idx =>
    if idx > 0 then
      (incr a.1 (doc.word (idx - index_offset - 1)), a.2 ++ [idx - index_offset - 1])
    else a) ([], [])

/-- The function `PhraseExtractor::LeftAdjacent`, with the positions it read. -/
def LeftAdjacent (env : Env E) (doc : Document) (word_index : List Int) (index_offset : Int) :
    Adjacent E × List Int :=
  let r := LeftAdjacent.collect doc word_index index_offset
  (CalcAdjacent env r.1, r.2)

/-- The loop of `RightAdjacent`: the frequency map and the positions read from the document. -/
def RightAdjacent.collect (doc : Document) (word_index : List Int) :
    List (Int × Int) × List Int :=
  word_index.foldl (fun a idx =>
    if idx ≠ (doc.size : Int) - 1 then
      (incr a.1 (doc.word (idx + 1)), a.2 ++ [idx + 1])
    else a) ([], [])

/-- The function `PhraseExtractor::RightAdjacent`, with the positions it read. -/
def RightAdjacent (env : Env E) (doc : Document) (word_index : List Int) :
    Adjacent E × List Int :=
  let r := RightAdjacent.collect doc word_index
  (CalcAdjacent env r.1, r.2)

/-- The body of the `for` loop of `PhraseBeginSet` for one word id. -/
def PhraseBeginSet.body (env : Env E) (doc : Document) (s : State E) (word : Int) : State E :=
  let index := doc.word_index word
  if doc.tf word > 1 ∧ doc.is_stopword word = false then
    let r := LeftAdjacent env doc index 0
    let s := { s with reads := s.reads ++ r.2 }
    if IsBoundary env r.1 then
      { s with from_set := s.from_set ++ [{ words := [word], index := index }] }
    else s
  else s

/-- The function `PhraseExtractor::PhraseBeginSet`. -/
def PhraseBeginSet (env : Env E) (doc : Document) (s : State E) : State E :=
  (List.range doc.words_size).foldl (fun s (w : Nat) => PhraseBeginSet.body env doc s (w : Int)) s

/-- The loop "make the new inversed_index" of `DoIteration`: the index of the extended
candidate and the positions read from the document. -/
def DoIteration.reindex (doc : Document) (index : List Int) (major_word : Int) :
    List Int × List Int :=
  index.foldl (fun a idx =>
    if idx < (doc.size : Int) - 1 then
      (if doc.word (idx + 1) = major_word then a.1 ++ [idx + 1] else a.1, a.2 ++ [idx + 1])
    else a) ([], [])

/-- The first `if` of the loop body of `DoIteration`: the extension of the candidate. -/
def DoIteration.grow (env : Env E) (doc : Document) (from_phrase : PhraseCandidate)
    (adjacent : Adjacent E) (s : State E) : State E :=
  if (!doc.is_stopword adjacent.major_word) && decide (doc.tf adjacent.major_word > 2) &&
      IsPhrase env adjacent then
    let r := DoIteration.reindex doc from_phrase.index adjacent.major_word
    { s with
      to_set := s.to_set ++
        [{ words := from_phrase.words ++ [adjacent.major_word], index := r.1 }]
      reads := s.reads ++ r.2 }
  else s

/-- The second `if` of the loop body of `DoIteration`: the emission of the phrase.
`adjacent` is the record the loop body filled by `RightAdjacent`; it is overwritten by
`LeftAdjacent` inside. -/
def DoIteration.emit (env : Env E) (doc : Document) (from_phrase : PhraseCandidate)
    (adjacent : Adjacent E) (s : State E) : State E :=
  if IsBoundary env adjacent then
    let r := LeftAdjacent env doc from_phrase.index ((from_phrase.words.length : Int) - 1)
    let s := { s with reads := s.reads ++ r.2 }
    if from_phrase.index.length > 1 ∧ env.lt (kBoundaryThreshold env) r.1.entropy = true then
      let tf := env.div (env.ofInt (from_phrase.index.length : Int))
        (env.add (env.lit 1e-38) (env.ofInt (doc.size : Int)))
      { s with phrases := s.phrases ++
          [{ document := doc, words := from_phrase.words, tf := tf }] }
    else s
  else s

/-- The body of the `while` loop of `DoIteration` for the candidate popped from `from_set_`. -/
def DoIteration.body (env : Env E) (doc : Document) (s : State E)
    (from_phrase : PhraseCandidate) : State E :=
  let r := RightAdjacent env doc from_phrase.index
  let s := { s with reads := s.reads ++ r.2 }
  let s := DoIteration.grow env doc from_phrase r.1 s
  DoIteration.emit env doc from_phrase r.1 s

/-- The function `PhraseExtractor::DoIteration`: the candidates of `from_set_` are popped from the back
until it is empty. -/
def DoIteration (env : Env E) (doc : Document) (s : State E) : State E :=
  s.from_set.reverse.foldl (DoIteration.body env doc) { s with from_set := [] }

/-- The statements of `Extract` before its loop: the containers are cleared (the ghost
fields start afresh) and `PhraseBeginSet` runs. -/
def Extract.begin (env : Env E) (doc : Document) (_prior : State E) : State E :=
  PhraseBeginSet env doc
    { from_set := [], to_set := [], phrases := [], reads := [], iterations := 0 }

/-- The body of the `while` loop of `Extract`. -/
def Extract.body (env : Env E) (doc : Document) (s : State E) : State E :=
  let s := DoIteration env doc s
  { s with from_set := s.to_set, to_set := [], iterations := s.iterations + 1 }

/-- The `while` loop of `Extract`, with fuel: `none` when the fuel runs out. -/
def Extract.loop (env : Env E) (doc : Document) : Nat → State E → Option (State E)
  | 0, _ => none
  | fuel + 1, s =>
    if s.from_set.length ≠ 0 then Extract.loop env doc fuel (Extract.body env doc s)
    else some s

/-- The function `PhraseExtractor::Extract`, with fuel for its loop: `none` when the loop
has not ended within `fuel` tests of its condition. The prior state of the members is
`prior`. -/
def Extract (env : Env E) (doc : Document) (prior : State E) (fuel : Nat) : Option (State E) :=
  Extract.loop env doc fuel (Extract.begin env doc prior)

/-- The state of `Extract` after at most `n` runs of the body of its loop (the state stays as
it is once the loop condition fails). -/
def Extract.steps (env : Env E) (doc : Document) (prior : State E) : Nat → State E
  | 0 => Extract.begin env doc prior
  | n + 1 =>
    let s := Extract.steps env doc prior n
    if s.from_set.length ≠ 0 then Extract.body env doc s else s

/-- The state with empty containers. -/
def State.empty : State E :=
  { from_set := [], to_set := [], phrases := [], reads := [], iterations := 0 }

/-- The candidates the loop body of `PhraseBeginSet` pushes for one word id. -/
def PhraseBeginSet.seeds (env : Env E) (doc : Document) (word : Int) : List PhraseCandidate :=
  (PhraseBeginSet.body env doc State.empty word).from_set

/-- The document positions the loop body of `PhraseBeginSet` reads for one word id. -/
def PhraseBeginSet.readsOf (env : Env E) (doc : Document) (word : Int) : List Int :=
  (PhraseBeginSet.body env doc State.empty word).reads

/-- The candidates the loop body of `DoIteration` pushes onto `to_set_` for one candidate. -/
def DoIteration.extended (env : Env E) (doc : Document) (from_phrase : PhraseCandidate) :
    List PhraseCandidate :=
  (DoIteration.body env doc State.empty from_phrase).to_set

/-- The phrases the loop body of `DoIteration` emits for one candidate. -/
def DoIteration.emitted (env : Env E) (doc : Document) (from_phrase : PhraseCandidate) :
    List (Phrase E) :=
  (DoIteration.body env doc State.empty from_phrase).phrases

/-- The document positions the loop body of `DoIteration` reads for one candidate. -/
def DoIteration.readsOf (env : Env E) (doc : Document) (from_phrase : PhraseCandidate) :
    List Int :=
  (DoIteration.body env doc State.empty from_phrase).reads

/-- Line 192 of the source: the value stored by `set_tf` for a candidate whose index holds
`count` positions. -/
def tfOf (env : Env E) (doc : Document) (count : Nat) : E :=
  env.div (env.ofInt (count : Int)) (env.add (env.lit 1e-38) (env.ofInt (doc.size : Int)))

/-- The word sequence `ws` occurs in the document as a contiguous run starting at `p`. -/
def occursAt (doc : Document) : List Int → Nat → Bool
  | [], p => decide (p ≤ doc.size)
  | w :: ws, p => decide (p < doc.size) && (doc.word (p : Int) == w && occursAt doc ws (p + 1))

/-- The number of positions at which `ws` occurs in the document as a contiguous run. -/
def occurrences (doc : Document) (ws : List Int) : Nat :=
  ((List.range doc.size).filter (occursAt doc ws)).length

/-- The invariant of section 3: `word_index` and `tf` are consistent with `word`, and the
word ids are those of the vocabulary. -/
@[reducible]
def Consistent (doc : Document) : Prop :=
  (∀ p ∈ List.range doc.size, 0 ≤ doc.word (p : Int) ∧ doc.word (p : Int) < doc.words_size) ∧
  (∀ w ∈ List.range doc.words_size,
    doc.word_index (w : Int) =
      ((List.range doc.size).filter (fun (p : Nat) => doc.word (p : Int) = (w : Int))).map
        Int.ofNat ∧
    doc.tf (w : Int) = ((doc.word_index (w : Int)).length : Int))

/-- Each `word_index` list holds distinct positions of `[0, size)`. -/
@[reducible]
def DistinctInRange (doc : Document) : Prop :=
  ∀ w ∈ List.range doc.words_size,
    (doc.word_index (w : Int)).Nodup ∧
    ∀ p ∈ doc.word_index (w : Int), 0 ≤ p ∧ p < (doc.size : Int)

/-- A document given by its token list: `word_index` and `tf` are computed from the tokens,
`junk` is what a read outside `[0, size)` yields. -/
def Document.ofList (ws : List Int) (words_size : Nat) (stop : Int → Bool) (junk : Int → Int) :
    Document where
  size := ws.length
  word := fun pos => if 0 ≤ pos ∧ pos < ws.length then ws.getD pos.toNat 0 else junk pos
  words_size := words_size
  word_index := fun w =>
    ((List.range ws.length).filter (fun p => ws.getD p 0 = w)).map Int.ofNat
  tf := fun w => ws.count w
  is_stopword := stop

/-- Exact arithmetic over the reals, with `iter` as the enumeration order of the map. -/
noncomputable def realEnv (iter : List (Int × Int) → List (Int × Int))
    (h : ∀ m, (iter m).Perm m) : Env ℝ where
  lit := fun q => (q : ℝ)
  ofInt := fun z => (z : ℝ)
  add := fun a b => a + b
  mul := fun a b => a * b
  div := fun a b => a / b
  neg := fun a => -a
  log := Real.log
  lt := fun a b => decide (a < b)
  iter := iter
  iter_perm := h

/-- The enumeration of a map in first-insertion order. -/
noncomputable def realEnvId : Env ℝ := realEnv id (fun _ => List.Perm.refl _)


/-- The enumeration of a map in the reverse of the first-insertion order. -/
noncomputable def realEnvRev : Env ℝ := realEnv List.reverse (fun m => List.reverse_perm m)

/-- An enumeration order that differs from the first-insertion order on the maps of two
entries whose second count is the greater one. -/
def swapOrder : List (Int × Int) → List (Int × Int)
  | [a, b] => if a.2 < b.2 then [b, a] else [a, b]
  | m => m

/-- The entropy of `CalcAdjacent` over the reals, as a sum over the entries of the map `m`
(`1e-38` is the exact rational). -/
noncomputable def H (m : List (Int × Int)) : ℝ :=
  (m.map (fun it => -((it.2 : ℝ) / ((1e-38 : ℚ) + ((m.map Prod.snd).sum : ℤ))) *
      Real.log ((it.2 : ℝ) / ((1e-38 : ℚ) + ((m.map Prod.snd).sum : ℤ))))).sum

/-- The index of the candidate `c` is exact: it lists, in increasing order, the last
positions of all the occurrences of `c.words` in the document. -/
def IndexExact (doc : Document) (c : PhraseCandidate) : Prop :=
  c.words ≠ [] ∧
  c.index = ((List.range doc.size).filter (occursAt doc c.words)).map
    (fun (p : Nat) => (p : Int) + ((c.words.length : Int) - 1))

/-- The index of the candidate `c` holds distinct positions of `[0, size)`. -/
def IndexInRange (doc : Document) (c : PhraseCandidate) : Prop :=
  c.index.Nodup ∧ ∀ p ∈ c.index, 0 ≤ p ∧ p < (doc.size : Int)

/-- The seven-token document `[A, B, A, B, C, A, B]` of section 8, over a vocabulary of
three ids. -/
def docABC (A B C : Int) (stop : Int → Bool) (junk : Int → Int) : Document :=
  Document.ofList [A, B, A, B, C, A, B] 3 stop junk

/-- The document `[A, B, A, B, C, A, B]` with `A = 0`, `B = 1`, `C = 2`, no stopword. -/
def doc7 : Document := docABC 0 1 2 (fun _ => false) (fun _ => 0)

/-- The four-token document `[1, 0, 0, 0]` over the vocabulary `{0, 1}`, no stopword. -/
def doc4 : Document := Document.ofList [1, 0, 0, 0] 2 (fun _ => false) (fun _ => 0)

/-- A document of thirteen tokens over the vocabulary `{0, .., 4}` whose stopwords are
`0`, `3` and `4`; the word `1` is followed twice by `2` and twice by `3`. -/
def doc13 : Document :=
  Document.ofList [2, 0, 1, 2, 4, 1, 2, 0, 1, 3, 4, 1, 3] 5
    (fun w => decide (w = 0 ∨ w = 3 ∨ w = 4)) (fun _ => 0)

/-- The empty document. -/
def docEmpty : Document := Document.ofList [] 0 (fun _ => false) (fun _ => 0)

/-- Lines 127-131 of the source, on the record `stale` that `candidate_pool_.Alloc()`
returns: every field of the record is cleared and assigned. -/
def PhraseBeginSet.fill (stale : PhraseCandidate) (word : Int) (index : List Int) :
    PhraseCandidate :=
  let c := { stale with words := [] }
  let c := { c with words := c.words ++ [word] }
  let c := { c with index := [] }
  { c with index := index }

/-- Lines 163-175 of the source, on the record `stale` that `candidate_pool_.Alloc()`
returns: the words are assigned, the index is cleared and the loop pushes onto it. -/
def DoIteration.fill (doc : Document) (stale from_phrase : PhraseCandidate)
    (major_word : Int) : PhraseCandidate :=
  let c := { stale with words := from_phrase.words }
  let c := { c with words := c.words ++ [major_word] }
  let c := { c with index := [] }
  { c with index := c.index ++ (DoIteration.reindex doc from_phrase.index major_word).1 }

/-- Lines 189-193 of the source, on the record `stale` that `phrase_pool->Alloc()` returns:
the three setters assign every field. -/
def DoIteration.fillPhrase (env : Env E) (doc : Document) (stale : Phrase E)
    (from_phrase : PhraseCandidate) : Phrase E :=
  let p := { stale with document := doc }
  let p := { p with words := from_phrase.words }
  { p with tf := tfOf env doc from_phrase.index.length }

/-- The value an `int` holds after an addition whose exact result is `x`: the
two's-complement wrap-around to 32 bits (the C++ standard leaves a signed overflow
undefined; the wrap-around is what the compiled code does). -/
def wrapInt (x : Int) : Int := (x + 2147483648) % 4294967296 - 2147483648

/-- The variable `int sum` of `CalcAdjacent` after its first loop (lines 57 and 62), with
the wrap-around of `int`. -/
def CalcAdjacent.sumInt (items : List (Int × Int)) : Int :=
  items.foldl (fun sum it => wrapInt (sum + it.2)) 0

/-- The function `PhraseExtractor::CalcAdjacent` with the wrap-around of `int sum`: the
second loop divides by `1e-38 + sum` with the wrapped sum. -/
def CalcAdjacentInt (env : Env E) (term_freq : List (Int × Int)) : Adjacent E :=
  let items := env.iter term_freq
  let a := CalcAdjacent.scan items
  { entropy := CalcAdjacent.entropy env (CalcAdjacent.sumInt items) items
    major_word := a.2.2
    major_word_freq := a.2.1 }

/-- Modelled from the spec: the pool `utils::Pool` (`utils/pool.h` is not among the
sources), sections 6 and 9: a growable backing store and a cursor that `ReleaseAll` resets.
A pointer to a record is its index in the store. `reset` is what `Alloc` does to a record of
the store that it hands out again: the constant function to the default record under the
contract of section 6 (`Alloc` returns a default-initialised record), the identity when the
record is handed out with the content it was left with. -/
structure Pool (T : Type) where
  nodes : List T
  alloc_index : Nat
  reset : T → T

/-- The call `ReleaseAll()`: every record of the store may be handed out again. -/
def Pool.ReleaseAll {T : Type} (pool : Pool T) : Pool T :=
  { pool with alloc_index := 0 }

/-- The call `Alloc()`: the pointer it returns and the pool afterwards. The record at the
cursor is handed out again; when the store has none left, the record `fresh` of `new T()`
is appended. -/
def Pool.Alloc {T : Type} (fresh : T) (pool : Pool T) : Nat × Pool T :=
  if pool.alloc_index < pool.nodes.length then
    (pool.alloc_index,
      { pool with
        nodes := pool.nodes.set pool.alloc_index
          (pool.reset (pool.nodes.getD pool.alloc_index fresh))
        alloc_index := pool.alloc_index + 1 })
  else
    (pool.nodes.length,
      { pool with nodes := pool.nodes ++ [fresh], alloc_index := pool.nodes.length + 1 })

/-- The record a pointer points to. -/
def Pool.deref {T : Type} (fresh : T) (pool : Pool T) (ptr : Nat) : T :=
  pool.nodes.getD ptr fresh

/-- The pool after the record a pointer points to was given the content `record`. -/
def Pool.assign {T : Type} (pool : Pool T) (ptr : Nat) (record : T) : Pool T :=
  { pool with nodes := pool.nodes.set ptr record }

/-- The driver with its pools: the members `from_set_`, `to_set_` and `candidate_pool_` of
`PhraseExtractor`, the output list and the phrase pool of the caller, where the vectors
hold pointers into the pools, and the two ghost fields of `State`. -/
structure Driver (E : Type) where
  from_set : List Nat
  to_set : List Nat
  phrases : List Nat
  candidate_pool : Pool PhraseCandidate
  phrase_pool : Pool (Phrase E)
  reads : List Int
  iterations : Nat

/-- The driver of a new `PhraseExtractor` with new pools and an empty output list. -/
def Driver.fresh : Driver E :=
  { from_set := [], to_set := [], phrases := [],
    candidate_pool := { nodes := [], alloc_index := 0, reset := id },
    phrase_pool := { nodes := [], alloc_index := 0, reset := id }, reads := [], iterations := 0 }

/-- The body of the `for` loop of `PhraseBeginSet` on the driver: lines 127-132 allocate
the candidate from the pool, fill the record and push the pointer. -/
def Driver.PhraseBeginSet.body (env : Env E) (doc : Document) (d : Driver E) (word : Int) :
    Driver E :=
  let index := doc.word_index word
  if doc.tf word > 1 ∧ doc.is_stopword word = false then
    let r := LeftAdjacent env doc index 0
    let d := { d with reads := d.reads ++ r.2 }
    if IsBoundary env r.1 then
      let a := d.candidate_pool.Alloc { words := [], index := [] }
      let stale := a.2.deref { words := [], index := [] } a.1
      { d with
        candidate_pool := a.2.assign a.1 (PhraseBeginSet.fill stale word index)
        from_set := d.from_set ++ [a.1] }
    else d
  else d

/-- The function `PhraseExtractor::PhraseBeginSet` on the driver. -/
def Driver.PhraseBeginSet (env : Env E) (doc : Document) (d : Driver E) : Driver E :=
  (List.range doc.words_size).foldl
    (fun d (w : Nat) => Driver.PhraseBeginSet.body env doc d (w : Int)) d

/-- The first `if` of the loop body of `DoIteration` on the driver: lines 163-176 allocate
the extended candidate from the pool and fill the record from the record `from_phrase`
points to, read after `Alloc` (`from_phrase` was handed out earlier, so it is another
record than the allocated one). -/
def Driver.DoIteration.grow (env : Env E) (doc : Document) (from_phrase : Nat)
    (adjacent : Adjacent E) (d : Driver E) : Driver E :=
  if (!doc.is_stopword adjacent.major_word) && decide (doc.tf adjacent.major_word > 2) &&
      IsPhrase env adjacent then
    let a := d.candidate_pool.Alloc { words := [], index := [] }
    let stale := a.2.deref { words := [], index := [] } a.1
    let source := a.2.deref { words := [], index := [] } from_phrase
    { d with
      candidate_pool :=
        a.2.assign a.1 (DoIteration.fill doc stale source adjacent.major_word)
      to_set := d.to_set ++ [a.1]
      reads := d.reads ++ (DoIteration.reindex doc source.index adjacent.major_word).2 }
  else d

/-- The second `if` of the loop body of `DoIteration` on the driver: lines 189-194 allocate
the phrase from the phrase pool, set its fields and push the pointer; `fresh` is the record
of `new Phrase()`. -/
def Driver.DoIteration.emit (env : Env E) (doc : Document) (fresh : Phrase E)
    (from_phrase : Nat) (adjacent : Adjacent E) (d : Driver E) : Driver E :=
  if IsBoundary env adjacent then
    let source := d.candidate_pool.deref { words := [], index := [] } from_phrase
    let r := LeftAdjacent env doc source.index ((source.words.length : Int) - 1)
    let d := { d with reads := d.reads ++ r.2 }
    if source.index.length > 1 ∧ env.lt (kBoundaryThreshold env) r.1.entropy = true then
      let a := d.phrase_pool.Alloc fresh
      let stale := a.2.deref fresh a.1
      { d with
        phrase_pool := a.2.assign a.1 (DoIteration.fillPhrase env doc stale source)
        phrases := d.phrases ++ [a.1] }
    else d
  else d

/-- The body of the `while` loop of `DoIteration` on the driver, for the pointer popped from
`from_set_`. -/
def Driver.DoIteration.body (env : Env E) (doc : Document) (fresh : Phrase E)
    (d : Driver E) (from_phrase : Nat) : Driver E :=
  let r := RightAdjacent env doc
    (d.candidate_pool.deref { words := [], index := [] } from_phrase).index
  let d := { d with reads := d.reads ++ r.2 }
  let d := Driver.DoIteration.grow env doc from_phrase r.1 d
  Driver.DoIteration.emit env doc fresh from_phrase r.1 d

/-- The function `PhraseExtractor::DoIteration` on the driver. -/
def Driver.DoIteration (env : Env E) (doc : Document) (fresh : Phrase E) (d : Driver E) :
    Driver E :=
  d.from_set.reverse.foldl (Driver.DoIteration.body env doc fresh) { d with from_set := [] }

/-- The statements of `Extract` before its loop, on the driver (lines 208-215): both pools
are released, the three vectors are cleared (the ghost fields start afresh) and
`PhraseBeginSet` runs. -/
def Driver.Extract.begin (env : Env E) (doc : Document) (prior : Driver E) : Driver E :=
  let d := { prior with candidate_pool := prior.candidate_pool.ReleaseAll }
  let d := { d with phrase_pool := d.phrase_pool.ReleaseAll }
  let d := { d with from_set := [] }
  let d := { d with to_set := [] }
  let d := { d with phrases := [] }
  let d := { d with reads := [], iterations := 0 }
  Driver.PhraseBeginSet env doc d

/-- The body of the `while` loop of `Extract` on the driver. -/
def Driver.Extract.body (env : Env E) (doc : Document) (fresh : Phrase E) (d : Driver E) :
    Driver E :=
  let d := Driver.DoIteration env doc fresh d
  { d with from_set := d.to_set, to_set := [], iterations := d.iterations + 1 }

/-- The `while` loop of `Extract` on the driver, with fuel. -/
def Driver.Extract.loop (env : Env E) (doc : Document) (fresh : Phrase E) :
    Nat → Driver E → Option (Driver E)
  | 0, _ => none
  | fuel + 1, d =>
    if d.from_set.length ≠ 0 then
      Driver.Extract.loop env doc fresh fuel (Driver.Extract.body env doc fresh d)
    else some d

/-- The function `PhraseExtractor::Extract` on a driver in the state `prior`, with fuel for
its loop. -/
def Driver.Extract (env : Env E) (doc : Document) (fresh : Phrase E) (prior : Driver E)
    (fuel : Nat) : Option (Driver E) :=
  Driver.Extract.loop env doc fresh fuel (Driver.Extract.begin env doc prior)

/-- The phrase list of a driver: the records its output list points to. -/
def Driver.phrase_list (fresh : Phrase E) (d : Driver E) : List (Phrase E) :=
  d.phrases.map (d.phrase_pool.deref fresh)

/-- The state of a driver with the pointers replaced by the records they point to. -/
def Driver.view (fresh : Phrase E) (d : Driver E) : State E :=
  { from_set := d.from_set.map (d.candidate_pool.deref { words := [], index := [] })
    to_set := d.to_set.map (d.candidate_pool.deref { words := [], index := [] })
    phrases := d.phrases.map (d.phrase_pool.deref fresh)
    reads := d.reads
    iterations := d.iterations }

/-- The pointers of a driver point to records handed out since the last `ReleaseAll`. -/
def Driver.WellFormed (d : Driver E) : Prop :=
  d.candidate_pool.alloc_index ≤ d.candidate_pool.nodes.length ∧
  d.phrase_pool.alloc_index ≤ d.phrase_pool.nodes.length ∧
  (∀ i ∈ d.from_set, i < d.candidate_pool.alloc_index) ∧
  (∀ i ∈ d.to_set, i < d.candidate_pool.alloc_index) ∧
  (∀ i ∈ d.phrases, i < d.phrase_pool.alloc_index)

/-! ## The loop bodies as appends -/

theorem PhraseBeginSet_body_eq (env : Env E) (doc : Document) (s : State E) (word : Int) :
    PhraseBeginSet.body env doc s word =
      { s with
        from_set := s.from_set ++ PhraseBeginSet.seeds env doc word
        reads := s.reads ++ PhraseBeginSet.readsOf env doc word } := by
  unfold PhraseBeginSet.seeds PhraseBeginSet.readsOf PhraseBeginSet.body
  by_cases h1 : doc.tf word > 1 ∧ doc.is_stopword word = false
  · by_cases h2 : IsBoundary env (LeftAdjacent env doc (doc.word_index word) 0).1 = true
    · simp [h1, h2, State.empty]
    · simp [h1, h2, State.empty]
  · simp [h1, State.empty]

theorem DoIteration_body_eq (env : Env E) (doc : Document) (s : State E)
    (c : PhraseCandidate) :
    DoIteration.body env doc s c =
      { s with
        to_set := s.to_set ++ DoIteration.extended env doc c
        phrases := s.phrases ++ DoIteration.emitted env doc c
        reads := s.reads ++ DoIteration.readsOf env doc c } := by
  unfold DoIteration.extended DoIteration.emitted DoIteration.readsOf DoIteration.body
    DoIteration.grow DoIteration.emit
  simp only [State.empty]
  split_ifs <;> simp

theorem PhraseBeginSet_foldl_eq (env : Env E) (doc : Document) (l : List Nat) (s : State E) :
    l.foldl (fun s (w : Nat) => PhraseBeginSet.body env doc s (w : Int)) s =
      { s with
        from_set := s.from_set ++ l.flatMap (fun (w : Nat) => PhraseBeginSet.seeds env doc (w : Int))
        reads := s.reads ++ l.flatMap (fun (w : Nat) => PhraseBeginSet.readsOf env doc (w : Int)) } := by
  induction l generalizing s with
  | nil => simp
  | cons w l ih =>
    rw [List.foldl_cons, ih, PhraseBeginSet_body_eq]
    simp [List.flatMap_cons]

theorem PhraseBeginSet_eq (env : Env E) (doc : Document) (s : State E) :
    PhraseBeginSet env doc s =
      { s with
        from_set := s.from_set ++
          (List.range doc.words_size).flatMap (fun (w : Nat) => PhraseBeginSet.seeds env doc (w : Int))
        reads := s.reads ++
          (List.range doc.words_size).flatMap
            (fun (w : Nat) => PhraseBeginSet.readsOf env doc (w : Int)) } :=
  PhraseBeginSet_foldl_eq env doc _ s

theorem DoIteration_foldl_eq (env : Env E) (doc : Document) (l : List PhraseCandidate)
    (s : State E) :
    l.foldl (DoIteration.body env doc) s =
      { s with
        to_set := s.to_set ++ l.flatMap (DoIteration.extended env doc)
        phrases := s.phrases ++ l.flatMap (DoIteration.emitted env doc)
        reads := s.reads ++ l.flatMap (DoIteration.readsOf env doc) } := by
  induction l generalizing s with
  | nil => simp
  | cons c l ih =>
    rw [List.foldl_cons, ih, DoIteration_body_eq]
    simp [List.flatMap_cons]

theorem DoIteration_eq (env : Env E) (doc : Document) (s : State E) :
    DoIteration env doc s =
      { from_set := []
        to_set := s.to_set ++ s.from_set.reverse.flatMap (DoIteration.extended env doc)
        phrases := s.phrases ++ s.from_set.reverse.flatMap (DoIteration.emitted env doc)
        reads := s.reads ++ s.from_set.reverse.flatMap (DoIteration.readsOf env doc)
        iterations := s.iterations } := by
  unfold DoIteration
  rw [DoIteration_foldl_eq]

theorem Extract_body_eq (env : Env E) (doc : Document) (s : State E) :
    Extract.body env doc s =
      { from_set := s.to_set ++ s.from_set.reverse.flatMap (DoIteration.extended env doc)
        to_set := []
        phrases := s.phrases ++ s.from_set.reverse.flatMap (DoIteration.emitted env doc)
        reads := s.reads ++ s.from_set.reverse.flatMap (DoIteration.readsOf env doc)
        iterations := s.iterations + 1 } := by
  unfold Extract.body
  rw [DoIteration_eq]

theorem Extract_begin_eq (env : Env E) (doc : Document) (prior : State E) :
    Extract.begin env doc prior =
      { from_set :=
          (List.range doc.words_size).flatMap (fun (w : Nat) => PhraseBeginSet.seeds env doc (w : Int))
        to_set := []
        phrases := []
        reads :=
          (List.range doc.words_size).flatMap
            (fun (w : Nat) => PhraseBeginSet.readsOf env doc (w : Int))
        iterations := 0 } := by
  unfold Extract.begin
  rw [PhraseBeginSet_eq]
  simp

theorem Extract_steps_to_set (env : Env E) (doc : Document) (prior : State E) (n : Nat) :
    (Extract.steps env doc prior n).to_set = [] := by
  induction n with
  | zero => simp [Extract.steps, Extract_begin_eq]
  | succ n ih =>
    simp only [Extract.steps]
    split_ifs
    · simp [Extract_body_eq]
    · exact ih

theorem Extract_steps_succ (env : Env E) (doc : Document) (prior : State E) (n : Nat) :
    Extract.steps env doc prior (n + 1) =
      if (Extract.steps env doc prior n).from_set.length ≠ 0 then
        { from_set :=
            (Extract.steps env doc prior n).from_set.reverse.flatMap
              (DoIteration.extended env doc)
          to_set := []
          phrases := (Extract.steps env doc prior n).phrases ++
            (Extract.steps env doc prior n).from_set.reverse.flatMap
              (DoIteration.emitted env doc)
          reads := (Extract.steps env doc prior n).reads ++
            (Extract.steps env doc prior n).from_set.reverse.flatMap
              (DoIteration.readsOf env doc)
          iterations := (Extract.steps env doc prior n).iterations + 1 }
      else Extract.steps env doc prior n := by
  simp only [Extract.steps]
  split_ifs
  · rw [Extract_body_eq, Extract_steps_to_set]
    simp
  · rfl

/-! ## What the loop bodies push -/

theorem PhraseBeginSet_seeds_eq (env : Env E) (doc : Document) (word : Int) :
    PhraseBeginSet.seeds env doc word =
      if (doc.tf word > 1 ∧ doc.is_stopword word = false) ∧
          IsBoundary env (LeftAdjacent env doc (doc.word_index word) 0).1 = true then
        [{ words := [word], index := doc.word_index word }]
      else [] := by
  unfold PhraseBeginSet.seeds PhraseBeginSet.body
  by_cases h1 : doc.tf word > 1 ∧ doc.is_stopword word = false
  · by_cases h2 : IsBoundary env (LeftAdjacent env doc (doc.word_index word) 0).1 = true
    · simp [h1, h2, State.empty]
    · simp [h1, h2, State.empty]
  · simp [h1, State.empty]

theorem PhraseBeginSet_readsOf_eq (env : Env E) (doc : Document) (word : Int) :
    PhraseBeginSet.readsOf env doc word =
      if doc.tf word > 1 ∧ doc.is_stopword word = false then
        (LeftAdjacent.collect doc (doc.word_index word) 0).2
      else [] := by
  unfold PhraseBeginSet.readsOf PhraseBeginSet.body
  by_cases h1 : doc.tf word > 1 ∧ doc.is_stopword word = false
  · by_cases h2 : IsBoundary env (LeftAdjacent env doc (doc.word_index word) 0).1 = true
    · simp only [h1, h2, State.empty]
      simp [LeftAdjacent]
    · simp only [h1, h2, State.empty]
      simp [LeftAdjacent]
  · simp [h1, State.empty]

theorem DoIteration_extended_eq (env : Env E) (doc : Document) (c : PhraseCandidate) :
    DoIteration.extended env doc c =
      if doc.is_stopword (RightAdjacent env doc c.index).1.major_word = false ∧
          doc.tf (RightAdjacent env doc c.index).1.major_word > 2 ∧
          IsPhrase env (RightAdjacent env doc c.index).1 = true then
        [{ words := c.words ++ [(RightAdjacent env doc c.index).1.major_word]
           index := (DoIteration.reindex doc c.index
             (RightAdjacent env doc c.index).1.major_word).1 }]
      else [] := by
  unfold DoIteration.extended DoIteration.body DoIteration.grow DoIteration.emit
  simp only [State.empty]
  split_ifs <;> simp_all

theorem DoIteration_emitted_eq (env : Env E) (doc : Document) (c : PhraseCandidate) :
    DoIteration.emitted env doc c =
      if IsBoundary env (RightAdjacent env doc c.index).1 = true ∧
          c.index.length > 1 ∧
          env.lt (kBoundaryThreshold env)
            (LeftAdjacent env doc c.index ((c.words.length : Int) - 1)).1.entropy = true then
        [{ document := doc, words := c.words, tf := tfOf env doc c.index.length }]
      else [] := by
  unfold DoIteration.emitted DoIteration.body DoIteration.grow DoIteration.emit tfOf
  simp only [State.empty]
  split_ifs <;> simp_all

theorem DoIteration_reindex_fst (doc : Document) (index : List Int) (major_word : Int) :
    (DoIteration.reindex doc index major_word).1 =
      (index.filter (fun idx => decide (idx < (doc.size : Int) - 1) &&
        decide (doc.word (idx + 1) = major_word))).map (fun idx => idx + 1) := by
  unfold DoIteration.reindex
  suffices h : ∀ (a : List Int × List Int),
      (index.foldl (fun a idx =>
        if idx < (doc.size : Int) - 1 then
          (if doc.word (idx + 1) = major_word then a.1 ++ [idx + 1] else a.1, a.2 ++ [idx + 1])
        else a) a).1 =
      a.1 ++ (index.filter (fun idx => decide (idx < (doc.size : Int) - 1) &&
        decide (doc.word (idx + 1) = major_word))).map (fun idx => idx + 1) by
    simpa using h ([], [])
  induction index with
  | nil => simp
  | cons idx index ih =>
    intro a
    rw [List.foldl_cons, ih]
    by_cases h1 : idx < (doc.size : Int) - 1
    · by_cases h2 : doc.word (idx + 1) = major_word
      · simp [h1, h2, List.filter_cons]
      · simp [h1, h2, List.filter_cons]
    · simp [h1, List.filter_cons]

/-! ## Induction over the run of `Extract` -/

/-- A property of the seeds that extension preserves holds of every candidate of every
frontier. -/
theorem Extract_frontier_induction (env : Env E) (doc : Document) (prior : State E)
    (P : PhraseCandidate → Prop)
    (hseed : ∀ w ∈ List.range doc.words_size,
      ∀ c ∈ PhraseBeginSet.seeds env doc (w : Int), P c)
    (hext : ∀ c, P c → ∀ d ∈ DoIteration.extended env doc c, P d) (n : Nat) :
    ∀ c ∈ (Extract.steps env doc prior n).from_set, P c := by
  induction n with
  | zero =>
    intro c hc
    simp only [Extract.steps, Extract_begin_eq, List.mem_flatMap] at hc
    obtain ⟨w, hw, hc⟩ := hc
    exact hseed w hw c hc
  | succ n ih =>
    intro c hc
    rw [Extract_steps_succ] at hc
    split_ifs at hc
    · simp only [List.mem_flatMap, List.mem_reverse] at hc
      obtain ⟨b, hb, hc⟩ := hc
      exact hext b (ih b hb) c hc
    · exact ih c hc

/-- Every phrase of the output list was emitted for a candidate of some frontier. -/
theorem Extract_phrase_origin (env : Env E) (doc : Document) (prior : State E) (n : Nat) :
    ∀ p ∈ (Extract.steps env doc prior n).phrases,
      ∃ k c, c ∈ (Extract.steps env doc prior k).from_set ∧
        p ∈ DoIteration.emitted env doc c := by
  induction n with
  | zero =>
    intro p hp
    simp [Extract.steps, Extract_begin_eq] at hp
  | succ n ih =>
    intro p hp
    rw [Extract_steps_succ] at hp
    split_ifs at hp
    · simp only [List.mem_append, List.mem_flatMap, List.mem_reverse] at hp
      rcases hp with hp | ⟨c, hc, hp⟩
      · exact ih p hp
      · exact ⟨n, c, hc, hp⟩
    · exact ih p hp


theorem DoIteration_readsOf_eq (env : Env E) (doc : Document) (c : PhraseCandidate) :
    DoIteration.readsOf env doc c =
      (RightAdjacent.collect doc c.index).2 ++
      (if doc.is_stopword (RightAdjacent env doc c.index).1.major_word = false ∧
          doc.tf (RightAdjacent env doc c.index).1.major_word > 2 ∧
          IsPhrase env (RightAdjacent env doc c.index).1 = true then
        (DoIteration.reindex doc c.index (RightAdjacent env doc c.index).1.major_word).2
      else []) ++
      (if IsBoundary env (RightAdjacent env doc c.index).1 = true then
        (LeftAdjacent.collect doc c.index ((c.words.length : Int) - 1)).2
      else []) := by
  unfold DoIteration.readsOf DoIteration.body DoIteration.grow DoIteration.emit
  simp only [State.empty]
  split_ifs <;> simp_all [RightAdjacent, LeftAdjacent]

/-! ## The loop of `Extract` and `Extract.steps` -/

theorem Extract_steps_of_ne (env : Env E) (doc : Document) (prior : State E) (n : Nat)
    (h : (Extract.steps env doc prior n).from_set ≠ []) :
    Extract.steps env doc prior (n + 1) =
      Extract.body env doc (Extract.steps env doc prior n) := by
  have h' : (Extract.steps env doc prior n).from_set.length ≠ 0 := by
    simpa [List.length_eq_zero] using h
  simp only [Extract.steps, h', if_true, ne_eq, not_false_eq_true]

theorem Extract_steps_of_nil (env : Env E) (doc : Document) (prior : State E) (n : Nat)
    (h : (Extract.steps env doc prior n).from_set = []) (j : Nat) :
    Extract.steps env doc prior (n + j) = Extract.steps env doc prior n := by
  induction j with
  | zero => rfl
  | succ j ih =>
    have h' : (Extract.steps env doc prior (n + j)).from_set.length = 0 := by
      rw [ih, h]; rfl
    rw [← Nat.add_assoc]
    simp only [Extract.steps, h', ne_eq, not_true_eq_false, if_false]
    exact ih

/-- When the frontier is empty after `k + m` runs of the loop body, the loop started after
`k` runs returns that state with `m + 1` units of fuel. -/
theorem Extract_loop_of_steps_nil (env : Env E) (doc : Document) (prior : State E)
    (m k : Nat) (h : (Extract.steps env doc prior (k + m)).from_set = []) :
    Extract.loop env doc (m + 1) (Extract.steps env doc prior k) =
      some (Extract.steps env doc prior (k + m)) := by
  induction m generalizing k with
  | zero =>
    have h' : (Extract.steps env doc prior k).from_set.length = 0 := by
      simpa using h
    simp [Extract.loop, h']
  | succ m ih =>
    by_cases h0 : (Extract.steps env doc prior k).from_set = []
    · have h' : (Extract.steps env doc prior k).from_set.length = 0 := by
        rw [h0]; rfl
      rw [Extract_steps_of_nil env doc prior k h0]
      simp [Extract.loop, h']
    · have h' : (Extract.steps env doc prior k).from_set.length ≠ 0 := by
        simpa [List.length_eq_zero] using h0
      have h2 : (Extract.steps env doc prior (k + 1 + m)).from_set = [] := by
        rw [Nat.add_assoc, Nat.add_comm 1 m]; exact h
      have h3 := ih (k + 1) h2
      rw [Extract_steps_of_ne env doc prior k h0] at h3
      rw [Extract.loop]
      simp only [h', ne_eq, not_false_eq_true, if_true]
      rw [h3, Nat.add_assoc, Nat.add_comm 1 m]

/-- The function `Extract` returns the state reached after `n` runs of its loop body, when the frontier
is empty then. -/
theorem Extract_of_steps_nil (env : Env E) (doc : Document) (prior : State E) (n : Nat)
    (h : (Extract.steps env doc prior n).from_set = []) :
    Extract env doc prior (n + 1) = some (Extract.steps env doc prior n) := by
  have := Extract_loop_of_steps_nil env doc prior n 0 (by simpa using h)
  simpa [Extract, Extract.steps] using this

/-- What `Extract` returns is a state of `Extract.steps`. -/
theorem Extract_loop_some_steps (env : Env E) (doc : Document) (prior : State E)
    (fuel k : Nat) (s : State E)
    (h : Extract.loop env doc fuel (Extract.steps env doc prior k) = some s) :
    ∃ n, s = Extract.steps env doc prior n ∧ s.from_set = [] := by
  induction fuel generalizing k with
  | zero => simp [Extract.loop] at h
  | succ fuel ih =>
    rw [Extract.loop] at h
    split_ifs at h with h0
    · have h1 : (Extract.steps env doc prior k).from_set ≠ [] := by
        simpa [List.length_eq_zero] using h0
      rw [← Extract_steps_of_ne env doc prior k h1] at h
      exact ih (k + 1) h
    · simp only [Option.some.injEq] at h
      subst h
      exact ⟨k, rfl, by simpa [List.length_eq_zero] using h0⟩

theorem Extract_some_steps (env : Env E) (doc : Document) (prior : State E)
    (fuel : Nat) (s : State E) (h : Extract env doc prior fuel = some s) :
    ∃ n, s = Extract.steps env doc prior n ∧ s.from_set = [] :=
  Extract_loop_some_steps env doc prior fuel 0 s h

/-- When no frontier is ever empty, the loop of `Extract` runs out of any fuel. -/
theorem Extract_loop_none (env : Env E) (doc : Document) (prior : State E)
    (h : ∀ n, (Extract.steps env doc prior n).from_set ≠ []) (fuel k : Nat) :
    Extract.loop env doc fuel (Extract.steps env doc prior k) = none := by
  induction fuel generalizing k with
  | zero => rfl
  | succ fuel ih =>
    have h' : (Extract.steps env doc prior k).from_set.length ≠ 0 := by
      simpa [List.length_eq_zero] using h k
    rw [Extract.loop]
    simp only [h', ne_eq, not_false_eq_true, if_true]
    rw [← Extract_steps_of_ne env doc prior k (h k)]
    exact ih (k + 1)

theorem Extract_steps_iterations (env : Env E) (doc : Document) (prior : State E)
    (h : ∀ n, (Extract.steps env doc prior n).from_set ≠ []) (n : Nat) :
    (Extract.steps env doc prior n).iterations = n := by
  induction n with
  | zero => simp [Extract.steps, Extract_begin_eq]
  | succ n ih =>
    rw [Extract_steps_of_ne env doc prior n (h n), Extract_body_eq]
    simp [ih]

/-- One run of the loop body on a frontier of one candidate. -/
theorem Extract_steps_succ_single (env : Env E) (doc : Document) (prior : State E) (n : Nat)
    (c : PhraseCandidate) (h : (Extract.steps env doc prior n).from_set = [c]) :
    (Extract.steps env doc prior (n + 1)).from_set = DoIteration.extended env doc c ∧
    (Extract.steps env doc prior (n + 1)).phrases =
      (Extract.steps env doc prior n).phrases ++ DoIteration.emitted env doc c ∧
    (Extract.steps env doc prior (n + 1)).reads =
      (Extract.steps env doc prior n).reads ++ DoIteration.readsOf env doc c ∧
    (Extract.steps env doc prior (n + 1)).iterations =
      (Extract.steps env doc prior n).iterations + 1 := by
  rw [Extract_steps_succ, h]
  simp

/-! ## The major word of small maps -/

theorem CalcAdjacent_nil (env : Env E) :
    (CalcAdjacent env []).major_word = 0 := by
  have h : env.iter [] = [] := List.Perm.eq_nil (env.iter_perm [])
  simp [CalcAdjacent, h, CalcAdjacent.scan]

theorem CalcAdjacent_single (env : Env E) (k c : Int) (hc : 0 < c) :
    (CalcAdjacent env [(k, c)]).major_word = k := by
  have h : env.iter [(k, c)] = [(k, c)] := List.perm_singleton.1 (env.iter_perm [(k, c)])
  simp [CalcAdjacent, h, CalcAdjacent.scan, hc]


/-! ## The index of a candidate -/

theorem occursAt_length (doc : Document) (ws : List Int) (p : Nat)
    (h : occursAt doc ws p = true) : p + ws.length ≤ doc.size := by
  induction ws generalizing p with
  | nil => simpa [occursAt] using h
  | cons w ws ih =>
    simp only [occursAt, Bool.and_eq_true] at h
    have := ih (p + 1) h.2.2
    simp only [List.length_cons]
    omega

theorem occursAt_append (doc : Document) (ws : List Int) (w : Int) (p : Nat) :
    occursAt doc (ws ++ [w]) p =
      (occursAt doc ws p && (decide (p + ws.length < doc.size) &&
        (doc.word ((p + ws.length : Nat) : Int) == w))) := by
  induction ws generalizing p with
  | nil =>
    simp only [List.nil_append, occursAt, List.length_nil, Nat.add_zero]
    rw [Bool.eq_iff_iff]
    simp only [Bool.and_eq_true, decide_eq_true_eq, beq_iff_eq]
    constructor
    · rintro ⟨h1, h2, -⟩
      exact ⟨by omega, h1, h2⟩
    · rintro ⟨-, h1, h2⟩
      exact ⟨h1, h2, by omega⟩
  | cons v ws ih =>
    have e : p + 1 + ws.length = p + (ws.length + 1) := by omega
    rw [List.cons_append, List.length_cons, occursAt, occursAt, ih (p + 1), e]
    simp only [Bool.and_assoc]

theorem IndexExact_seeds (env : Env E) (doc : Document) (hc : Consistent doc)
    (w : Nat) (hw : w ∈ List.range doc.words_size) :
    ∀ c ∈ PhraseBeginSet.seeds env doc (w : Int), IndexExact doc c := by
  intro c hcs
  rw [PhraseBeginSet_seeds_eq] at hcs
  split_ifs at hcs
  · simp only [List.mem_singleton] at hcs
    subst hcs
    refine ⟨by simp, ?_⟩
    simp only [(hc.2 w hw).1, List.length_singleton, Nat.cast_one, sub_self, add_zero]
    have : (fun (p : Nat) => (p : Int)) = Int.ofNat := rfl
    rw [this]
    congr 1
    apply List.filter_congr
    intro p hp
    have hp' : p < doc.size := List.mem_range.1 hp
    rw [Bool.eq_iff_iff]
    simp only [occursAt, decide_eq_true_eq, Bool.and_eq_true, beq_iff_eq]
    constructor
    · intro h
      exact ⟨hp', h, by omega⟩
    · intro h
      exact h.2.1
  · simp at hcs

theorem IndexExact_extended (env : Env E) (doc : Document) (c : PhraseCandidate)
    (h : IndexExact doc c) : ∀ d ∈ DoIteration.extended env doc c, IndexExact doc d := by
  intro d hd
  rw [DoIteration_extended_eq] at hd
  split_ifs at hd
  · simp only [List.mem_singleton] at hd
    subst hd
    refine ⟨by simp, ?_⟩
    simp only [DoIteration_reindex_fst]
    rw [h.2, List.filter_map, List.map_map, List.filter_filter]
    simp only [List.length_append, List.length_singleton, Nat.cast_add, Nat.cast_one]
    have e1 : ((fun idx : Int => idx + 1) ∘
        fun (p : Nat) => (p : Int) + ((c.words.length : Int) - 1)) =
        fun (p : Nat) => (p : Int) + ((c.words.length : Int) + 1 - 1) := by
      funext p
      simp only [Function.comp]
      omega
    rw [e1]
    congr 1
    apply List.filter_congr
    intro p _
    rw [occursAt_append, Bool.and_comm]
    congr 1
    simp only [Function.comp]
    have e2 : (p : Int) + ((c.words.length : Int) - 1) + 1 = ((p + c.words.length : Nat) : Int) := by
      push_cast
      omega
    rw [e2]
    congr 1
    rw [Bool.eq_iff_iff]
    simp only [decide_eq_true_eq]
    omega
  · simp at hd

theorem IndexExact_length (doc : Document) (c : PhraseCandidate) (h : IndexExact doc c) :
    c.index.length = occurrences doc c.words := by
  rw [h.2, List.length_map, occurrences]

theorem IndexInRange_seeds (env : Env E) (doc : Document) (hd : DistinctInRange doc)
    (w : Nat) (hw : w ∈ List.range doc.words_size) :
    ∀ c ∈ PhraseBeginSet.seeds env doc (w : Int), IndexInRange doc c := by
  intro c hcs
  rw [PhraseBeginSet_seeds_eq] at hcs
  split_ifs at hcs
  · simp only [List.mem_singleton] at hcs
    subst hcs
    exact hd w hw
  · simp at hcs

theorem IndexInRange_extended (env : Env E) (doc : Document) (c : PhraseCandidate)
    (h : IndexInRange doc c) : ∀ d ∈ DoIteration.extended env doc c, IndexInRange doc d := by
  intro d hd
  rw [DoIteration_extended_eq] at hd
  split_ifs at hd
  · simp only [List.mem_singleton] at hd
    subst hd
    simp only [IndexInRange, DoIteration_reindex_fst]
    constructor
    · exact (h.1.filter _).map (fun a b hab => by simpa using hab)
    · intro p hp
      simp only [List.mem_map, List.mem_filter, Bool.and_eq_true, decide_eq_true_eq] at hp
      obtain ⟨q, ⟨hq, hq1, -⟩, rfl⟩ := hp
      have := h.2 q hq
      omega
  · simp at hd

theorem IndexInRange_length (doc : Document) (c : PhraseCandidate) (h : IndexInRange doc c) :
    c.index.length ≤ doc.size := by
  have h1 : c.index.toFinset ⊆ Finset.Ico (0 : Int) (doc.size : Int) := by
    intro p hp
    rw [List.mem_toFinset] at hp
    rw [Finset.mem_Ico]
    exact h.2 p hp
  have h2 := Finset.card_le_card h1
  rw [List.toFinset_card_of_nodup h.1, Int.card_Ico] at h2
  simpa using h2

/-- Under the consistency of the document, the index of every candidate of every frontier
is exact. -/
theorem Extract_frontier_exact (env : Env E) (doc : Document) (prior : State E)
    (hc : Consistent doc) (n : Nat) :
    ∀ c ∈ (Extract.steps env doc prior n).from_set, IndexExact doc c :=
  Extract_frontier_induction env doc prior (IndexExact doc)
    (fun w hw => IndexExact_seeds env doc hc w hw)
    (fun c h => IndexExact_extended env doc c h) n

theorem Extract_frontier_in_range (env : Env E) (doc : Document) (prior : State E)
    (hd : DistinctInRange doc) (n : Nat) :
    ∀ c ∈ (Extract.steps env doc prior n).from_set, IndexInRange doc c :=
  Extract_frontier_induction env doc prior (IndexInRange doc)
    (fun w hw => IndexInRange_seeds env doc hd w hw)
    (fun c h => IndexInRange_extended env doc c h) n

theorem DoIteration_mem_emitted (env : Env E) (doc : Document) (c : PhraseCandidate)
    (p : Phrase E) (h : p ∈ DoIteration.emitted env doc c) :
    p = { document := doc, words := c.words, tf := tfOf env doc c.index.length } ∧
    1 < c.index.length := by
  rw [DoIteration_emitted_eq] at h
  split_ifs at h with h0
  · exact ⟨by simpa using h, h0.2.1⟩
  · simp at h


/-! ## Exact arithmetic: the entropy over the reals -/

theorem CalcAdjacent_scan_fst_aux (items : List (Int × Int)) (a : Int × Int × Int) :
    (items.foldl (fun a it => if it.2 > a.2.1 then (a.1 + it.2, it.2, it.1)
                           else (a.1 + it.2, a.2.1, a.2.2)) a).1 = a.1 + (items.map Prod.snd).sum := by
  induction items generalizing a with
  | nil => simp
  | cons x l ih =>
    rw [List.foldl_cons, ih]
    split_ifs <;> simp [add_assoc]

theorem CalcAdjacent_scan_fst (items : List (Int × Int)) :
    (CalcAdjacent.scan items).1 = (items.map Prod.snd).sum := by
  unfold CalcAdjacent.scan
  rw [CalcAdjacent_scan_fst_aux]; simp

theorem entropy_real_aux (it : List (Int × Int) → List (Int × Int)) (h : ∀ m, (it m).Perm m)
    (sum : Int) (items : List (Int × Int)) (e : ℝ) :
    items.foldl (fun e x =>
      (realEnv it h).add e ((realEnv it h).mul ((realEnv it h).neg
        ((realEnv it h).div ((realEnv it h).ofInt x.2)
          ((realEnv it h).add ((realEnv it h).lit 1e-38) ((realEnv it h).ofInt sum))))
        ((realEnv it h).log ((realEnv it h).div ((realEnv it h).ofInt x.2)
          ((realEnv it h).add ((realEnv it h).lit 1e-38) ((realEnv it h).ofInt sum)))))) e =
    e + (items.map (fun x => -((x.2 : ℝ) / ((1e-38 : ℚ) + (sum : ℤ))) *
      Real.log ((x.2 : ℝ) / ((1e-38 : ℚ) + (sum : ℤ))))).sum := by
  induction items generalizing e with
  | nil => simp
  | cons x l ih =>
    rw [List.foldl_cons, ih]
    simp [realEnv, add_assoc]

theorem CalcAdjacent_real_entropy (it : List (Int × Int) → List (Int × Int)) (h : ∀ m, (it m).Perm m)
    (m : List (Int × Int)) : (CalcAdjacent (realEnv it h) m).entropy = H m := by
  have hp : (it m).Perm m := h m
  have hs : ((it m).map Prod.snd).sum = (m.map Prod.snd).sum := (hp.map _).sum_eq
  unfold CalcAdjacent CalcAdjacent.entropy H
  simp only []
  rw [entropy_real_aux, CalcAdjacent_scan_fst]
  show (realEnv it h).lit 0.0 + _ = _
  have : (realEnv it h).iter m = it m := rfl
  rw [this, hs]
  have : (realEnv it h).lit 0.0 = 0 := by norm_num [realEnv]
  rw [this, zero_add]
  exact (hp.map _).sum_eq




theorem eps_pos : (0 : ℝ) < ((1e-38 : ℚ) : ℝ) := by norm_num

theorem eps_small : ((1e-38 : ℚ) : ℝ) < 1 / 1000 := by norm_num

theorem term_eq {c t : ℝ} (hc : 0 < c) (ht : 0 < t) :
    -(c / t) * Real.log (c / t) = c / t * (Real.log t - Real.log c) := by
  rw [Real.log_div hc.ne' ht.ne']
  ring

theorem term_nonneg {c t : ℝ} (hc : 0 < c) (hct : c ≤ t) :
    0 ≤ -(c / t) * Real.log (c / t) := by
  have ht : 0 < t := lt_of_lt_of_le hc hct
  have h1 : Real.log (c / t) ≤ 0 :=
    Real.log_nonpos (div_pos hc ht).le ((div_le_one ht).2 hct)
  have h2 : 0 ≤ c / t := (div_pos hc ht).le
  nlinarith

theorem term_le {c t : ℝ} (hc : 0 < c) (ht : 0 < t) :
    -(c / t) * Real.log (c / t) ≤ 1 - c / t := by
  have hp : 0 < c / t := div_pos hc ht
  have h1 := Real.one_sub_inv_le_log_of_pos hp
  have h2 : c / t * (c / t)⁻¹ = 1 := mul_inv_cancel₀ hp.ne'
  nlinarith

theorem H_nil : H [] = 0 := by simp [H]

theorem H_single (k c : Int) (hc : 1 ≤ c) : 0 ≤ H [(k, c)] ∧ H [(k, c)] < 1 / 2 := by
  have hε := eps_pos
  have hε' := eps_small
  have hc' : (1 : ℝ) ≤ (c : ℝ) := by exact_mod_cast hc
  simp only [H, List.map_cons, List.map_nil, List.sum_cons, List.sum_nil, add_zero]
  generalize ((1e-38 : ℚ) : ℝ) = ε at hε hε'
  constructor
  · exact term_nonneg (by linarith) (by linarith)
  · have h := term_le (c := (c : ℝ)) (t := ε + c) (by linarith) (by linarith)
    have h3 : 1 - (c : ℝ) / (ε + c) < 1 / 2 := by
      rw [sub_lt_comm, lt_div_iff₀ (by linarith)]
      linarith
    linarith

theorem H_pair (a b c : Int) (hc : 1 ≤ c) :
    1 / 2 < H [(a, c), (b, c)] ∧ H [(a, c), (b, c)] < 2 := by
  have hε := eps_pos
  have hε' := eps_small
  have hc' : (1 : ℝ) ≤ (c : ℝ) := by exact_mod_cast hc
  simp only [H, List.map_cons, List.map_nil, List.sum_cons, List.sum_nil, add_zero, Int.cast_add]
  generalize ((1e-38 : ℚ) : ℝ) = ε at hε hε'
  have hc0 : (0 : ℝ) < c := by linarith
  have ht : (0 : ℝ) < ε + (c + c) := by linarith
  constructor
  · rw [term_eq hc0 ht]
    have h2 : Real.log 2 + Real.log c ≤ Real.log (ε + (c + c)) := by
      rw [← Real.log_mul (by norm_num) hc0.ne']
      exact Real.log_le_log (by linarith) (by linarith)
    have h3 := Real.log_two_gt_d9
    have h4 : (99 : ℝ) / 200 ≤ c / (ε + (c + c)) := by
      rw [div_le_div_iff₀ (by norm_num) ht]
      nlinarith
    have h5 : (0.6931471803 : ℝ) ≤ Real.log (ε + (c + c)) - Real.log c := by linarith
    have h6 : (99 : ℝ) / 200 * 0.6931471803 ≤
        c / (ε + (c + c)) * (Real.log (ε + (c + c)) - Real.log c) :=
      mul_le_mul h4 h5 (by norm_num) (by positivity)
    norm_num at h6 ⊢
    linarith
  · have h := term_le hc0 ht
    have h4 : (0 : ℝ) < c / (ε + (c + c)) := div_pos hc0 ht
    linarith

theorem H_one_two (a b : Int) : 1 / 2 < H [(a, 1), (b, 2)] ∧ H [(a, 1), (b, 2)] < 2 := by
  have hε := eps_pos
  have hε' := eps_small
  simp only [H, List.map_cons, List.map_nil, List.sum_cons, List.sum_nil, add_zero, Int.cast_add,
    Int.cast_one, Int.cast_ofNat]
  generalize ((1e-38 : ℚ) : ℝ) = ε at hε hε'
  have ht : (0 : ℝ) < ε + (1 + 2) := by linarith
  constructor
  · rw [term_eq one_pos ht, term_eq two_pos ht, Real.log_one]
    have h1 : (1 : ℝ) < Real.log (ε + (1 + 2)) := by
      rw [Real.lt_log_iff_exp_lt ht]
      have := Real.exp_one_lt_d9
      norm_num at this ⊢
      linarith
    have h2 := Real.log_two_lt_d9
    have h3 : 1 / (ε + (1 + 2)) * (Real.log (ε + (1 + 2)) - 0) +
        2 / (ε + (1 + 2)) * (Real.log (ε + (1 + 2)) - Real.log 2) =
        (3 * Real.log (ε + (1 + 2)) - 2 * Real.log 2) / (ε + (1 + 2)) := by
      field_simp
      ring
    rw [h3, lt_div_iff₀ ht]
    norm_num at h2
    generalize Real.log (ε + (1 + 2)) = L at *
    generalize Real.log 2 = l at *
    linarith
  · have h1 := term_le (c := 1) one_pos ht
    have h2 := term_le (c := 2) two_pos ht
    have h4 : (0 : ℝ) < 1 / (ε + (1 + 2)) := div_pos one_pos ht
    have h5 : (0 : ℝ) < 2 / (ε + (1 + 2)) := div_pos two_pos ht
    linarith

theorem H_perm {m m' : List (Int × Int)} (h : m.Perm m') : H m = H m' := by
  have hs : (m.map Prod.snd).sum = (m'.map Prod.snd).sum := (h.map _).sum_eq
  unfold H
  rw [hs]
  exact (h.map _).sum_eq

theorem H_triple (a b c : Int) : 1 / 2 < H [(a, 1), (b, 1), (c, 1)] := by
  have hε := eps_pos
  have hε' := eps_small
  simp only [H, List.map_cons, List.map_nil, List.sum_cons, List.sum_nil, add_zero, Int.cast_add,
    Int.cast_one]
  generalize ((1e-38 : ℚ) : ℝ) = ε at hε hε'
  have ht : (0 : ℝ) < ε + (1 + (1 + 1)) := by linarith
  rw [term_eq one_pos ht, Real.log_one]
  have h1 : (1 : ℝ) < Real.log (ε + (1 + (1 + 1))) := by
    rw [Real.lt_log_iff_exp_lt ht]
    have := Real.exp_one_lt_d9
    norm_num at this ⊢
    linarith
  have h4 : (1 : ℝ) / 4 ≤ 1 / (ε + (1 + (1 + 1))) := by
    rw [div_le_div_iff₀ (by norm_num) ht]
    linarith
  have h6 : (1 : ℝ) / 4 * 1 ≤
      1 / (ε + (1 + (1 + 1))) * (Real.log (ε + (1 + (1 + 1))) - 0) :=
    mul_le_mul h4 (by linarith) (by norm_num) (by positivity)
  linarith


theorem LeftAdjacent_fst (env : Env E) (doc : Document) (idx : List Int) (off : Int) :
    (LeftAdjacent env doc idx off).1 = CalcAdjacent env (LeftAdjacent.collect doc idx off).1 :=
  rfl

theorem RightAdjacent_fst (env : Env E) (doc : Document) (idx : List Int) :
    (RightAdjacent env doc idx).1 = CalcAdjacent env (RightAdjacent.collect doc idx).1 := rfl

theorem IsBoundary_real (it h) (m : List (Int × Int)) :
    IsBoundary (realEnv it h) (CalcAdjacent (realEnv it h) m) = decide (1 / 2 < H m) := by
  rw [← CalcAdjacent_real_entropy it h m]
  simp only [IsBoundary, kBoundaryThreshold, realEnv]
  norm_num

theorem IsPhrase_real (it h) (m : List (Int × Int)) :
    IsPhrase (realEnv it h) (CalcAdjacent (realEnv it h) m) = decide (H m < 2) := by
  rw [← CalcAdjacent_real_entropy it h m]
  simp only [IsPhrase, kShiftThreshold, realEnv]
  norm_num

theorem lt_boundary_real (it h) (m : List (Int × Int)) :
    (realEnv it h).lt (kBoundaryThreshold (realEnv it h))
      (CalcAdjacent (realEnv it h) m).entropy = decide (1 / 2 < H m) := by
  rw [← CalcAdjacent_real_entropy it h m]
  simp only [kBoundaryThreshold, realEnv]
  norm_num

theorem tfOf_real (it h) (doc : Document) (k : Nat) :
    tfOf (realEnv it h) doc k = (k : ℝ) / (((1e-38 : ℚ) : ℝ) + (doc.size : ℝ)) := by
  simp [tfOf, realEnv]

/-! ## The run of `Extract` on the document `[A, B, A, B, C, A, B]` -/

theorem Env_iter_pair (env : Env E) (a b : Int × Int) :
    env.iter [a, b] = [a, b] ∨ env.iter [a, b] = [b, a] := by
  have hp := env.iter_perm [a, b]
  have hl : (env.iter [a, b]).length = 2 := by simpa using hp.length_eq
  obtain ⟨x, y, hxy⟩ := List.length_eq_two.1 hl
  rw [hxy] at hp ⊢
  by_cases hx : x = a
  · subst hx
    have := List.perm_singleton.1 (hp.cons_inv)
    left
    rw [List.singleton_inj.1 this]
  · have hxb : x = b := by
      have : x ∈ [a, b] := hp.subset (List.mem_cons_self _ _)
      simpa [hx] using this
    subst hxb
    have h2 : [x, y].Perm [x, a] := hp.trans (List.Perm.swap _ _ _)
    have := List.perm_singleton.1 (h2.cons_inv)
    right
    rw [List.singleton_inj.1 this]

section docABC

variable (A B C : Int) (stop : Int → Bool) (junk : Int → Int)
variable (it : List (Int × Int) → List (Int × Int)) (h : ∀ m, (it m).Perm m)

theorem docABC_word :
    (docABC A B C stop junk).word 0 = A ∧ (docABC A B C stop junk).word 1 = B ∧
    (docABC A B C stop junk).word 2 = A ∧ (docABC A B C stop junk).word 3 = B ∧
    (docABC A B C stop junk).word 4 = C ∧ (docABC A B C stop junk).word 5 = A ∧
    (docABC A B C stop junk).word 6 = B ∧ (docABC A B C stop junk).word (-1) = junk (-1) :=
  ⟨rfl, rfl, rfl, rfl, rfl, rfl, rfl, rfl⟩

theorem docABC_size : ((docABC A B C stop junk).size : Int) = 7 := rfl

theorem docABC_index (hAB : A ≠ B) (hAC : A ≠ C) (hBC : B ≠ C) :
    (docABC A B C stop junk).word_index A = [0, 2, 5] ∧
    (docABC A B C stop junk).word_index B = [1, 3, 6] ∧
    (docABC A B C stop junk).tf A = 3 ∧ (docABC A B C stop junk).tf B = 3 ∧
    (docABC A B C stop junk).tf C = 1 := by
  simp [docABC, Document.ofList, List.range_succ, List.filter_cons, hAB, hAC, hBC, hAB.symm,
    hAC.symm, hBC.symm, List.count_cons]

theorem docABC_tf_le (w : Int) (hA : w ≠ A) (hB : w ≠ B) :
    (docABC A B C stop junk).tf w ≤ 1 := by
  simp only [docABC, Document.ofList, List.count_cons, List.count_nil, beq_iff_eq, hA.symm,
    hB.symm, if_false]
  split_ifs <;> simp

theorem docABC_left_A (hBC : B ≠ C) :
    (LeftAdjacent.collect (docABC A B C stop junk) [0, 2, 5] 0).1 = [(B, 1), (C, 1)] := by
  obtain ⟨h0, h1, h2, h3, h4, h5, h6, h7⟩ := docABC_word A B C stop junk
  simp [LeftAdjacent.collect, h1, h4, incr, hBC]

theorem docABC_left_B :
    (LeftAdjacent.collect (docABC A B C stop junk) [1, 3, 6] 0).1 = [(A, 3)] := by
  obtain ⟨h0, h1, h2, h3, h4, h5, h6, h7⟩ := docABC_word A B C stop junk
  simp [LeftAdjacent.collect, h0, h2, h5, incr]

theorem docABC_left_AB :
    LeftAdjacent.collect (docABC A B C stop junk) [1, 3, 6] 1 =
      (incr (incr [(junk (-1), 1)] B) C, [-1, 1, 4]) := by
  obtain ⟨h0, h1, h2, h3, h4, h5, h6, h7⟩ := docABC_word A B C stop junk
  simp [LeftAdjacent.collect, h1, h4, h7, incr]

theorem docABC_right_A :
    (RightAdjacent.collect (docABC A B C stop junk) [0, 2, 5]).1 = [(B, 3)] := by
  obtain ⟨h0, h1, h2, h3, h4, h5, h6, h7⟩ := docABC_word A B C stop junk
  simp [RightAdjacent.collect, docABC_size, h1, h3, h6, incr]

theorem docABC_right_AB (hAC : A ≠ C) :
    (RightAdjacent.collect (docABC A B C stop junk) [1, 3, 6]).1 = [(A, 1), (C, 1)] := by
  obtain ⟨h0, h1, h2, h3, h4, h5, h6, h7⟩ := docABC_word A B C stop junk
  simp [RightAdjacent.collect, docABC_size, h2, h4, incr, hAC]

theorem docABC_right_ABA :
    (RightAdjacent.collect (docABC A B C stop junk) [2]).1 = [(B, 1)] := by
  obtain ⟨h0, h1, h2, h3, h4, h5, h6, h7⟩ := docABC_word A B C stop junk
  simp [RightAdjacent.collect, docABC_size, h3, incr]

theorem docABC_right_ABAB :
    (RightAdjacent.collect (docABC A B C stop junk) [3]).1 = [(C, 1)] := by
  obtain ⟨h0, h1, h2, h3, h4, h5, h6, h7⟩ := docABC_word A B C stop junk
  simp [RightAdjacent.collect, docABC_size, h4, incr]

theorem docABC_reindex (hAC : A ≠ C) :
    (DoIteration.reindex (docABC A B C stop junk) [0, 2, 5] B).1 = [1, 3, 6] ∧
    (DoIteration.reindex (docABC A B C stop junk) [1, 3, 6] A).1 = [2] ∧
    (DoIteration.reindex (docABC A B C stop junk) [2] B).1 = [3] := by
  obtain ⟨h0, h1, h2, h3, h4, h5, h6, h7⟩ := docABC_word A B C stop junk
  simp [DoIteration.reindex, docABC_size, h1, h2, h3, h4, h6, hAC.symm]

theorem docABC_seeds (hAB : A ≠ B) (hAC : A ≠ C) (hBC : B ≠ C) (hsA : stop A = false)
    (w : Int) :
    PhraseBeginSet.seeds (realEnv it h) (docABC A B C stop junk) w =
      if w = A then [⟨[A], [0, 2, 5]⟩] else [] := by
  obtain ⟨i1, i2, t1, t2, t3⟩ := docABC_index A B C stop junk hAB hAC hBC
  rw [PhraseBeginSet_seeds_eq]
  by_cases hA : w = A
  · rw [hA, if_pos rfl, if_pos, i1]
    refine ⟨⟨by rw [t1]; norm_num, hsA⟩, ?_⟩
    rw [LeftAdjacent_fst, IsBoundary_real, i1, docABC_left_A A B C stop junk hBC]
    exact decide_eq_true (H_pair B C 1 (by norm_num)).1
  · rw [if_neg hA, if_neg]
    rintro ⟨⟨ht, -⟩, hb⟩
    by_cases hB : w = B
    · rw [hB, LeftAdjacent_fst, IsBoundary_real, i2, docABC_left_B, decide_eq_true_eq] at hb
      linarith [(H_single A 3 (by norm_num)).2]
    · have := docABC_tf_le A B C stop junk w hA hB
      omega

theorem docABC_extended_A (hAB : A ≠ B) (hAC : A ≠ C) (hBC : B ≠ C) (hsB : stop B = false) :
    DoIteration.extended (realEnv it h) (docABC A B C stop junk) ⟨[A], [0, 2, 5]⟩ =
      [⟨[A, B], [1, 3, 6]⟩] := by
  obtain ⟨i1, i2, t1, t2, t3⟩ := docABC_index A B C stop junk hAB hAC hBC
  have hm : (CalcAdjacent (realEnv it h) [(B, 3)]).major_word = B :=
    CalcAdjacent_single _ B 3 (by norm_num)
  rw [DoIteration_extended_eq]
  simp only [RightAdjacent_fst, docABC_right_A, hm]
  rw [if_pos, (docABC_reindex A B C stop junk hAC).1]
  · rfl
  · refine ⟨hsB, by rw [t2]; norm_num, ?_⟩
    rw [IsPhrase_real]
    exact decide_eq_true (by linarith [(H_single B 3 (by norm_num)).2])

theorem docABC_emitted_A :
    DoIteration.emitted (realEnv it h) (docABC A B C stop junk) ⟨[A], [0, 2, 5]⟩ = [] := by
  rw [DoIteration_emitted_eq, if_neg]
  rintro ⟨hb, -⟩
  rw [RightAdjacent_fst, docABC_right_A, IsBoundary_real, decide_eq_true_eq] at hb
  linarith [(H_single B 3 (by norm_num)).2]

theorem docABC_extended_AB (hAB : A ≠ B) (hAC : A ≠ C) (hBC : B ≠ C) (hsA : stop A = false) :
    DoIteration.extended (realEnv it h) (docABC A B C stop junk) ⟨[A, B], [1, 3, 6]⟩ =
        [⟨[A, B, A], [2]⟩] ∨
    DoIteration.extended (realEnv it h) (docABC A B C stop junk) ⟨[A, B], [1, 3, 6]⟩ = [] := by
  obtain ⟨i1, i2, t1, t2, t3⟩ := docABC_index A B C stop junk hAB hAC hBC
  rw [DoIteration_extended_eq]
  simp only [RightAdjacent_fst, docABC_right_AB A B C stop junk hAC]
  have hm : (CalcAdjacent (realEnv it h) [(A, 1), (C, 1)]).major_word = A ∨
      (CalcAdjacent (realEnv it h) [(A, 1), (C, 1)]).major_word = C := by
    rcases Env_iter_pair (realEnv it h) (A, 1) (C, 1) with e | e
    · left; simp [CalcAdjacent, e, CalcAdjacent.scan]
    · right; simp [CalcAdjacent, e, CalcAdjacent.scan]
  rcases hm with hm | hm
  · left
    rw [hm, if_pos, (docABC_reindex A B C stop junk hAC).2.1]
    · rfl
    · refine ⟨hsA, by rw [t1]; norm_num, ?_⟩
      rw [IsPhrase_real]
      exact decide_eq_true (H_pair A C 1 (by norm_num)).2
  · right
    rw [hm, if_neg]
    rintro ⟨-, ht, -⟩
    rw [t3] at ht
    omega

theorem docABC_left_AB_entropy (hBC : B ≠ C) :
    1 / 2 < H (LeftAdjacent.collect (docABC A B C stop junk) [1, 3, 6] 1).1 := by
  rw [docABC_left_AB]
  by_cases hB : junk (-1) = B
  · simp only [incr, hB, hBC, if_true, if_false]
    rw [H_perm (List.Perm.swap (C, 1) (B, 1 + 1) [])]
    exact (H_one_two C B).1
  · by_cases hC : junk (-1) = C
    · simp only [incr, hB, hC, hBC.symm, if_true, if_false]
      rw [H_perm (List.Perm.swap (B, 1) (C, 1 + 1) [])]
      exact (H_one_two B C).1
    · simp only [incr, hB, hC, hBC, if_false]
      exact H_triple _ B C

theorem docABC_emitted_AB (hAC : A ≠ C) (hBC : B ≠ C) :
    DoIteration.emitted (realEnv it h) (docABC A B C stop junk) ⟨[A, B], [1, 3, 6]⟩ =
      [⟨docABC A B C stop junk, [A, B], tfOf (realEnv it h) (docABC A B C stop junk) 3⟩] := by
  rw [DoIteration_emitted_eq, if_pos]
  · rfl
  · refine ⟨?_, by simp, ?_⟩
    · rw [RightAdjacent_fst, docABC_right_AB A B C stop junk hAC, IsBoundary_real]
      exact decide_eq_true (H_pair A C 1 (by norm_num)).1
    · show (realEnv it h).lt _
        (LeftAdjacent (realEnv it h) (docABC A B C stop junk) [1, 3, 6] 1).1.entropy = true
      rw [LeftAdjacent_fst, lt_boundary_real]
      exact decide_eq_true (docABC_left_AB_entropy A B C stop junk hBC)

theorem docABC_extended_ABA (hAB : A ≠ B) (hAC : A ≠ C) (hBC : B ≠ C)
    (hsB : stop B = false) :
    DoIteration.extended (realEnv it h) (docABC A B C stop junk) ⟨[A, B, A], [2]⟩ =
      [⟨[A, B, A, B], [3]⟩] := by
  obtain ⟨i1, i2, t1, t2, t3⟩ := docABC_index A B C stop junk hAB hAC hBC
  have hm : (CalcAdjacent (realEnv it h) [(B, 1)]).major_word = B :=
    CalcAdjacent_single _ B 1 (by norm_num)
  rw [DoIteration_extended_eq]
  simp only [RightAdjacent_fst, docABC_right_ABA, hm]
  rw [if_pos, (docABC_reindex A B C stop junk hAC).2.2]
  · rfl
  · refine ⟨hsB, by rw [t2]; norm_num, ?_⟩
    rw [IsPhrase_real]
    exact decide_eq_true (by linarith [(H_single B 1 (by norm_num)).2])

theorem docABC_emitted_ABA :
    DoIteration.emitted (realEnv it h) (docABC A B C stop junk) ⟨[A, B, A], [2]⟩ = [] := by
  rw [DoIteration_emitted_eq, if_neg]
  rintro ⟨-, hl, -⟩
  simp at hl

theorem docABC_extended_ABAB (hAB : A ≠ B) (hAC : A ≠ C) (hBC : B ≠ C) :
    DoIteration.extended (realEnv it h) (docABC A B C stop junk) ⟨[A, B, A, B], [3]⟩ = [] := by
  obtain ⟨i1, i2, t1, t2, t3⟩ := docABC_index A B C stop junk hAB hAC hBC
  have hm : (CalcAdjacent (realEnv it h) [(C, 1)]).major_word = C :=
    CalcAdjacent_single _ C 1 (by norm_num)
  rw [DoIteration_extended_eq]
  simp only [RightAdjacent_fst, docABC_right_ABAB, hm]
  rw [if_neg]
  rintro ⟨-, ht, -⟩
  rw [t3] at ht
  omega

theorem docABC_emitted_ABAB :
    DoIteration.emitted (realEnv it h) (docABC A B C stop junk) ⟨[A, B, A, B], [3]⟩ = [] := by
  rw [DoIteration_emitted_eq, if_neg]
  rintro ⟨-, hl, -⟩
  simp at hl

theorem docABC_steps0 (hAB : A ≠ B) (hAC : A ≠ C) (hBC : B ≠ C) (hsA : stop A = false)
    (hA0 : 0 ≤ A) (hA3 : A < 3) (prior : State ℝ) :
    (Extract.steps (realEnv it h) (docABC A B C stop junk) prior 0).from_set =
      [⟨[A], [0, 2, 5]⟩] ∧
    (Extract.steps (realEnv it h) (docABC A B C stop junk) prior 0).phrases = [] := by
  have hw : (docABC A B C stop junk).words_size = 3 := rfl
  simp only [Extract.steps, Extract_begin_eq, hw, docABC_seeds A B C stop junk it h hAB hAC hBC hsA]
  have hA : A = 0 ∨ A = 1 ∨ A = 2 := by omega
  rcases hA with rfl | rfl | rfl <;> simp [List.range_succ]

theorem docABC_steps1 (hAB : A ≠ B) (hAC : A ≠ C) (hBC : B ≠ C) (hsA : stop A = false)
    (hsB : stop B = false) (hA0 : 0 ≤ A) (hA3 : A < 3) (prior : State ℝ) :
    (Extract.steps (realEnv it h) (docABC A B C stop junk) prior 1).from_set =
      [⟨[A, B], [1, 3, 6]⟩] ∧
    (Extract.steps (realEnv it h) (docABC A B C stop junk) prior 1).phrases = [] := by
  obtain ⟨f0, p0⟩ := docABC_steps0 A B C stop junk it h hAB hAC hBC hsA hA0 hA3 prior
  obtain ⟨f1, p1, -, -⟩ := Extract_steps_succ_single _ _ prior 0 _ f0
  rw [f1, p1, p0, docABC_extended_A A B C stop junk it h hAB hAC hBC hsB, docABC_emitted_A]
  simp

theorem docABC_steps2 (hAB : A ≠ B) (hAC : A ≠ C) (hBC : B ≠ C) (hsA : stop A = false)
    (hsB : stop B = false) (hA0 : 0 ≤ A) (hA3 : A < 3) (prior : State ℝ) :
    ((Extract.steps (realEnv it h) (docABC A B C stop junk) prior 2).from_set =
        [⟨[A, B, A], [2]⟩] ∨
      (Extract.steps (realEnv it h) (docABC A B C stop junk) prior 2).from_set = []) ∧
    (Extract.steps (realEnv it h) (docABC A B C stop junk) prior 2).phrases =
      [⟨docABC A B C stop junk, [A, B], tfOf (realEnv it h) (docABC A B C stop junk) 3⟩] ∧
    (-1) ∈ (Extract.steps (realEnv it h) (docABC A B C stop junk) prior 2).reads := by
  obtain ⟨f1, p1⟩ := docABC_steps1 A B C stop junk it h hAB hAC hBC hsA hsB hA0 hA3 prior
  obtain ⟨f2, p2, r2, -⟩ := Extract_steps_succ_single _ _ prior 1 _ f1
  refine ⟨?_, ?_, ?_⟩
  · rw [f2]
    exact docABC_extended_AB A B C stop junk it h hAB hAC hBC hsA
  · rw [p2, p1, docABC_emitted_AB A B C stop junk it h hAC hBC]
    simp
  · rw [r2, DoIteration_readsOf_eq]
    have hb : IsBoundary (realEnv it h)
        (RightAdjacent (realEnv it h) (docABC A B C stop junk) [1, 3, 6]).1 = true := by
      rw [RightAdjacent_fst, docABC_right_AB A B C stop junk hAC, IsBoundary_real]
      exact decide_eq_true (H_pair A C 1 (by norm_num)).1
    simp only [hb, if_true, List.length_cons, List.length_nil]
    simp only [List.mem_append]
    right; right
    norm_num [docABC_left_AB]

theorem docABC_steps4 (hAB : A ≠ B) (hAC : A ≠ C) (hBC : B ≠ C) (hsA : stop A = false)
    (hsB : stop B = false) (hA0 : 0 ≤ A) (hA3 : A < 3) (prior : State ℝ) :
    (Extract.steps (realEnv it h) (docABC A B C stop junk) prior 4).from_set = [] ∧
    (Extract.steps (realEnv it h) (docABC A B C stop junk) prior 4).phrases =
      [⟨docABC A B C stop junk, [A, B], tfOf (realEnv it h) (docABC A B C stop junk) 3⟩] := by
  obtain ⟨f2, p2, -⟩ := docABC_steps2 A B C stop junk it h hAB hAC hBC hsA hsB hA0 hA3 prior
  rcases f2 with f2 | f2
  · obtain ⟨f3, p3, -, -⟩ := Extract_steps_succ_single _ _ prior 2 _ f2
    rw [docABC_extended_ABA A B C stop junk it h hAB hAC hBC hsB] at f3
    rw [docABC_emitted_ABA, List.append_nil, p2] at p3
    obtain ⟨f4, p4, -, -⟩ := Extract_steps_succ_single _ _ prior 3 _ f3
    rw [docABC_extended_ABAB A B C stop junk it h hAB hAC hBC] at f4
    rw [docABC_emitted_ABAB, List.append_nil, p3] at p4
    exact ⟨f4, p4⟩
  · have := Extract_steps_of_nil _ _ prior 2 f2 2
    rw [this]
    exact ⟨f2, p2⟩

end docABC

/-! ## The run of `Extract` on the document `[1, 0, 0, 0]` -/

section doc4

variable (it : List (Int × Int) → List (Int × Int)) (h : ∀ m, (it m).Perm m)

theorem doc4_seeds0 :
    PhraseBeginSet.seeds (realEnv it h) doc4 0 = [⟨[0], [1, 2, 3]⟩] := by
  have h3 : (LeftAdjacent.collect doc4 (doc4.word_index 0) 0).1 = [(1, 1), (0, 2)] := by
    decide
  rw [PhraseBeginSet_seeds_eq, if_pos]
  · rfl
  · refine ⟨⟨by decide, by decide⟩, ?_⟩
    rw [LeftAdjacent_fst, IsBoundary_real, h3]
    exact decide_eq_true (H_one_two 1 0).1

theorem doc4_seeds1 : PhraseBeginSet.seeds (realEnv it h) doc4 1 = [] := by
  rw [PhraseBeginSet_seeds_eq, if_neg]
  rintro ⟨⟨ht, -⟩, -⟩
  revert ht
  decide

theorem doc4_extended_single (ws idx : List Int) (c : Int) (hc : 1 ≤ c)
    (hr : (RightAdjacent.collect doc4 idx).1 = [(0, c)]) :
    DoIteration.extended (realEnv it h) doc4 ⟨ws, idx⟩ =
      [⟨ws ++ [0], (DoIteration.reindex doc4 idx 0).1⟩] := by
  have hm : (CalcAdjacent (realEnv it h) [(0, c)]).major_word = 0 :=
    CalcAdjacent_single _ 0 c (by omega)
  rw [DoIteration_extended_eq]
  simp only [RightAdjacent_fst, hr, hm]
  rw [if_pos]
  refine ⟨by decide, by decide, ?_⟩
  rw [IsPhrase_real]
  exact decide_eq_true (by linarith [(H_single 0 c hc).2])

theorem doc4_extended_nil (ws idx : List Int)
    (hr : (RightAdjacent.collect doc4 idx).1 = []) :
    DoIteration.extended (realEnv it h) doc4 ⟨ws, idx⟩ =
      [⟨ws ++ [0], (DoIteration.reindex doc4 idx 0).1⟩] := by
  have hm : (CalcAdjacent (realEnv it h) []).major_word = 0 := CalcAdjacent_nil _
  rw [DoIteration_extended_eq]
  simp only [RightAdjacent_fst, hr, hm]
  rw [if_pos]
  refine ⟨by decide, by decide, ?_⟩
  rw [IsPhrase_real, H_nil]
  exact decide_eq_true (by norm_num)

/-- Every frontier of the run on `[1, 0, 0, 0]` holds exactly one candidate. -/
theorem doc4_frontier (prior : State ℝ) (n : Nat) :
    ∃ c, (Extract.steps (realEnv it h) doc4 prior n).from_set = [c] ∧
      (c.index = [1, 2, 3] ∨ c.index = [2, 3] ∨ c.index = [3] ∨ c.index = []) := by
  induction n with
  | zero =>
    refine ⟨⟨[0], [1, 2, 3]⟩, ?_, Or.inl rfl⟩
    have hw : doc4.words_size = 2 := rfl
    simp only [Extract.steps, Extract_begin_eq, hw]
    simp [List.range_succ, doc4_seeds0, doc4_seeds1]
  | succ n ih =>
    obtain ⟨c, hc, hi⟩ := ih
    obtain ⟨f, -, -, -⟩ := Extract_steps_succ_single _ _ prior n c hc
    obtain ⟨ws, idx⟩ := c
    simp only at hi
    rw [f]
    rcases hi with rfl | rfl | rfl | rfl
    · exact ⟨_, doc4_extended_single it h ws _ 2 (by norm_num) (by decide),
        Or.inr (Or.inl rfl)⟩
    · exact ⟨_, doc4_extended_single it h ws _ 1 (by norm_num) (by decide),
        Or.inr (Or.inr (Or.inl rfl))⟩
    · exact ⟨_, doc4_extended_nil it h ws _ (by decide),
        Or.inr (Or.inr (Or.inr rfl))⟩
    · exact ⟨_, doc4_extended_nil it h ws _ (by decide),
        Or.inr (Or.inr (Or.inr rfl))⟩

theorem doc4_frontier_ne (prior : State ℝ) (n : Nat) :
    (Extract.steps (realEnv it h) doc4 prior n).from_set ≠ [] := by
  obtain ⟨c, hc, -⟩ := doc4_frontier it h prior n
  rw [hc]
  simp

end doc4

/-! ## The runs of `Extract` on `doc13` under two enumeration orders -/

section doc13

variable (it : List (Int × Int) → List (Int × Int)) (h : ∀ m, (it m).Perm m)

theorem doc13_begin (prior : State ℝ) :
    (Extract.steps (realEnv it h) doc13 prior 0).from_set = [⟨[1], [2, 5, 8, 11]⟩] ∧
    (Extract.steps (realEnv it h) doc13 prior 0).phrases = [] := by
  have s0 : PhraseBeginSet.seeds (realEnv it h) doc13 0 = [] := by
    rw [PhraseBeginSet_seeds_eq, if_neg]
    rintro ⟨⟨-, hs⟩, -⟩
    revert hs
    decide
  have s1 : PhraseBeginSet.seeds (realEnv it h) doc13 1 = [⟨[1], [2, 5, 8, 11]⟩] := by
    have h3 : (LeftAdjacent.collect doc13 (doc13.word_index 1) 0).1 = [(0, 2), (4, 2)] := by
      decide
    rw [PhraseBeginSet_seeds_eq, if_pos]
    · rfl
    · refine ⟨⟨by decide, by decide⟩, ?_⟩
      rw [LeftAdjacent_fst, IsBoundary_real, h3]
      exact decide_eq_true (H_pair 0 4 2 (by norm_num)).1
  have s2 : PhraseBeginSet.seeds (realEnv it h) doc13 2 = [] := by
    have h3 : (LeftAdjacent.collect doc13 (doc13.word_index 2) 0).1 = [(1, 2)] := by decide
    rw [PhraseBeginSet_seeds_eq, if_neg]
    rintro ⟨-, hb⟩
    rw [LeftAdjacent_fst, IsBoundary_real, h3, decide_eq_true_eq] at hb
    linarith [(H_single 1 2 (by norm_num)).2]
  have s3 : PhraseBeginSet.seeds (realEnv it h) doc13 3 = [] := by
    rw [PhraseBeginSet_seeds_eq, if_neg]
    rintro ⟨⟨-, hs⟩, -⟩
    revert hs
    decide
  have s4 : PhraseBeginSet.seeds (realEnv it h) doc13 4 = [] := by
    rw [PhraseBeginSet_seeds_eq, if_neg]
    rintro ⟨⟨-, hs⟩, -⟩
    revert hs
    decide
  have hw : doc13.words_size = 5 := rfl
  simp only [Extract.steps, Extract_begin_eq, hw]
  simp [List.range_succ, s0, s1, s2, s3, s4]

theorem doc13_emitted_1 :
    DoIteration.emitted (realEnv it h) doc13 ⟨[1], [2, 5, 8, 11]⟩ =
      [⟨doc13, [1], tfOf (realEnv it h) doc13 4⟩] := by
  have h3 : (RightAdjacent.collect doc13 [2, 5, 8, 11]).1 = [(2, 2), (3, 2)] := by decide
  have h5 : (LeftAdjacent.collect doc13 [2, 5, 8, 11] 0).1 = [(0, 2), (4, 2)] := by decide
  rw [DoIteration_emitted_eq, if_pos]
  · rfl
  · refine ⟨?_, by simp, ?_⟩
    · rw [RightAdjacent_fst, h3, IsBoundary_real]
      exact decide_eq_true (H_pair 2 3 2 (by norm_num)).1
    · show (realEnv it h).lt _ (LeftAdjacent (realEnv it h) doc13 [2, 5, 8, 11] 0).1.entropy = true
      rw [LeftAdjacent_fst, h5, lt_boundary_real]
      exact decide_eq_true (H_pair 0 4 2 (by norm_num)).1

theorem doc13_extended_1_id :
    DoIteration.extended realEnvId doc13 ⟨[1], [2, 5, 8, 11]⟩ = [⟨[1, 2], [3, 6]⟩] := by
  have h3 : (RightAdjacent.collect doc13 [2, 5, 8, 11]).1 = [(2, 2), (3, 2)] := by decide
  have h4 : (CalcAdjacent realEnvId [(2, 2), (3, 2)]).major_word = 2 := rfl
  rw [DoIteration_extended_eq]
  simp only [RightAdjacent_fst, h3, h4]
  rw [if_pos]
  · rfl
  · refine ⟨by decide, by decide, ?_⟩
    rw [realEnvId, IsPhrase_real]
    exact decide_eq_true (H_pair 2 3 2 (by norm_num)).2

theorem doc13_extended_1_rev :
    DoIteration.extended realEnvRev doc13 ⟨[1], [2, 5, 8, 11]⟩ = [] := by
  have h3 : (RightAdjacent.collect doc13 [2, 5, 8, 11]).1 = [(2, 2), (3, 2)] := by decide
  have h4 : (CalcAdjacent realEnvRev [(2, 2), (3, 2)]).major_word = 3 := rfl
  rw [DoIteration_extended_eq]
  simp only [RightAdjacent_fst, h3, h4]
  rw [if_neg]
  rintro ⟨hs, -⟩
  revert hs
  decide

theorem doc13_extended_12 :
    DoIteration.extended realEnvId doc13 ⟨[1, 2], [3, 6]⟩ = [] := by
  have h3 : (RightAdjacent.collect doc13 [3, 6]).1 = [(4, 1), (0, 1)] := by decide
  have h4 : (CalcAdjacent realEnvId [(4, 1), (0, 1)]).major_word = 4 := rfl
  rw [DoIteration_extended_eq]
  simp only [RightAdjacent_fst, h3, h4]
  rw [if_neg]
  rintro ⟨hs, -⟩
  revert hs
  decide

theorem doc13_emitted_12 :
    DoIteration.emitted (realEnv it h) doc13 ⟨[1, 2], [3, 6]⟩ =
      [⟨doc13, [1, 2], tfOf (realEnv it h) doc13 2⟩] := by
  have h3 : (RightAdjacent.collect doc13 [3, 6]).1 = [(4, 1), (0, 1)] := by decide
  have h5 : (LeftAdjacent.collect doc13 [3, 6] 1).1 = [(0, 1), (4, 1)] := by decide
  rw [DoIteration_emitted_eq, if_pos]
  · rfl
  · refine ⟨?_, by simp, ?_⟩
    · rw [RightAdjacent_fst, h3, IsBoundary_real]
      exact decide_eq_true (H_pair 4 0 1 (by norm_num)).1
    · show (realEnv it h).lt _ (LeftAdjacent (realEnv it h) doc13 [3, 6] 1).1.entropy = true
      rw [LeftAdjacent_fst, h5, lt_boundary_real]
      exact decide_eq_true (H_pair 0 4 1 (by norm_num)).1

theorem doc13_run_id (prior : State ℝ) :
    Extract realEnvId doc13 prior 3 = some (Extract.steps realEnvId doc13 prior 2) ∧
    (Extract.steps realEnvId doc13 prior 2).phrases =
      [⟨doc13, [1], tfOf realEnvId doc13 4⟩, ⟨doc13, [1, 2], tfOf realEnvId doc13 2⟩] := by
  obtain ⟨f0, p0⟩ := doc13_begin id (fun _ => List.Perm.refl _) prior
  obtain ⟨f1, p1, -, -⟩ := Extract_steps_succ_single _ _ prior 0 _ f0
  rw [← realEnvId, doc13_extended_1_id] at f1
  rw [p0, ← realEnvId, realEnvId, doc13_emitted_1, ← realEnvId] at p1
  obtain ⟨f2, p2, -, -⟩ := Extract_steps_succ_single _ _ prior 1 _ f1
  rw [doc13_extended_12] at f2
  rw [p1, realEnvId, doc13_emitted_12, ← realEnvId] at p2
  exact ⟨Extract_of_steps_nil _ _ prior 2 f2, by simpa using p2⟩

theorem doc13_run_rev (prior : State ℝ) :
    Extract realEnvRev doc13 prior 3 = some (Extract.steps realEnvRev doc13 prior 2) ∧
    (Extract.steps realEnvRev doc13 prior 2).phrases =
      [⟨doc13, [1], tfOf realEnvRev doc13 4⟩] := by
  obtain ⟨f0, p0⟩ := doc13_begin List.reverse (fun m => List.reverse_perm m) prior
  obtain ⟨f1, p1, -, -⟩ := Extract_steps_succ_single _ _ prior 0 _ f0
  rw [← realEnvRev, doc13_extended_1_rev] at f1
  rw [p0, ← realEnvRev, realEnvRev, doc13_emitted_1, ← realEnvRev] at p1
  have e := Extract_steps_of_nil _ _ prior 1 f1 1
  have f2 : (Extract.steps realEnvRev doc13 prior 2).from_set = [] := by
    rw [show (2 : Nat) = 1 + 1 from rfl, e]; exact f1
  refine ⟨Extract_of_steps_nil _ _ prior 2 f2, ?_⟩
  rw [show (2 : Nat) = 1 + 1 from rfl, e]
  simpa using p1

end doc13

/-! ## Shared facts about the run on `doc7` -/

theorem doc7_phrase_mem :
    (⟨doc7, [0, 1], tfOf realEnvId doc7 3⟩ : Phrase ℝ) ∈
      (Extract.steps realEnvId doc7 State.empty 2).phrases := by
  have := (docABC_steps2 0 1 2 (fun _ => false) (fun _ => 0) id (fun _ => List.Perm.refl _)
    (by decide) (by decide) (by decide) rfl rfl (by decide) (by decide) State.empty).2.1
  show _ ∈ (Extract.steps (realEnv id _) (docABC 0 1 2 _ _) State.empty 2).phrases
  rw [this]
  exact List.mem_singleton.2 rfl

theorem doc7_consistent : Consistent doc7 := by decide

theorem doc7_distinct : DistinctInRange doc7 := by decide

/-! ## C1: termination of `Extract` -/

/-- C1 (the code does not do what the claim says): on the consistent four-token document
`[1, 0, 0, 0]`, whose words are no stopwords, the loop of `Extract` never ends, whatever the
enumeration order of the maps: `Extract` runs out of every amount of fuel, no frontier is
ever empty, and the number of `DoIteration` calls after `n` runs of the loop body is `n`,
which exceeds the size `4` of the document. -/
theorem Extract_diverges (it : List (Int × Int) → List (Int × Int))
    (h : ∀ m, (it m).Perm m) (prior : State ℝ) :
    Consistent doc4 ∧ doc4.size = 4 ∧
    (∀ fuel, Extract (realEnv it h) doc4 prior fuel = none) ∧
    (∀ n, (Extract.steps (realEnv it h) doc4 prior n).from_set ≠ [] ∧
      (Extract.steps (realEnv it h) doc4 prior n).iterations = n) := by
  refine ⟨by decide, rfl, ?_, ?_⟩
  · intro fuel
    exact Extract_loop_none _ _ prior (doc4_frontier_ne it h prior) fuel 0
  · intro n
    exact ⟨doc4_frontier_ne it h prior n,
      Extract_steps_iterations _ _ prior (doc4_frontier_ne it h prior) n⟩

theorem Extract_diverges_witness :
    (∀ m : List (Int × Int), (id m).Perm m) ∧
    Consistent doc4 ∧ doc4.size = 4 ∧
    (∀ fuel, Extract (realEnv id (fun _ => List.Perm.refl _)) doc4 State.empty fuel = none) ∧
    (∀ n,
      (Extract.steps (realEnv id (fun _ => List.Perm.refl _)) doc4 State.empty n).from_set ≠
        [] ∧
      (Extract.steps (realEnv id (fun _ => List.Perm.refl _)) doc4 State.empty n).iterations =
        n) :=
  ⟨fun _ => List.Perm.refl _,
    Extract_diverges id (fun _ => List.Perm.refl _) State.empty⟩

/-! ## C2: the value of `tf` -/

/-- C2: for a consistent document, every phrase in the output list of `Extract` (after any
number of runs of its loop body) was emitted for a candidate of some frontier whose index
holds as many positions as there are positions at which the words of the phrase occur in the
document as a contiguous run, and its `tf` is what line 192 computes from that number: its
quotient by `1e-38 + size`. -/
theorem Extract_tf_eq_occurrences (env : Env E) (doc : Document) (prior : State E)
    (hc : Consistent doc) (n : Nat) (p : Phrase E)
    (hp : p ∈ (Extract.steps env doc prior n).phrases) :
    p.tf = tfOf env doc (occurrences doc p.words) ∧
    ∃ k c, c ∈ (Extract.steps env doc prior k).from_set ∧
      p ∈ DoIteration.emitted env doc c ∧
      c.index.length = occurrences doc p.words := by
  obtain ⟨k, c, hk, hpc⟩ := Extract_phrase_origin env doc prior n p hp
  obtain ⟨hpe, -⟩ := DoIteration_mem_emitted env doc c p hpc
  have hl := IndexExact_length doc c (Extract_frontier_exact env doc prior hc k c hk)
  have hw : p.words = c.words := by rw [hpe]
  refine ⟨?_, k, c, hk, hpc, by rw [hw, hl]⟩
  rw [hw, ← hl, hpe]

theorem Extract_tf_eq_occurrences_witness :
    Consistent doc7 ∧
    (⟨doc7, [0, 1], tfOf realEnvId doc7 3⟩ : Phrase ℝ) ∈
      (Extract.steps realEnvId doc7 State.empty 2).phrases ∧
    (⟨doc7, [0, 1], tfOf realEnvId doc7 3⟩ : Phrase ℝ).tf =
      tfOf realEnvId doc7 (occurrences doc7 [0, 1]) :=
  ⟨doc7_consistent, doc7_phrase_mem,
    (Extract_tf_eq_occurrences realEnvId doc7 State.empty doc7_consistent 2 _
      doc7_phrase_mem).1⟩

/-! ## C3: the bounds of `tf` -/

/-- C3: when every `word_index` list holds distinct positions of `[0, size)`, every phrase
in the output list of `Extract` was emitted for a candidate of some frontier, its `tf` is
what line 192 computes from the size `k` of the index of that candidate, and the exact
rational `k / size` is greater than `0` and at most `1`. -/
theorem Extract_tf_bounds (env : Env E) (doc : Document) (prior : State E)
    (hd : DistinctInRange doc) (n : Nat) (p : Phrase E)
    (hp : p ∈ (Extract.steps env doc prior n).phrases) :
    ∃ j c, c ∈ (Extract.steps env doc prior j).from_set ∧
      p ∈ DoIteration.emitted env doc c ∧
      p.tf = tfOf env doc c.index.length ∧
      (0 : ℚ) < (c.index.length : ℚ) / (doc.size : ℚ) ∧
      (c.index.length : ℚ) / (doc.size : ℚ) ≤ 1 := by
  obtain ⟨j, c, hj, hpc⟩ := Extract_phrase_origin env doc prior n p hp
  obtain ⟨hpe, h1⟩ := DoIteration_mem_emitted env doc c p hpc
  have h2 := IndexInRange_length doc c (Extract_frontier_in_range env doc prior hd j c hj)
  have hs : (0 : ℚ) < (doc.size : ℚ) := by
    have : 0 < doc.size := by omega
    exact_mod_cast this
  refine ⟨j, c, hj, hpc, by rw [hpe], ?_, ?_⟩
  · apply div_pos _ hs
    have : 0 < c.index.length := by omega
    exact_mod_cast this
  · rw [div_le_one hs]
    exact_mod_cast h2

theorem Extract_tf_bounds_witness :
    DistinctInRange doc7 ∧
    (⟨doc7, [0, 1], tfOf realEnvId doc7 3⟩ : Phrase ℝ) ∈
      (Extract.steps realEnvId doc7 State.empty 2).phrases ∧
    ∃ j c, c ∈ (Extract.steps realEnvId doc7 State.empty j).from_set ∧
      (⟨doc7, [0, 1], tfOf realEnvId doc7 3⟩ : Phrase ℝ) ∈
        DoIteration.emitted realEnvId doc7 c ∧
      (⟨doc7, [0, 1], tfOf realEnvId doc7 3⟩ : Phrase ℝ).tf =
        tfOf realEnvId doc7 c.index.length ∧
      (0 : ℚ) < (c.index.length : ℚ) / (doc7.size : ℚ) ∧
      (c.index.length : ℚ) / (doc7.size : ℚ) ≤ 1 :=
  ⟨doc7_distinct, doc7_phrase_mem,
    Extract_tf_bounds realEnvId doc7 State.empty doc7_distinct 2 _ doc7_phrase_mem⟩

/-! ## C4: the positions `LeftAdjacent` reads -/

theorem LeftAdjacent_collect_reads (doc : Document) (word_index : List Int)
    (index_offset : Int) :
    (LeftAdjacent.collect doc word_index index_offset).2 =
      (word_index.filter (fun idx => decide (idx > 0))).map
        (fun idx => idx - index_offset - 1) := by
  unfold LeftAdjacent.collect
  suffices h : ∀ (a : List (Int × Int) × List Int),
      (word_index.foldl (fun a idx =>
        if idx > 0 then
          (incr a.1 (doc.word (idx - index_offset - 1)), a.2 ++ [idx - index_offset - 1])
        else a) a).2 =
      a.2 ++ (word_index.filter (fun idx => decide (idx > 0))).map
        (fun idx => idx - index_offset - 1) by
    simpa using h ([], [])
  induction word_index with
  | nil => simp
  | cons idx l ih =>
    intro a
    rw [List.foldl_cons, ih]
    by_cases h1 : idx > 0
    · simp [h1, List.filter_cons]
    · simp [h1, List.filter_cons]

/-- C4 (the code does not do what the claim says): `LeftAdjacent` reads the position
`idx - index_offset - 1` for every `idx` of its list with `idx > 0`, whatever
`index_offset` is, and not only for those with `idx - index_offset - 1 ≥ 0`. On the
document `[0, 1, 0, 1, 2, 0, 1]` the second run of `DoIteration` holds the candidate `[0, 1]`
with index `[1, 3, 6]` and calls `LeftAdjacent` with `index_offset = 1`, which reads the
positions `-1`, `1` and `4`: the position `-1` is in the log of the reads of `Extract`. -/
theorem LeftAdjacent_reads_before_start :
    (∀ (doc : Document) (word_index : List Int) (index_offset : Int),
      (LeftAdjacent realEnvId doc word_index index_offset).2 =
        (word_index.filter (fun idx => decide (idx > 0))).map
          (fun idx => idx - index_offset - 1)) ∧
    Consistent doc7 ∧
    (⟨[0, 1], [1, 3, 6]⟩ : PhraseCandidate) ∈
      (Extract.steps realEnvId doc7 State.empty 1).from_set ∧
    (LeftAdjacent realEnvId doc7 [1, 3, 6] ((([0, 1] : List Int).length : Int) - 1)).2 =
      [-1, 1, 4] ∧
    (-1 : Int) ∈ (Extract.steps realEnvId doc7 State.empty 2).reads := by
  have h1 := (docABC_steps1 0 1 2 (fun _ => false) (fun _ => 0) id (fun _ => List.Perm.refl _)
    (by decide) (by decide) (by decide) rfl rfl (by decide) (by decide) State.empty).1
  have h2 := (docABC_steps2 0 1 2 (fun _ => false) (fun _ => 0) id (fun _ => List.Perm.refl _)
    (by decide) (by decide) (by decide) rfl rfl (by decide) (by decide) State.empty).2.2
  refine ⟨fun doc wi off => LeftAdjacent_collect_reads doc wi off, doc7_consistent, ?_,
    by decide, h2⟩
  show _ ∈ (Extract.steps (realEnv id _) (docABC 0 1 2 _ _) State.empty 1).from_set
  rw [h1]
  exact List.mem_singleton.2 rfl


/-! ## C5: when a phrase is emitted -/

/-- C5, as stated, fails: on the document `[0, 1, 0, 1, 2, 0, 1]` the seed `[0]` with index
`[0, 2, 5]` is in the first frontier, its left-adjacent entropy recomputed with offset
`len(words) - 1` exceeds `kBoundaryThreshold` and its index holds more than one position,
yet no phrase is emitted for it (its right-adjacent entropy is below the threshold). -/
theorem emission_needs_right_boundary :
    Consistent doc7 ∧
    (⟨[0], [0, 2, 5]⟩ : PhraseCandidate) ∈
      (Extract.steps realEnvId doc7 State.empty 0).from_set ∧
    ¬ (DoIteration.emitted realEnvId doc7 ⟨[0], [0, 2, 5]⟩ ≠ [] ↔
      (realEnvId.lt (kBoundaryThreshold realEnvId)
          (LeftAdjacent realEnvId doc7 [0, 2, 5]
            ((([0] : List Int).length : Int) - 1)).1.entropy = true ∧
        ([0, 2, 5] : List Int).length > 1)) := by
  have h0 := (docABC_steps0 0 1 2 (fun _ => false) (fun _ => 0) id (fun _ => List.Perm.refl _)
    (by decide) (by decide) (by decide) rfl (by decide) (by decide) State.empty).1
  have he : DoIteration.emitted realEnvId doc7 ⟨[0], [0, 2, 5]⟩ = [] :=
    docABC_emitted_A 0 1 2 (fun _ => false) (fun _ => 0) id (fun _ => List.Perm.refl _)
  have hl : realEnvId.lt (kBoundaryThreshold realEnvId)
      (LeftAdjacent realEnvId doc7 [0, 2, 5] ((([0] : List Int).length : Int) - 1)).1.entropy =
        true := by
    have hm : (LeftAdjacent.collect doc7 [0, 2, 5] ((([0] : List Int).length : Int) - 1)).1 =
        [(1, 1), (2, 1)] := by decide
    rw [LeftAdjacent_fst, hm, realEnvId, lt_boundary_real]
    exact decide_eq_true (H_pair 1 2 1 (by norm_num)).1
  refine ⟨doc7_consistent, ?_, ?_⟩
  · show _ ∈ (Extract.steps (realEnv id _) (docABC 0 1 2 _ _) State.empty 0).from_set
    rw [h0]
    exact List.mem_singleton.2 rfl
  · rw [he]
    intro hiff
    exact (hiff.2 ⟨hl, by decide⟩) rfl

/-- C5, amended: the loop body of `DoIteration` appends a phrase for the candidate `c` if
and only if the right-adjacent entropy exceeds `kBoundaryThreshold` (`IsBoundary` on the
record of `RightAdjacent`), the index of `c` holds more than one position and the
left-adjacent entropy recomputed with offset `len(words) - 1` exceeds `kBoundaryThreshold`;
the phrase has the words of `c` and the `tf` of line 192. Whether `c` was extended does not
matter: the emission after the extension step appends what the emission alone appends. -/
theorem DoIteration_emits_iff (env : Env E) (doc : Document) (s : State E)
    (c : PhraseCandidate) (adjacent : Adjacent E) :
    (DoIteration.body env doc s c).phrases =
      s.phrases ++
        (if IsBoundary env (RightAdjacent env doc c.index).1 = true ∧
            c.index.length > 1 ∧
            env.lt (kBoundaryThreshold env)
              (LeftAdjacent env doc c.index ((c.words.length : Int) - 1)).1.entropy = true then
          [{ document := doc, words := c.words, tf := tfOf env doc c.index.length }]
        else []) ∧
    (DoIteration.emit env doc c adjacent (DoIteration.grow env doc c adjacent s)).phrases =
      (DoIteration.emit env doc c adjacent s).phrases := by
  constructor
  · rw [DoIteration_body_eq, DoIteration_emitted_eq]
  · unfold DoIteration.emit DoIteration.grow
    simp only []
    split_ifs <;> rfl

/-! ## C6: the enumeration order of the frequency map -/

theorem CalcAdjacent_scan_max_aux (items : List (Int × Int)) (a : Int × Int × Int) :
    (items.foldl (fun a it => if it.2 > a.2.1 then (a.1 + it.2, it.2, it.1)
                           else (a.1 + it.2, a.2.1, a.2.2)) a).2.1 =
      (items.map Prod.snd).foldl max a.2.1 := by
  induction items generalizing a with
  | nil => simp
  | cons x l ih =>
    rw [List.foldl_cons, ih]
    simp only [List.map_cons, List.foldl_cons]
    split_ifs with hx
    · rw [max_eq_right (le_of_lt hx)]
    · rw [max_eq_left (not_lt.1 hx)]

theorem CalcAdjacent_scan_max_perm {l l' : List (Int × Int)} (hp : l.Perm l') :
    (CalcAdjacent.scan l).2.1 = (CalcAdjacent.scan l').2.1 := by
  unfold CalcAdjacent.scan
  rw [CalcAdjacent_scan_max_aux, CalcAdjacent_scan_max_aux]
  exact (hp.map Prod.snd).foldl_eq' (fun x _ y _ z => by
    rw [max_assoc, max_assoc, max_comm x y]) _

/-- Two orders that give every map the same major word give `CalcAdjacent` the same result
over the reals. -/
theorem CalcAdjacent_real_congr (it1 it2 : List (Int × Int) → List (Int × Int))
    (h1 : ∀ m, (it1 m).Perm m) (h2 : ∀ m, (it2 m).Perm m)
    (hm : ∀ m, (CalcAdjacent.scan (it1 m)).2.2 = (CalcAdjacent.scan (it2 m)).2.2)
    (m : List (Int × Int)) :
    CalcAdjacent (realEnv it1 h1) m = CalcAdjacent (realEnv it2 h2) m := by
  have he : (CalcAdjacent (realEnv it1 h1) m).entropy =
      (CalcAdjacent (realEnv it2 h2) m).entropy := by
    rw [CalcAdjacent_real_entropy, CalcAdjacent_real_entropy]
  have hw : (CalcAdjacent (realEnv it1 h1) m).major_word =
      (CalcAdjacent (realEnv it2 h2) m).major_word := hm m
  have hf : (CalcAdjacent (realEnv it1 h1) m).major_word_freq =
      (CalcAdjacent (realEnv it2 h2) m).major_word_freq :=
    CalcAdjacent_scan_max_perm ((h1 m).trans (h2 m).symm)
  cases hx : CalcAdjacent (realEnv it1 h1) m
  cases hy : CalcAdjacent (realEnv it2 h2) m
  rw [hx, hy] at he hw hf
  simp only at he hw hf
  rw [he, hw, hf]

theorem Extract_real_congr (it1 it2 : List (Int × Int) → List (Int × Int))
    (h1 : ∀ m, (it1 m).Perm m) (h2 : ∀ m, (it2 m).Perm m)
    (hm : ∀ m, (CalcAdjacent.scan (it1 m)).2.2 = (CalcAdjacent.scan (it2 m)).2.2)
    (doc : Document) :
    PhraseBeginSet (realEnv it1 h1) doc = PhraseBeginSet (realEnv it2 h2) doc ∧
    DoIteration.body (realEnv it1 h1) doc = DoIteration.body (realEnv it2 h2) doc := by
  have hc := CalcAdjacent_real_congr it1 it2 h1 h2 hm
  have hl : ∀ idx off, LeftAdjacent (realEnv it1 h1) doc idx off =
      LeftAdjacent (realEnv it2 h2) doc idx off := by
    intro idx off
    simp only [LeftAdjacent, hc]
  have hr : ∀ idx, RightAdjacent (realEnv it1 h1) doc idx =
      RightAdjacent (realEnv it2 h2) doc idx := by
    intro idx
    simp only [RightAdjacent, hc]
  constructor
  · funext s
    unfold PhraseBeginSet
    congr 1
    funext s w
    simp only [PhraseBeginSet.body, hl]
    rfl
  · funext s c
    simp only [DoIteration.body, hr, DoIteration.grow, DoIteration.emit, hl]
    rfl

/-- C6, as stated, fails: on `doc13` the run with the maps enumerated in first-insertion
order returns the phrases `[1]` and `[1, 2]`, and the run with the maps enumerated in the
reverse order returns the phrase `[1]` only (the right neighbours `2` and `3` of the word
`1` tie with count `2`, and `3` is a stopword). -/
theorem Extract_depends_on_map_order :
    Consistent doc13 ∧
    ∃ s1 s2 : State ℝ,
      Extract realEnvId doc13 State.empty 3 = some s1 ∧
      Extract realEnvRev doc13 State.empty 3 = some s2 ∧
      s1.phrases.map (fun p => (p.words, p.tf)) =
        [([1], tfOf realEnvId doc13 4), ([1, 2], tfOf realEnvId doc13 2)] ∧
      s2.phrases.map (fun p => (p.words, p.tf)) = [([1], tfOf realEnvRev doc13 4)] := by
  obtain ⟨e1, p1⟩ := doc13_run_id State.empty
  obtain ⟨e2, p2⟩ := doc13_run_rev State.empty
  exact ⟨by decide, _, _, e1, e2, by rw [p1]; rfl, by rw [p2]; rfl⟩

/-- C6, amended: over the reals, two enumeration orders of the frequency maps that give
every map the same major word (the first entry with the greatest count in the order of
enumeration) make `Extract` return the same result, hence the same phrases with the same
occurrence counts. -/
theorem Extract_order_independent (it1 it2 : List (Int × Int) → List (Int × Int))
    (h1 : ∀ m, (it1 m).Perm m) (h2 : ∀ m, (it2 m).Perm m)
    (hm : ∀ m, (CalcAdjacent.scan (it1 m)).2.2 = (CalcAdjacent.scan (it2 m)).2.2)
    (doc : Document) (prior : State ℝ) (fuel : Nat) :
    Extract (realEnv it1 h1) doc prior fuel = Extract (realEnv it2 h2) doc prior fuel := by
  obtain ⟨hb, hd⟩ := Extract_real_congr it1 it2 h1 h2 hm doc
  have hbody : Extract.body (realEnv it1 h1) doc = Extract.body (realEnv it2 h2) doc := by
    funext s
    simp only [Extract.body, DoIteration, hd]
  have hloop : ∀ fuel s, Extract.loop (realEnv it1 h1) doc fuel s =
      Extract.loop (realEnv it2 h2) doc fuel s := by
    intro fuel
    induction fuel with
    | zero => intro s; rfl
    | succ fuel ih =>
      intro s
      simp only [Extract.loop, hbody, ih]
  simp only [Extract, Extract.begin, hb, hloop]

theorem swapOrder_perm (m : List (Int × Int)) : (swapOrder m).Perm m := by
  unfold swapOrder
  split
  · split_ifs
    · exact List.Perm.swap _ _ _
    · exact List.Perm.refl _
  · exact List.Perm.refl _

theorem swapOrder_major (m : List (Int × Int)) :
    (CalcAdjacent.scan (id m)).2.2 = (CalcAdjacent.scan (swapOrder m)).2.2 := by
  unfold swapOrder
  split
  · rename_i a b
    obtain ⟨a1, a2⟩ := a
    obtain ⟨b1, b2⟩ := b
    split_ifs with hab
    · simp only [id, CalcAdjacent.scan, List.foldl_cons, List.foldl_nil] at hab ⊢
      by_cases ha : a2 > 0
      · have hb : b2 > 0 := by omega
        have hba : ¬ a2 > b2 := by omega
        simp [ha, hb, hab, hba]
      · by_cases hb : b2 > 0
        · have hba : ¬ a2 > b2 := by omega
          simp [ha, hb, hba]
        · simp [ha, hb]
    · rfl
  · rfl

theorem Extract_order_independent_witness :
    (∀ m, (CalcAdjacent.scan (id m)).2.2 = (CalcAdjacent.scan (swapOrder m)).2.2) ∧
    swapOrder [(2, 1), (3, 2)] ≠ id [(2, 1), (3, 2)] ∧
    Extract (realEnv id (fun _ => List.Perm.refl _)) doc13 State.empty 3 =
      Extract (realEnv swapOrder swapOrder_perm) doc13 State.empty 3 :=
  ⟨swapOrder_major, by decide,
    Extract_order_independent id swapOrder (fun _ => List.Perm.refl _) swapOrder_perm
      swapOrder_major doc13 State.empty 3⟩


/-! ## C7: the example of section 8 -/

theorem docABC_occurrences (A B C : Int) (stop : Int → Bool) (junk : Int → Int)
    (hAB : A ≠ B) (hAC : A ≠ C) :
    occurrences (docABC A B C stop junk) [A, B] = 3 := by
  obtain ⟨h0, h1, h2, h3, h4, h5, h6, -⟩ := docABC_word A B C stop junk
  have hs : (docABC A B C stop junk).size = 7 := rfl
  simp [occurrences, hs, List.range_succ, List.filter_cons, occursAt, h0, h1, h2, h3, h4, h5,
    h6, hAB, hAB.symm, hAC.symm]

/-- C7, as stated, fails: for `A = 0`, `B = 1`, `C = 2` (no stopword, maps enumerated in
first-insertion order) `Extract` returns on `[A, B, A, B, C, A, B]` the single phrase
`[A, B]` with the `tf` of the count `3`, which is not the `tf` of the count `2`: the word
sequence `[A, B]` occurs three times in the document, at the positions `0`, `2` and `5`. -/
theorem doc7_phrase_count_not_two :
    Consistent doc7 ∧
    ∃ s : State ℝ,
      Extract realEnvId doc7 State.empty 5 = some s ∧
      s.phrases = [⟨doc7, [0, 1], tfOf realEnvId doc7 3⟩] ∧
      occurrences doc7 [0, 1] = 3 ∧
      ¬ ∃ p ∈ s.phrases, p.words = [0, 1] ∧ p.tf = tfOf realEnvId doc7 2 := by
  have h4 := docABC_steps4 0 1 2 (fun _ => false) (fun _ => 0) id
    (fun _ => List.Perm.refl _) (by decide) (by decide) (by decide) rfl rfl (by decide)
    (by decide) State.empty
  have f4 : (Extract.steps realEnvId doc7 State.empty 4).from_set = [] := h4.1
  have p4 : (Extract.steps realEnvId doc7 State.empty 4).phrases =
      [⟨doc7, [0, 1], tfOf realEnvId doc7 3⟩] := h4.2
  refine ⟨doc7_consistent, _, Extract_of_steps_nil _ _ State.empty 4 f4, p4, by decide, ?_⟩
  rintro ⟨p, hp, -, ht⟩
  rw [p4, List.mem_singleton] at hp
  subst hp
  have h32 : tfOf realEnvId doc7 3 ≠ tfOf realEnvId doc7 2 := by
    rw [realEnvId, tfOf_real, tfOf_real]
    have hs : (doc7.size : ℝ) = 7 := by
      have : doc7.size = 7 := rfl
      rw [this]; norm_num
    rw [hs]
    norm_num
  exact h32 ht

/-- C7, amended: for the seven-token document `[A, B, A, B, C, A, B]` over the vocabulary
`{0, 1, 2}` with `A`, `B`, `C` distinct and `A`, `B` no stopwords, whatever the enumeration
order of the maps and whatever a read before the start of the document yields, `Extract`
returns (over the reals, with fuel for five tests of its loop condition) a phrase list that
contains a phrase with words `[A, B]` whose occurrence count is `3`: its `tf` is
`3 / (1e-38 + 7)`, and `[A, B]` occurs three times in the document. -/
theorem docABC_phrase_AB (A B C : Int) (stop : Int → Bool) (junk : Int → Int)
    (it : List (Int × Int) → List (Int × Int)) (h : ∀ m, (it m).Perm m) (prior : State ℝ)
    (hAB : A ≠ B) (hAC : A ≠ C) (hBC : B ≠ C) (hsA : stop A = false) (hsB : stop B = false)
    (hA0 : 0 ≤ A) (hA3 : A < 3) :
    ∃ s : State ℝ,
      Extract (realEnv it h) (docABC A B C stop junk) prior 5 = some s ∧
      occurrences (docABC A B C stop junk) [A, B] = 3 ∧
      ∃ p ∈ s.phrases, p.words = [A, B] ∧
        p.tf = tfOf (realEnv it h) (docABC A B C stop junk) 3 ∧
        p.tf = (3 : ℝ) / (((1e-38 : ℚ) : ℝ) + 7) := by
  obtain ⟨f4, p4⟩ := docABC_steps4 A B C stop junk it h hAB hAC hBC hsA hsB hA0 hA3 prior
  refine ⟨_, Extract_of_steps_nil _ _ prior 4 f4,
    docABC_occurrences A B C stop junk hAB hAC,
    ⟨docABC A B C stop junk, [A, B], tfOf (realEnv it h) (docABC A B C stop junk) 3⟩,
    ?_, rfl, rfl, ?_⟩
  · rw [p4]
    exact List.mem_singleton.2 rfl
  · show tfOf (realEnv it h) (docABC A B C stop junk) 3 = _
    rw [tfOf_real]
    have hs : ((docABC A B C stop junk).size : ℝ) = 7 := by
      have : (docABC A B C stop junk).size = 7 := rfl
      rw [this]; norm_num
    rw [hs]
    norm_num

theorem docABC_phrase_AB_witness :
    ((0 : Int) ≠ 1 ∧ (0 : Int) ≠ 2 ∧ (1 : Int) ≠ 2) ∧
    ∃ s : State ℝ,
      Extract realEnvId (docABC 0 1 2 (fun _ => false) (fun _ => 0)) State.empty 5 = some s ∧
      occurrences (docABC 0 1 2 (fun _ => false) (fun _ => 0)) [0, 1] = 3 ∧
      ∃ p ∈ s.phrases, p.words = [0, 1] ∧
        p.tf = tfOf realEnvId (docABC 0 1 2 (fun _ => false) (fun _ => 0)) 3 ∧
        p.tf = (3 : ℝ) / (((1e-38 : ℚ) : ℝ) + 7) :=
  ⟨by decide,
    docABC_phrase_AB 0 1 2 (fun _ => false) (fun _ => 0) id (fun _ => List.Perm.refl _)
      State.empty (by decide) (by decide) (by decide) rfl rfl (by decide) (by decide)⟩

/-! ## C8: the minimum number of occurrences -/

/-- C8: every phrase in the output list of `Extract` was emitted for a candidate of some
frontier whose index holds at least `2` positions, and when the document is consistent the
words of the phrase occur at least twice in the document. -/
theorem Extract_phrase_min_index (env : Env E) (doc : Document) (prior : State E)
    (n : Nat) (p : Phrase E) (hp : p ∈ (Extract.steps env doc prior n).phrases) :
    ∃ k c, c ∈ (Extract.steps env doc prior k).from_set ∧
      p ∈ DoIteration.emitted env doc c ∧ p.words = c.words ∧ 2 ≤ c.index.length ∧
      (Consistent doc → 2 ≤ occurrences doc p.words) := by
  obtain ⟨k, c, hk, hpc⟩ := Extract_phrase_origin env doc prior n p hp
  obtain ⟨hpe, h1⟩ := DoIteration_mem_emitted env doc c p hpc
  refine ⟨k, c, hk, hpc, by rw [hpe], h1, ?_⟩
  intro hc
  rw [hpe, ← IndexExact_length doc c (Extract_frontier_exact env doc prior hc k c hk)]
  exact h1

theorem Extract_phrase_min_index_witness :
    (⟨doc7, [0, 1], tfOf realEnvId doc7 3⟩ : Phrase ℝ) ∈
      (Extract.steps realEnvId doc7 State.empty 2).phrases ∧
    ∃ k c, c ∈ (Extract.steps realEnvId doc7 State.empty k).from_set ∧
      (⟨doc7, [0, 1], tfOf realEnvId doc7 3⟩ : Phrase ℝ) ∈
        DoIteration.emitted realEnvId doc7 c ∧
      (⟨doc7, [0, 1], tfOf realEnvId doc7 3⟩ : Phrase ℝ).words = c.words ∧
      2 ≤ c.index.length ∧
      (Consistent doc7 →
        2 ≤ occurrences doc7 (⟨doc7, [0, 1], tfOf realEnvId doc7 3⟩ : Phrase ℝ).words) :=
  ⟨doc7_phrase_mem, Extract_phrase_min_index realEnvId doc7 State.empty 2 _ doc7_phrase_mem⟩

/-! ## C9: the index of an extended candidate -/

theorem DoIteration_reindex_length (doc : Document) (index : List Int) (major_word : Int) :
    (DoIteration.reindex doc index major_word).1.length ≤ index.length := by
  rw [DoIteration_reindex_fst, List.length_map]
  exact List.length_filter_le _ _

/-- C9: the loop body of `DoIteration` appends to `to_set_`, for the candidate `c` it
popped, a list `l` of candidates (none or one), and the index of every candidate of `l`
holds at most as many positions as the index of `c`. -/
theorem DoIteration_index_shrinks (env : Env E) (doc : Document) (s : State E)
    (c : PhraseCandidate) :
    ∃ l, (DoIteration.body env doc s c).to_set = s.to_set ++ l ∧ l.length ≤ 1 ∧
      ∀ d ∈ l, d.index.length ≤ c.index.length := by
  refine ⟨DoIteration.extended env doc c, by rw [DoIteration_body_eq], ?_, ?_⟩
  · rw [DoIteration_extended_eq]
    split_ifs <;> simp
  · intro d hd
    rw [DoIteration_extended_eq] at hd
    split_ifs at hd
    · rw [List.mem_singleton.1 hd]
      exact DoIteration_reindex_length doc c.index _
    · simp at hd

/-! ## C10: the empty document -/

/-- C10: for a consistent document of size `0`, `Extract` returns (with any fuel for one
test of its loop condition or more) the state with an empty phrase list and empty
frontiers, after zero runs of `DoIteration` and without a read of a document position. -/
theorem Extract_empty_document (env : Env E) (doc : Document) (prior : State E)
    (hc : Consistent doc) (h0 : doc.size = 0) (fuel : Nat) :
    Extract env doc prior (fuel + 1) =
      some { from_set := [], to_set := [], phrases := [], reads := [], iterations := 0 } := by
  have htf : ∀ w ∈ List.range doc.words_size, ¬ (doc.tf (w : Int) > 1) := by
    intro w hw
    obtain ⟨h1, h2⟩ := hc.2 w hw
    rw [h2, h1, h0]
    simp
  have hs : ∀ w ∈ List.range doc.words_size, PhraseBeginSet.seeds env doc (w : Int) = [] := by
    intro w hw
    rw [PhraseBeginSet_seeds_eq, if_neg]
    rintro ⟨⟨ht, -⟩, -⟩
    exact htf w hw ht
  have hr : ∀ w ∈ List.range doc.words_size,
      PhraseBeginSet.readsOf env doc (w : Int) = [] := by
    intro w hw
    rw [PhraseBeginSet_readsOf_eq, if_neg]
    rintro ⟨ht, -⟩
    exact htf w hw ht
  have hb : Extract.begin env doc prior =
      { from_set := [], to_set := [], phrases := [], reads := [], iterations := 0 } := by
    rw [Extract_begin_eq]
    have e1 : (List.range doc.words_size).flatMap
        (fun (w : Nat) => PhraseBeginSet.seeds env doc (w : Int)) = [] := by
      rw [List.flatMap_eq_nil_iff]
      exact hs
    have e2 : (List.range doc.words_size).flatMap
        (fun (w : Nat) => PhraseBeginSet.readsOf env doc (w : Int)) = [] := by
      rw [List.flatMap_eq_nil_iff]
      exact hr
    rw [e1, e2]
  rw [Extract, hb]
  simp [Extract.loop]

theorem Extract_empty_document_witness :
    Consistent docEmpty ∧ docEmpty.size = 0 ∧
    Extract realEnvId docEmpty State.empty (0 + 1) =
      some { from_set := [], to_set := [], phrases := [], reads := [], iterations := 0 } :=
  ⟨by decide, rfl, Extract_empty_document realEnvId docEmpty State.empty (by decide) rfl 0⟩


/-! ## The maps that `LeftAdjacent` and `RightAdjacent` build -/

theorem incr_inv (m : List (Int × Int)) (key : Int)
    (h : (∀ e ∈ m, 0 < e.2) ∧ (m.map Prod.fst).Nodup) :
    (∀ e ∈ incr m key, 0 < e.2) ∧ ((incr m key).map Prod.fst).Nodup ∧
      ∀ k ∈ (incr m key).map Prod.fst, k = key ∨ k ∈ m.map Prod.fst := by
  induction m with
  | nil => simp [incr]
  | cons x m ih =>
    obtain ⟨k, v⟩ := x
    have hv : 0 < v := h.1 (k, v) (List.mem_cons_self _ _)
    have hm : (∀ e ∈ m, 0 < e.2) ∧ (m.map Prod.fst).Nodup :=
      ⟨fun e he => h.1 e (List.mem_cons_of_mem _ he), (List.nodup_cons.1 h.2).2⟩
    have hk : k ∉ m.map Prod.fst := (List.nodup_cons.1 h.2).1
    obtain ⟨i1, i2, i3⟩ := ih hm
    simp only [incr]
    split_ifs with hkk
    · refine ⟨?_, h.2, ?_⟩
      · intro e he
        rcases List.mem_cons.1 he with he | he
        · rw [he]
          show 0 < v + 1
          omega
        · exact hm.1 e he
      · intro a ha
        exact Or.inr ha
    · refine ⟨?_, ?_, ?_⟩
      · intro e he
        rcases List.mem_cons.1 he with he | he
        · rw [he]
          exact hv
        · exact i1 e he
      · rw [List.map_cons, List.nodup_cons]
        refine ⟨?_, i2⟩
        intro hmem
        rcases i3 k hmem with h4 | h4
        · exact hkk h4
        · exact hk h4
      · intro a ha
        rw [List.map_cons, List.mem_cons] at ha
        rcases ha with ha | ha
        · exact Or.inr (by rw [ha]; exact List.mem_cons_self _ _)
        · rcases i3 a ha with h4 | h4
          · exact Or.inl h4
          · exact Or.inr (List.mem_cons_of_mem _ h4)

/-- The maps that `LeftAdjacent` and `RightAdjacent` build have positive counts and
distinct keys. -/
theorem collect_inv (doc : Document) (word_index : List Int) (index_offset : Int) :
    ((∀ e ∈ (LeftAdjacent.collect doc word_index index_offset).1, 0 < e.2) ∧
      ((LeftAdjacent.collect doc word_index index_offset).1.map Prod.fst).Nodup) ∧
    ((∀ e ∈ (RightAdjacent.collect doc word_index).1, 0 < e.2) ∧
      ((RightAdjacent.collect doc word_index).1.map Prod.fst).Nodup) := by
  have hL : ∀ (l : List Int) (a : List (Int × Int) × List Int),
      ((∀ e ∈ a.1, 0 < e.2) ∧ (a.1.map Prod.fst).Nodup) →
      ((∀ e ∈ (l.foldl (fun a idx =>
          if idx > 0 then
            (incr a.1 (doc.word (idx - index_offset - 1)), a.2 ++ [idx - index_offset - 1])
          else a) a).1, 0 < e.2) ∧
        ((l.foldl (fun a idx =>
          if idx > 0 then
            (incr a.1 (doc.word (idx - index_offset - 1)), a.2 ++ [idx - index_offset - 1])
          else a) a).1.map Prod.fst).Nodup) := by
    intro l
    induction l with
    | nil => intro a ha; exact ha
    | cons idx l ih =>
      intro a ha
      rw [List.foldl_cons]
      apply ih
      split_ifs
      · have := incr_inv a.1 (doc.word (idx - index_offset - 1)) ha
        exact ⟨this.1, this.2.1⟩
      · exact ha
  have hR : ∀ (l : List Int) (a : List (Int × Int) × List Int),
      ((∀ e ∈ a.1, 0 < e.2) ∧ (a.1.map Prod.fst).Nodup) →
      ((∀ e ∈ (l.foldl (fun a idx =>
          if idx ≠ (doc.size : Int) - 1 then
            (incr a.1 (doc.word (idx + 1)), a.2 ++ [idx + 1])
          else a) a).1, 0 < e.2) ∧
        ((l.foldl (fun a idx =>
          if idx ≠ (doc.size : Int) - 1 then
            (incr a.1 (doc.word (idx + 1)), a.2 ++ [idx + 1])
          else a) a).1.map Prod.fst).Nodup) := by
    intro l
    induction l with
    | nil => intro a ha; exact ha
    | cons idx l ih =>
      intro a ha
      rw [List.foldl_cons]
      apply ih
      split_ifs
      · have := incr_inv a.1 (doc.word (idx + 1)) ha
        exact ⟨this.1, this.2.1⟩
      · exact ha
  exact ⟨hL word_index ([], []) (by simp), hR word_index ([], []) (by simp)⟩


/-! ## C11: the order of the output list -/

theorem Extract_steps_succ_phrases (env : Env E) (doc : Document) (prior : State E)
    (n : Nat) :
    (Extract.steps env doc prior (n + 1)).phrases =
      (Extract.steps env doc prior n).phrases ++
        (Extract.steps env doc prior n).from_set.reverse.flatMap
          (DoIteration.emitted env doc) := by
  rw [Extract_steps_succ]
  split_ifs with h0
  · rfl
  · have : (Extract.steps env doc prior n).from_set = [] := by
      simpa [List.length_eq_zero] using h0
    rw [this]
    simp

/-- The candidates of the frontier after `n` runs of the loop body have `n + 1` words. -/
theorem Extract_frontier_words_length (env : Env E) (doc : Document) (prior : State E)
    (n : Nat) : ∀ c ∈ (Extract.steps env doc prior n).from_set, c.words.length = n + 1 := by
  induction n with
  | zero =>
    intro c hc
    simp only [Extract.steps, Extract_begin_eq, List.mem_flatMap] at hc
    obtain ⟨w, -, hc⟩ := hc
    rw [PhraseBeginSet_seeds_eq] at hc
    split_ifs at hc
    · rw [List.mem_singleton.1 hc]
      rfl
    · simp at hc
  | succ n ih =>
    intro c hc
    rw [Extract_steps_succ] at hc
    split_ifs at hc with h0
    · simp only [List.mem_flatMap, List.mem_reverse] at hc
      obtain ⟨b, hb, hc⟩ := hc
      rw [DoIteration_extended_eq] at hc
      split_ifs at hc
      · rw [List.mem_singleton.1 hc]
        simp [ih b hb]
      · simp at hc
    · have : (Extract.steps env doc prior n).from_set = [] := by
        simpa [List.length_eq_zero] using h0
      rw [this] at hc
      simp at hc

theorem Extract_emitted_words_length (env : Env E) (doc : Document) (prior : State E)
    (n : Nat) :
    ∀ p ∈ (Extract.steps env doc prior n).from_set.reverse.flatMap
        (DoIteration.emitted env doc), p.words.length = n + 1 := by
  intro p hp
  simp only [List.mem_flatMap, List.mem_reverse] at hp
  obtain ⟨c, hc, hp⟩ := hp
  rw [(DoIteration_mem_emitted env doc c p hp).1]
  exact Extract_frontier_words_length env doc prior n c hc

theorem Extract_phrases_sorted (env : Env E) (doc : Document) (prior : State E) (n : Nat) :
    List.Pairwise (fun p q : Phrase E => p.words.length ≤ q.words.length)
        (Extract.steps env doc prior n).phrases ∧
      ∀ p ∈ (Extract.steps env doc prior n).phrases, p.words.length ≤ n := by
  induction n with
  | zero => simp [Extract.steps, Extract_begin_eq]
  | succ n ih =>
    rw [Extract_steps_succ_phrases]
    have hnew := Extract_emitted_words_length env doc prior n
    constructor
    · rw [List.pairwise_append]
      refine ⟨ih.1, ?_, ?_⟩
      · rw [List.pairwise_iff_forall_sublist]
        intro a b hab
        have ha := hnew a (hab.subset (List.mem_cons_self _ _))
        have hb := hnew b (hab.subset (List.mem_cons_of_mem _ (List.mem_singleton.2 rfl)))
        omega
      · intro a ha b hb
        have := ih.2 a ha
        have := hnew b hb
        omega
    · intro p hp
      rcases List.mem_append.1 hp with hp | hp
      · have := ih.2 p hp
        omega
      · have := hnew p hp
        omega

/-- C11: the `k`-th run of the loop body of `Extract` (`k` starting at `0`) appends to the
output list a list `l` of phrases that all have exactly `k + 1` words; hence the numbers of
words of the phrases are non-decreasing along the output list, after any number of runs
and in the state `Extract` returns. -/
theorem Extract_discovery_order (env : Env E) (doc : Document) (prior : State E) (k : Nat) :
    (∃ l, (Extract.steps env doc prior (k + 1)).phrases =
        (Extract.steps env doc prior k).phrases ++ l ∧
      ∀ p ∈ l, p.words.length = k + 1) ∧
    List.Pairwise (fun p q : Phrase E => p.words.length ≤ q.words.length)
      (Extract.steps env doc prior k).phrases ∧
    ∀ fuel s, Extract env doc prior fuel = some s →
      List.Pairwise (fun p q : Phrase E => p.words.length ≤ q.words.length) s.phrases := by
  refine ⟨⟨_, Extract_steps_succ_phrases env doc prior k,
    Extract_emitted_words_length env doc prior k⟩,
    (Extract_phrases_sorted env doc prior k).1, ?_⟩
  intro fuel s hs
  obtain ⟨n, rfl, -⟩ := Extract_some_steps env doc prior fuel s hs
  exact (Extract_phrases_sorted env doc prior n).1

/-! ## C12: the prior state of the driver -/

/-- The run that the witnesses of the claims on returned states use: with fuel for five
tests of the loop condition, `Extract` returns on `doc7` whatever the prior state is. -/
theorem doc7_Extract_returns (prior : State ℝ) :
    Extract realEnvId doc7 prior 5 = some (Extract.steps realEnvId doc7 prior 4) :=
  Extract_of_steps_nil realEnvId doc7 prior 4
    (docABC_steps4 0 1 2 (fun _ => false) (fun _ => 0) id (fun _ => List.Perm.refl _)
      (by decide) (by decide) (by decide) rfl rfl (by decide) (by decide) prior).1
/-- After `Alloc` and the assignment of the allocated record: the pointer is the old cursor,
the cursor moved by one and stays within the store, the allocated record holds the content
assigned, and the records handed out before are as they were. -/
theorem Pool_Alloc_assign {T : Type} (fresh : T) (pool : Pool T) (record : T)
    (h : pool.alloc_index ≤ pool.nodes.length) :
    (pool.Alloc fresh).1 = pool.alloc_index ∧
    ((pool.Alloc fresh).2.assign (pool.Alloc fresh).1 record).alloc_index =
      pool.alloc_index + 1 ∧
    ((pool.Alloc fresh).2.assign (pool.Alloc fresh).1 record).alloc_index ≤
      ((pool.Alloc fresh).2.assign (pool.Alloc fresh).1 record).nodes.length ∧
    ((pool.Alloc fresh).2.assign (pool.Alloc fresh).1 record).deref fresh
      (pool.Alloc fresh).1 = record ∧
    (∀ i, i < pool.alloc_index →
      ((pool.Alloc fresh).2.assign (pool.Alloc fresh).1 record).deref fresh i =
        pool.deref fresh i) ∧
    (∀ i, i < pool.alloc_index → (pool.Alloc fresh).2.deref fresh i = pool.deref fresh i) := by
  unfold Pool.Alloc
  by_cases hlt : pool.alloc_index < pool.nodes.length
  · simp only [hlt, if_true, Pool.assign, Pool.deref, List.length_set]
    refine ⟨trivial, trivial, hlt, ?_, ?_, ?_⟩
    · simp [List.getD_eq_getElem?_getD, hlt]
    · intro i hi
      simp [List.getD_eq_getElem?_getD, List.getElem?_set, Nat.ne_of_gt hi]
    · intro i hi
      simp [List.getD_eq_getElem?_getD, List.getElem?_set, Nat.ne_of_gt hi]
  · have he : pool.alloc_index = pool.nodes.length := Nat.le_antisymm h (Nat.le_of_not_lt hlt)
    simp only [hlt, if_false, Pool.assign, Pool.deref, List.length_set, List.length_append,
      List.length_singleton]
    refine ⟨he.symm, by rw [he], Nat.le_refl _, ?_, ?_, ?_⟩
    · simp [List.getD_eq_getElem?_getD]
    · intro i hi
      rw [he] at hi
      simp [List.getD_eq_getElem?_getD, List.getElem?_set, Nat.ne_of_gt hi,
        List.getElem?_append_left hi]
    · intro i hi
      rw [he] at hi
      simp [List.getD_eq_getElem?_getD, List.getElem?_append_left hi]

/-- One run of the loop body of `PhraseBeginSet` on a well-formed driver is the run on values:
the stale content of the allocated record does not show. -/
theorem Driver_PhraseBeginSet_body_sim (env : Env E) (doc : Document) (fresh : Phrase E)
    (d : Driver E) (word : Int) (hwf : d.WellFormed) :
    (Driver.PhraseBeginSet.body env doc d word).WellFormed ∧
    (Driver.PhraseBeginSet.body env doc d word).view fresh =
      PhraseBeginSet.body env doc (d.view fresh) word := by
  obtain ⟨h1, h2, h3, h4, h5⟩ := hwf
  unfold Driver.PhraseBeginSet.body PhraseBeginSet.body
  by_cases hc : doc.tf word > 1 ∧ doc.is_stopword word = false
  · by_cases hb : IsBoundary env (LeftAdjacent env doc (doc.word_index word) 0).1 = true
    · obtain ⟨a1, a2, a3, a4, a5, -⟩ := Pool_Alloc_assign { words := [], index := [] }
        d.candidate_pool
        (PhraseBeginSet.fill
          ((d.candidate_pool.Alloc { words := [], index := [] }).2.deref
            { words := [], index := [] }
            (d.candidate_pool.Alloc { words := [], index := [] }).1)
          word (doc.word_index word)) h1
      simp only [if_pos hc, if_pos hb]
      dsimp only [Driver.WellFormed, Driver.view]
      refine ⟨⟨a3, h2, ?_, ?_, h5⟩, ?_⟩
      · intro i hi
        rw [a2]
        rcases List.mem_append.1 hi with hi | hi
        · exact Nat.lt_succ_of_lt (h3 i hi)
        · rw [List.mem_singleton.1 hi, a1]
          exact Nat.lt_succ_self _
      · intro i hi
        rw [a2]
        exact Nat.lt_succ_of_lt (h4 i hi)
      · rw [List.map_append, List.map_singleton, a4,
          List.map_congr_left (fun i hi => a5 i (h3 i hi)),
          List.map_congr_left (fun i hi => a5 i (h4 i hi))]
        rfl
    · simp only [if_pos hc, if_neg hb]
      exact ⟨⟨h1, h2, h3, h4, h5⟩, rfl⟩
  · simp only [if_neg hc]
    exact ⟨⟨h1, h2, h3, h4, h5⟩, trivial⟩

theorem Driver_PhraseBeginSet_foldl_sim (env : Env E) (doc : Document) (fresh : Phrase E)
    (l : List Nat) : ∀ d : Driver E, d.WellFormed →
    (l.foldl (fun d (w : Nat) => Driver.PhraseBeginSet.body env doc d (w : Int)) d).WellFormed ∧
    (l.foldl (fun d (w : Nat) => Driver.PhraseBeginSet.body env doc d (w : Int)) d).view fresh =
      l.foldl (fun s (w : Nat) => PhraseBeginSet.body env doc s (w : Int)) (d.view fresh) := by
  induction l with
  | nil => intro d hwf; exact ⟨hwf, rfl⟩
  | cons w l ih =>
    intro d hwf
    obtain ⟨b1, b2⟩ := Driver_PhraseBeginSet_body_sim env doc fresh d (w : Int) hwf
    obtain ⟨i1, i2⟩ := ih _ b1
    refine ⟨i1, ?_⟩
    rw [List.foldl_cons, List.foldl_cons, i2, b2]

theorem Driver_DoIteration_grow_sim (env : Env E) (doc : Document) (fresh : Phrase E)
    (from_phrase : Nat) (adjacent : Adjacent E) (d : Driver E) (hwf : d.WellFormed)
    (hi : from_phrase < d.candidate_pool.alloc_index) :
    (Driver.DoIteration.grow env doc from_phrase adjacent d).WellFormed ∧
    (Driver.DoIteration.grow env doc from_phrase adjacent d).view fresh =
      DoIteration.grow env doc
        (d.candidate_pool.deref { words := [], index := [] } from_phrase) adjacent
        (d.view fresh) ∧
    (Driver.DoIteration.grow env doc from_phrase adjacent d).from_set = d.from_set ∧
    d.candidate_pool.alloc_index ≤
      (Driver.DoIteration.grow env doc from_phrase adjacent d).candidate_pool.alloc_index ∧
    (∀ i, i < d.candidate_pool.alloc_index →
      (Driver.DoIteration.grow env doc from_phrase adjacent d).candidate_pool.deref
        { words := [], index := [] } i =
      d.candidate_pool.deref { words := [], index := [] } i) := by
  obtain ⟨h1, h2, h3, h4, h5⟩ := hwf
  unfold Driver.DoIteration.grow DoIteration.grow
  by_cases hc : ((!doc.is_stopword adjacent.major_word) &&
      decide (doc.tf adjacent.major_word > 2) && IsPhrase env adjacent) = true
  · obtain ⟨a1, a2, a3, a4, a5, a6⟩ := Pool_Alloc_assign { words := [], index := [] }
      d.candidate_pool
      (DoIteration.fill doc
        ((d.candidate_pool.Alloc { words := [], index := [] }).2.deref
          { words := [], index := [] }
          (d.candidate_pool.Alloc { words := [], index := [] }).1)
        ((d.candidate_pool.Alloc { words := [], index := [] }).2.deref
          { words := [], index := [] } from_phrase)
        adjacent.major_word) h1
    have hs := a6 from_phrase hi
    simp only [if_pos hc]
    dsimp only [Driver.WellFormed, Driver.view]
    refine ⟨⟨a3, h2, ?_, ?_, h5⟩, ?_, trivial, ?_, a5⟩
    · intro i hi
      rw [a2]
      exact Nat.lt_succ_of_lt (h3 i hi)
    · intro i hi
      rw [a2]
      rcases List.mem_append.1 hi with hi | hi
      · exact Nat.lt_succ_of_lt (h4 i hi)
      · rw [List.mem_singleton.1 hi, a1]
        exact Nat.lt_succ_self _
    · rw [List.map_append, List.map_singleton, a4,
        List.map_congr_left (fun i hi => a5 i (h3 i hi)),
        List.map_congr_left (fun i hi => a5 i (h4 i hi)), hs]
      rfl
    · rw [a2]
      exact Nat.le_succ _
  · simp only [if_neg hc]
    exact ⟨⟨h1, h2, h3, h4, h5⟩, trivial, trivial, Nat.le_refl _, fun _ _ => trivial⟩

theorem Driver_DoIteration_emit_sim (env : Env E) (doc : Document) (fresh : Phrase E)
    (from_phrase : Nat) (adjacent : Adjacent E) (d : Driver E) (hwf : d.WellFormed) :
    (Driver.DoIteration.emit env doc fresh from_phrase adjacent d).WellFormed ∧
    (Driver.DoIteration.emit env doc fresh from_phrase adjacent d).view fresh =
      DoIteration.emit env doc
        (d.candidate_pool.deref { words := [], index := [] } from_phrase) adjacent
        (d.view fresh) ∧
    (Driver.DoIteration.emit env doc fresh from_phrase adjacent d).from_set = d.from_set ∧
    (Driver.DoIteration.emit env doc fresh from_phrase adjacent d).candidate_pool =
      d.candidate_pool := by
  obtain ⟨h1, h2, h3, h4, h5⟩ := hwf
  unfold Driver.DoIteration.emit DoIteration.emit
  by_cases hb : IsBoundary env adjacent = true
  · by_cases hc : (d.candidate_pool.deref { words := [], index := [] }
        from_phrase).index.length > 1 ∧
        env.lt (kBoundaryThreshold env) (LeftAdjacent env doc
          (d.candidate_pool.deref { words := [], index := [] } from_phrase).index
          (((d.candidate_pool.deref { words := [], index := [] }
            from_phrase).words.length : Int) - 1)).1.entropy = true
    · obtain ⟨a1, a2, a3, a4, a5, -⟩ := Pool_Alloc_assign fresh d.phrase_pool
        (DoIteration.fillPhrase env doc
          ((d.phrase_pool.Alloc fresh).2.deref fresh (d.phrase_pool.Alloc fresh).1)
          (d.candidate_pool.deref { words := [], index := [] } from_phrase)) h2
      simp only [if_pos hb, if_pos hc]
      dsimp only [Driver.WellFormed, Driver.view]
      refine ⟨⟨h1, a3, h3, h4, ?_⟩, ?_, trivial, trivial⟩
      · intro i hi
        rw [a2]
        rcases List.mem_append.1 hi with hi | hi
        · exact Nat.lt_succ_of_lt (h5 i hi)
        · rw [List.mem_singleton.1 hi, a1]
          exact Nat.lt_succ_self _
      · rw [List.map_append, List.map_singleton, a4,
          List.map_congr_left (fun i hi => a5 i (h5 i hi))]
        rfl
    · simp only [if_pos hb, if_neg hc]
      exact ⟨⟨h1, h2, h3, h4, h5⟩, rfl, trivial, trivial⟩
  · simp only [if_neg hb]
    exact ⟨⟨h1, h2, h3, h4, h5⟩, trivial, trivial, trivial⟩

/-- One run of the loop body of `DoIteration` on a well-formed driver is the run on values, for
the record the popped pointer points to; the records handed out before stay as they were. -/
theorem Driver_DoIteration_body_sim (env : Env E) (doc : Document) (fresh : Phrase E)
    (d : Driver E) (from_phrase : Nat) (hwf : d.WellFormed)
    (hi : from_phrase < d.candidate_pool.alloc_index) :
    (Driver.DoIteration.body env doc fresh d from_phrase).WellFormed ∧
    (Driver.DoIteration.body env doc fresh d from_phrase).view fresh =
      DoIteration.body env doc (d.view fresh)
        (d.candidate_pool.deref { words := [], index := [] } from_phrase) ∧
    (Driver.DoIteration.body env doc fresh d from_phrase).from_set = d.from_set ∧
    d.candidate_pool.alloc_index ≤
      (Driver.DoIteration.body env doc fresh d from_phrase).candidate_pool.alloc_index ∧
    (∀ i, i < d.candidate_pool.alloc_index →
      (Driver.DoIteration.body env doc fresh d from_phrase).candidate_pool.deref
        { words := [], index := [] } i =
      d.candidate_pool.deref { words := [], index := [] } i) := by
  have hwf1 : Driver.WellFormed { d with reads := d.reads ++ (RightAdjacent env doc
      (d.candidate_pool.deref { words := [], index := [] } from_phrase).index).2 } := hwf
  obtain ⟨g1, g2, g3, g4, g5⟩ := Driver_DoIteration_grow_sim env doc fresh from_phrase
    (RightAdjacent env doc
      (d.candidate_pool.deref { words := [], index := [] } from_phrase).index).1 _ hwf1 hi
  obtain ⟨e1, e2, e3, e4⟩ := Driver_DoIteration_emit_sim env doc fresh from_phrase
    (RightAdjacent env doc
      (d.candidate_pool.deref { words := [], index := [] } from_phrase).index).1 _ g1
  rw [g5 from_phrase hi, g2] at e2
  refine ⟨e1, e2, e3.trans g3, ?_, ?_⟩
  · exact Nat.le_trans g4 (Nat.le_of_eq (congrArg Pool.alloc_index e4).symm)
  · intro i hlt
    exact (congrArg (fun p => Pool.deref { words := [], index := [] } p i) e4).trans
      (g5 i hlt)

theorem Driver_DoIteration_foldl_sim (env : Env E) (doc : Document) (fresh : Phrase E)
    (l : List Nat) : ∀ d : Driver E, d.WellFormed →
    (∀ i ∈ l, i < d.candidate_pool.alloc_index) →
    (l.foldl (Driver.DoIteration.body env doc fresh) d).WellFormed ∧
    (l.foldl (Driver.DoIteration.body env doc fresh) d).view fresh =
      (l.map (d.candidate_pool.deref { words := [], index := [] })).foldl
        (DoIteration.body env doc) (d.view fresh) ∧
    (l.foldl (Driver.DoIteration.body env doc fresh) d).from_set = d.from_set := by
  induction l with
  | nil => intro d hwf _; exact ⟨hwf, rfl, rfl⟩
  | cons x l ih =>
    intro d hwf hl
    obtain ⟨b1, b2, b3, b4, b5⟩ := Driver_DoIteration_body_sim env doc fresh d x hwf
      (hl x (List.mem_cons_self x l))
    obtain ⟨i1, i2, i3⟩ := ih _ b1
      (fun i hi => Nat.lt_of_lt_of_le (hl i (List.mem_cons_of_mem x hi)) b4)
    refine ⟨i1, ?_, i3.trans b3⟩
    rw [List.foldl_cons, i2, b2, List.map_cons, List.foldl_cons,
      List.map_congr_left (fun i hi => b5 i (hl i (List.mem_cons_of_mem x hi)))]

theorem Driver_DoIteration_sim (env : Env E) (doc : Document) (fresh : Phrase E)
    (d : Driver E) (hwf : d.WellFormed) :
    (Driver.DoIteration env doc fresh d).WellFormed ∧
    (Driver.DoIteration env doc fresh d).view fresh = DoIteration env doc (d.view fresh) ∧
    (Driver.DoIteration env doc fresh d).from_set = [] := by
  obtain ⟨h1, h2, h3, h4, h5⟩ := hwf
  have hwf0 : Driver.WellFormed { d with from_set := [] } :=
    ⟨h1, h2, fun i hi => absurd hi (List.not_mem_nil i), h4, h5⟩
  obtain ⟨f1, f2, f3⟩ := Driver_DoIteration_foldl_sim env doc fresh d.from_set.reverse
    { d with from_set := [] } hwf0 (fun i hi => h3 i (List.mem_reverse.1 hi))
  refine ⟨f1, ?_, f3⟩
  unfold Driver.DoIteration DoIteration
  rw [f2]
  show _ = List.foldl (DoIteration.body env doc) _
    (d.from_set.map (d.candidate_pool.deref { words := [], index := [] })).reverse
  rw [List.map_reverse]
  rfl

theorem Driver_Extract_body_sim (env : Env E) (doc : Document) (fresh : Phrase E)
    (d : Driver E) (hwf : d.WellFormed) :
    (Driver.Extract.body env doc fresh d).WellFormed ∧
    (Driver.Extract.body env doc fresh d).view fresh = Extract.body env doc (d.view fresh) := by
  obtain ⟨⟨h1, h2, -, h4, h5⟩, f2, -⟩ := Driver_DoIteration_sim env doc fresh d hwf
  refine ⟨⟨h1, h2, h4, fun i hi => absurd hi (List.not_mem_nil i), h5⟩, ?_⟩
  unfold Extract.body
  rw [← f2]
  rfl

theorem Driver_Extract_begin_sim (env : Env E) (doc : Document) (fresh : Phrase E)
    (prior : Driver E) :
    (Driver.Extract.begin env doc prior).WellFormed ∧
    (Driver.Extract.begin env doc prior).view fresh =
      Extract.begin env doc State.empty :=
  Driver_PhraseBeginSet_foldl_sim env doc fresh (List.range doc.words_size) _
    ⟨Nat.zero_le _, Nat.zero_le _, fun i hi => absurd hi (List.not_mem_nil i),
      fun i hi => absurd hi (List.not_mem_nil i), fun i hi => absurd hi (List.not_mem_nil i)⟩

theorem Driver_Extract_loop_sim (env : Env E) (doc : Document) (fresh : Phrase E)
    (fuel : Nat) : ∀ d : Driver E, d.WellFormed →
    Option.map (Driver.view fresh) (Driver.Extract.loop env doc fresh fuel d) =
      Extract.loop env doc fuel (d.view fresh) ∧
    ∀ r, Driver.Extract.loop env doc fresh fuel d = some r → r.WellFormed := by
  induction fuel with
  | zero => intro d _; exact ⟨rfl, fun r hr => by simp [Driver.Extract.loop] at hr⟩
  | succ fuel ih =>
    intro d hwf
    obtain ⟨b1, b2⟩ := Driver_Extract_body_sim env doc fresh d hwf
    have hlen : (d.view fresh).from_set.length = d.from_set.length := List.length_map _ _
    unfold Driver.Extract.loop Extract.loop
    by_cases hc : d.from_set.length ≠ 0
    · rw [if_pos hc, if_pos (hlen ▸ hc), ← b2]
      exact ih _ b1
    · rw [if_neg hc, if_neg (hlen ▸ hc)]
      refine ⟨rfl, fun r hr => ?_⟩
      rw [← Option.some.inj hr]
      exact hwf

/-- The function `Extract` on a driver in any prior state runs as `Extract` on values does: it
returns exactly when that one returns, with the pointers replaced by records, and the
returned driver is well-formed. -/
theorem Driver_Extract_sim (env : Env E) (doc : Document) (fresh : Phrase E)
    (prior : Driver E) (fuel : Nat) :
    Option.map (Driver.view fresh) (Driver.Extract env doc fresh prior fuel) =
      Extract env doc State.empty fuel ∧
    ∀ r, Driver.Extract env doc fresh prior fuel = some r → r.WellFormed := by
  obtain ⟨b1, b2⟩ := Driver_Extract_begin_sim env doc fresh prior
  obtain ⟨l1, l2⟩ := Driver_Extract_loop_sim env doc fresh fuel _ b1
  refine ⟨?_, l2⟩
  unfold Driver.Extract Extract
  rw [l1, b2]

/-- C12: when `Extract` returns on a driver whose output list, frontier queues and pools hold
any content `prior` (stale records in the stores, the cursors anywhere, pointers to
anything, any `reset` of the records handed out again), it returns on a fresh driver with new pools as well, whatever record `new`
gives there, and the two phrase lists are equal record by record; every returned phrase
references the document of the call, every pointer of the output list points to a record
that the phrase pool handed out during the call, both frontier queues are empty on return,
and the returned state is the one the value model `Extract` returns. -/
theorem Extract_prior_independent (env : Env E) (doc : Document) (fresh : Phrase E)
    (prior : Driver E) (fuel : Nat) (r : Driver E)
    (hr : Driver.Extract env doc fresh prior fuel = some r) :
    (∀ fresh0 : Phrase E, ∃ r0,
      Driver.Extract env doc fresh0 Driver.fresh fuel = some r0 ∧
      r0.phrase_list fresh0 = r.phrase_list fresh) ∧
    (∀ p ∈ r.phrase_list fresh, p.document = doc) ∧
    (∀ i ∈ r.phrases, i < r.phrase_pool.alloc_index ∧ i < r.phrase_pool.nodes.length) ∧
    r.from_set = [] ∧ r.to_set = [] ∧
    Extract env doc State.empty fuel = some (r.view fresh) := by
  obtain ⟨s1, s2⟩ := Driver_Extract_sim env doc fresh prior fuel
  rw [hr] at s1
  have hE : Extract env doc State.empty fuel = some (r.view fresh) := s1.symm
  obtain ⟨n, hn, hf⟩ := Extract_some_steps env doc State.empty fuel _ hE
  obtain ⟨-, w2, -, -, w5⟩ := s2 r hr
  refine ⟨?_, ?_, fun i hi => ⟨w5 i hi, Nat.lt_of_lt_of_le (w5 i hi) w2⟩,
    List.map_eq_nil_iff.1 hf, ?_, hE⟩
  · intro fresh0
    obtain ⟨t1, -⟩ := Driver_Extract_sim env doc fresh0 Driver.fresh fuel
    rw [hE] at t1
    obtain ⟨r0, h0, hv⟩ := Option.map_eq_some'.1 t1
    exact ⟨r0, h0, congrArg State.phrases hv⟩
  · intro p hp
    have hp2 : p ∈ (r.view fresh).phrases := hp
    rw [hn] at hp2
    obtain ⟨k, c, -, hpc⟩ := Extract_phrase_origin env doc State.empty n p hp2
    rw [(DoIteration_mem_emitted env doc c p hpc).1]
  · have ht := Extract_steps_to_set env doc State.empty n
    rw [← hn] at ht
    exact List.map_eq_nil_iff.1 ht

theorem Extract_prior_independent_witness :
    ∃ r : Driver ℝ,
      Driver.Extract realEnvId doc7 ⟨doc4, [7], 0⟩
        { from_set := [5, 0], to_set := [1], phrases := [0, 3],
          candidate_pool :=
            { nodes := [⟨[9], [9, 8]⟩, ⟨[8, 8], [2]⟩], alloc_index := 7, reset := id },
          phrase_pool :=
            { nodes := [⟨doc4, [7], 0⟩, ⟨doc13, [], 1⟩], alloc_index := 1,
              reset := fun p => { p with tf := p.tf + 1 } },
          reads := [5], iterations := 3 } 5 = some r ∧
      r.phrase_list ⟨doc4, [7], 0⟩ = [⟨doc7, [0, 1], tfOf realEnvId doc7 3⟩] ∧
      (∃ r0, Driver.Extract realEnvId doc7 ⟨doc7, [], 0⟩ Driver.fresh 5 = some r0 ∧
        r0.phrase_list ⟨doc7, [], 0⟩ = r.phrase_list ⟨doc4, [7], 0⟩) ∧
      (∀ p ∈ r.phrase_list ⟨doc4, [7], 0⟩, p.document = doc7) ∧
      r.from_set = [] ∧ r.to_set = [] := by
  obtain ⟨s1, -⟩ := Driver_Extract_sim realEnvId doc7 ⟨doc4, [7], 0⟩
    { from_set := [5, 0], to_set := [1], phrases := [0, 3],
      candidate_pool :=
        { nodes := [⟨[9], [9, 8]⟩, ⟨[8, 8], [2]⟩], alloc_index := 7, reset := id },
      phrase_pool :=
        { nodes := [⟨doc4, [7], 0⟩, ⟨doc13, [], 1⟩], alloc_index := 1,
          reset := fun p => { p with tf := p.tf + 1 } },
      reads := [5], iterations := 3 } 5
  rw [doc7_Extract_returns State.empty] at s1
  obtain ⟨r, hr, hv⟩ := Option.map_eq_some'.1 s1
  have h := Extract_prior_independent realEnvId doc7 _ _ 5 r hr
  exact ⟨r, hr,
    (congrArg State.phrases hv).trans
      (docABC_steps4 0 1 2 (fun _ => false) (fun _ => 0) id (fun _ => List.Perm.refl _)
        (by decide) (by decide) (by decide) rfl rfl (by decide) (by decide) State.empty).2,
    h.1 ⟨doc7, [], 0⟩, h.2.1, h.2.2.2.1, h.2.2.2.2.1⟩


/-! ## C13 and C16: what the index of a candidate holds -/

theorem occursAt_iff (doc : Document) (ws : List Int) (q : Nat) :
    occursAt doc ws q = true ↔
      q + ws.length ≤ doc.size ∧
      ∀ j : Nat, j < ws.length → ws[j]? = some (doc.word ((q : Int) + (j : Int))) := by
  induction ws generalizing q with
  | nil => simp [occursAt]
  | cons w ws ih =>
    simp only [occursAt, Bool.and_eq_true, decide_eq_true_eq, beq_iff_eq, ih (q + 1),
      List.length_cons]
    constructor
    · rintro ⟨h1, h2, h3, h4⟩
      refine ⟨by omega, ?_⟩
      intro j hj
      cases j with
      | zero => simp [h2]
      | succ j =>
        have := h4 j (by omega)
        simp only [List.getElem?_cons_succ, this]
        congr 2
        push_cast
        ring
    · rintro ⟨h1, h2⟩
      refine ⟨by omega, ?_, by omega, ?_⟩
      · have := h2 0 (by omega)
        simpa using this.symm
      · intro j hj
        have := h2 (j + 1) (by omega)
        simp only [List.getElem?_cons_succ] at this
        rw [this]
        congr 2
        push_cast
        ring

/-- The members of an exact index. -/
theorem IndexExact_mem (doc : Document) (c : PhraseCandidate) (h : IndexExact doc c)
    (p : Int) :
    p ∈ c.index ↔
      ((c.words.length : Int) - 1 ≤ p ∧ p < (doc.size : Int) ∧
        ∀ j : Nat, j < c.words.length →
          c.words[j]? = some (doc.word (p - (c.words.length : Int) + 1 + (j : Int)))) := by
  have hlen : 0 < c.words.length := List.length_pos.2 h.1
  rw [h.2]
  simp only [List.mem_map, List.mem_filter, List.mem_range, occursAt_iff]
  constructor
  · rintro ⟨q, ⟨hq, hq1, hq2⟩, rfl⟩
    refine ⟨by omega, by omega, ?_⟩
    intro j hj
    rw [hq2 j hj]
    congr 2
    ring
  · rintro ⟨h1, h2, h3⟩
    refine ⟨(p - ((c.words.length : Int) - 1)).toNat, ⟨by omega, by omega, ?_⟩, by omega⟩
    intro j hj
    rw [h3 j hj]
    congr 2
    have : (((p - ((c.words.length : Int) - 1)).toNat : Nat) : Int) =
        p - ((c.words.length : Int) - 1) := Int.toNat_of_nonneg (by omega)
    rw [this]
    ring

theorem IndexExact_sorted (doc : Document) (c : PhraseCandidate) (h : IndexExact doc c) :
    c.index.Pairwise (fun a b => a < b) := by
  rw [h.2, List.pairwise_map]
  apply List.Pairwise.filter
  exact (List.pairwise_lt_range doc.size).imp (fun {a b} hab => by omega)

theorem RightAdjacent_collect_reads (doc : Document) (word_index : List Int) :
    (RightAdjacent.collect doc word_index).2 =
      (word_index.filter (fun idx => decide (idx ≠ (doc.size : Int) - 1))).map
        (fun idx => idx + 1) := by
  unfold RightAdjacent.collect
  suffices h : ∀ (a : List (Int × Int) × List Int),
      (word_index.foldl (fun a idx =>
        if idx ≠ (doc.size : Int) - 1 then
          (incr a.1 (doc.word (idx + 1)), a.2 ++ [idx + 1])
        else a) a).2 =
      a.2 ++ (word_index.filter (fun idx => decide (idx ≠ (doc.size : Int) - 1))).map
        (fun idx => idx + 1) by
    simpa using h ([], [])
  induction word_index with
  | nil => simp
  | cons idx l ih =>
    intro a
    rw [List.foldl_cons, ih]
    by_cases h1 : idx = (doc.size : Int) - 1
    · simp [h1, List.filter_cons]
    · simp [h1, List.filter_cons]

theorem DoIteration_reindex_reads (doc : Document) (index : List Int) (major_word : Int) :
    (DoIteration.reindex doc index major_word).2 =
      (index.filter (fun idx => decide (idx < (doc.size : Int) - 1))).map
        (fun idx => idx + 1) := by
  unfold DoIteration.reindex
  suffices h : ∀ (a : List Int × List Int),
      (index.foldl (fun a idx =>
        if idx < (doc.size : Int) - 1 then
          (if doc.word (idx + 1) = major_word then a.1 ++ [idx + 1] else a.1, a.2 ++ [idx + 1])
        else a) a).2 =
      a.2 ++ (index.filter (fun idx => decide (idx < (doc.size : Int) - 1))).map
        (fun idx => idx + 1) by
    simpa using h ([], [])
  induction index with
  | nil => simp
  | cons idx l ih =>
    intro a
    rw [List.foldl_cons, ih]
    by_cases h1 : idx < (doc.size : Int) - 1
    · simp [h1, List.filter_cons]
    · simp [h1, List.filter_cons]

theorem doc7_candidate_mem :
    (⟨[0, 1], [1, 3, 6]⟩ : PhraseCandidate) ∈
      (Extract.steps realEnvId doc7 State.empty 1).from_set := by
  have h1 := (docABC_steps1 0 1 2 (fun _ => false) (fun _ => 0) id (fun _ => List.Perm.refl _)
    (by decide) (by decide) (by decide) rfl rfl (by decide) (by decide) State.empty).1
  show _ ∈ (Extract.steps (realEnv id _) (docABC 0 1 2 _ _) State.empty 1).from_set
  rw [h1]
  exact List.mem_singleton.2 rfl

/-- C13, as stated, fails: on the consistent document `[0, 1, 0, 1, 2, 0, 1]` the candidate
`[0, 1]` of the second frontier has the index `[1, 3, 6]`, and the word at the position `1`
of the document is `1`, not the first word `0` of the candidate: the positions of the index
are those of the last word of each occurrence. -/
theorem index_is_not_first_position :
    Consistent doc7 ∧
    (⟨[0, 1], [1, 3, 6]⟩ : PhraseCandidate) ∈
      (Extract.steps realEnvId doc7 State.empty 1).from_set ∧
    ¬ ∀ p ∈ ([1, 3, 6] : List Int), ∀ j : Nat, j < ([0, 1] : List Int).length →
        ([0, 1] : List Int)[j]? = some (doc7.word (p + (j : Int))) := by
  refine ⟨doc7_consistent, doc7_candidate_mem, ?_⟩
  intro hall
  have := hall 1 (by decide) 0 (by decide)
  revert this
  decide

/-- C13, amended: for a consistent document and every candidate of every frontier, each
position `p` stored in its index is the document position of the last word of an occurrence
of the words of the candidate: for every `j < len(words)`,
`word(p - (len(words) - 1) + j) == words[j]`. -/
theorem index_is_last_position (env : Env E) (doc : Document) (prior : State E)
    (hc : Consistent doc) (n : Nat) (c : PhraseCandidate)
    (hcf : c ∈ (Extract.steps env doc prior n).from_set) (p : Int) (hp : p ∈ c.index)
    (j : Nat) (hj : j < c.words.length) :
    c.words[j]? = some (doc.word (p - ((c.words.length : Int) - 1) + (j : Int))) := by
  have hex := Extract_frontier_exact env doc prior hc n c hcf
  have := ((IndexExact_mem doc c hex p).1 hp).2.2 j hj
  rw [this]
  congr 2
  ring

theorem index_is_last_position_witness :
    Consistent doc7 ∧
    (⟨[0, 1], [1, 3, 6]⟩ : PhraseCandidate) ∈
      (Extract.steps realEnvId doc7 State.empty 1).from_set ∧
    (3 : Int) ∈ (⟨[0, 1], [1, 3, 6]⟩ : PhraseCandidate).index ∧
    (⟨[0, 1], [1, 3, 6]⟩ : PhraseCandidate).words[0]? =
      some (doc7.word (3 -
        (((⟨[0, 1], [1, 3, 6]⟩ : PhraseCandidate).words.length : Int) - 1) + ((0 : Nat) : Int))) :=
  ⟨doc7_consistent, doc7_candidate_mem, by decide,
    index_is_last_position realEnvId doc7 State.empty doc7_consistent 1 _ doc7_candidate_mem
      3 (by decide) 0 (by decide)⟩

/-- C16: for a consistent document and every candidate of every frontier, the index is
strictly increasing, its positions lie in `[0, size)`, and its members are exactly the
positions `p` of the document at which the words of the candidate occur ending at `p`:
`len(words) - 1 ≤ p` and `word(p - len(words) + 1 + j) == words[j]` for every
`j < len(words)`. Hence every position that `RightAdjacent` and the loop that rebuilds the
index read from the document lies in `[0, size)`. -/
theorem index_exactness (env : Env E) (doc : Document) (prior : State E)
    (hc : Consistent doc) (n : Nat) (c : PhraseCandidate)
    (hcf : c ∈ (Extract.steps env doc prior n).from_set) :
    c.index.Pairwise (fun a b => a < b) ∧
    (∀ p ∈ c.index, 0 ≤ p ∧ p < (doc.size : Int)) ∧
    (∀ p : Int, p ∈ c.index ↔
      ((c.words.length : Int) - 1 ≤ p ∧ p < (doc.size : Int) ∧
        ∀ j : Nat, j < c.words.length →
          c.words[j]? = some (doc.word (p - (c.words.length : Int) + 1 + (j : Int))))) ∧
    (∀ r ∈ (RightAdjacent.collect doc c.index).2, 0 ≤ r ∧ r < (doc.size : Int)) ∧
    (∀ major_word, ∀ r ∈ (DoIteration.reindex doc c.index major_word).2,
      0 ≤ r ∧ r < (doc.size : Int)) := by
  have hex := Extract_frontier_exact env doc prior hc n c hcf
  have hlen : 0 < c.words.length := List.length_pos.2 hex.1
  have hrange : ∀ p ∈ c.index, 0 ≤ p ∧ p < (doc.size : Int) := by
    intro p hp
    have := (IndexExact_mem doc c hex p).1 hp
    omega
  refine ⟨IndexExact_sorted doc c hex, hrange, IndexExact_mem doc c hex, ?_, ?_⟩
  · intro r hr
    rw [RightAdjacent_collect_reads] at hr
    simp only [List.mem_map, List.mem_filter, decide_eq_true_eq] at hr
    obtain ⟨p, ⟨hp, hne⟩, rfl⟩ := hr
    have := hrange p hp
    omega
  · intro mw r hr
    rw [DoIteration_reindex_reads] at hr
    simp only [List.mem_map, List.mem_filter, decide_eq_true_eq] at hr
    obtain ⟨p, ⟨hp, hlt⟩, rfl⟩ := hr
    have := hrange p hp
    omega

theorem index_exactness_witness :
    Consistent doc7 ∧
    (⟨[0, 1], [1, 3, 6]⟩ : PhraseCandidate) ∈
      (Extract.steps realEnvId doc7 State.empty 1).from_set ∧
    ([1, 3, 6] : List Int).Pairwise (fun a b => a < b) ∧
    (∀ r ∈ (RightAdjacent.collect doc7 [1, 3, 6]).2, 0 ≤ r ∧ r < (doc7.size : Int)) :=
  have h := index_exactness realEnvId doc7 State.empty doc7_consistent 1 _ doc7_candidate_mem
  ⟨doc7_consistent, doc7_candidate_mem, h.1, h.2.2.2.1⟩


/-! ## C14: the major word -/

/-- The first loop of `CalcAdjacent` on a non-empty list of positive counts: the result is
the first entry with the greatest count. -/
theorem CalcAdjacent_scan_first_max (items : List (Int × Int)) (hne : items ≠ [])
    (hpos : ∀ e ∈ items, 0 < e.2) :
    ∃ pre k mx post, items = pre ++ (k, mx) :: post ∧
      (∀ e ∈ pre, e.2 < mx) ∧ (∀ e ∈ post, e.2 ≤ mx) ∧
      (CalcAdjacent.scan items).2 = (mx, k) := by
  induction items using List.reverseRecOn with
  | nil => exact absurd rfl hne
  | append_singleton l x ih =>
    obtain ⟨xk, xv⟩ := x
    have hxv : 0 < xv := hpos (xk, xv) (by simp)
    by_cases hl : l = []
    · subst hl
      refine ⟨[], xk, xv, [], rfl, by simp, by simp, ?_⟩
      simp [CalcAdjacent.scan, hxv]
    · obtain ⟨pre, k, mx, post, he, h1, h2, h3⟩ :=
        ih hl (fun e he => hpos e (List.mem_append_left _ he))
      have hstep : CalcAdjacent.scan (l ++ [(xk, xv)]) =
          if xv > (CalcAdjacent.scan l).2.1 then
            ((CalcAdjacent.scan l).1 + xv, xv, xk)
          else ((CalcAdjacent.scan l).1 + xv, (CalcAdjacent.scan l).2.1,
            (CalcAdjacent.scan l).2.2) := by
        simp [CalcAdjacent.scan, List.foldl_append]
      rw [hstep, h3]
      by_cases hgt : xv > mx
      · refine ⟨l, xk, xv, [], rfl, ?_, by simp, by simp [hgt]⟩
        intro e hel
        rw [he] at hel
        rcases List.mem_append.1 hel with hel | hel
        · have := h1 e hel
          omega
        · rcases List.mem_cons.1 hel with hel | hel
          · rw [hel]
            exact hgt
          · have := h2 e hel
            omega
      · refine ⟨pre, k, mx, post ++ [(xk, xv)], by rw [he]; simp, h1, ?_, by simp [hgt]⟩
        intro e hel
        rcases List.mem_append.1 hel with hel | hel
        · exact h2 e hel
        · rw [List.mem_singleton.1 hel]
          exact not_lt.1 hgt

/-- C14: for a non-empty frequency map with positive counts, enumerated as
`pre ++ (k, mx) :: post` where every count of `pre` is less than `mx` and every count of
`post` is at most `mx` (so `mx` is the maximum count and `k` the first key, in the order of
enumeration, whose count is `mx`), `CalcAdjacent` returns `major_word = k` and
`major_word_freq = mx`; such a decomposition of the enumeration exists. -/
theorem CalcAdjacent_major_first_max (env : Env E) (m : List (Int × Int)) (hne : m ≠ [])
    (hpos : ∀ e ∈ m, 0 < e.2) :
    ∃ pre k mx post, env.iter m = pre ++ (k, mx) :: post ∧
      (∀ e ∈ pre, e.2 < mx) ∧ (∀ e ∈ post, e.2 ≤ mx) ∧
      (CalcAdjacent env m).major_word = k ∧ (CalcAdjacent env m).major_word_freq = mx := by
  have hp := env.iter_perm m
  have hne2 : env.iter m ≠ [] := by
    intro h0
    rw [h0] at hp
    exact hne (List.Perm.nil_eq hp).symm
  have hpos2 : ∀ e ∈ env.iter m, 0 < e.2 := fun e he => hpos e (hp.subset he)
  obtain ⟨pre, k, mx, post, he, h1, h2, h3⟩ :=
    CalcAdjacent_scan_first_max (env.iter m) hne2 hpos2
  refine ⟨pre, k, mx, post, he, h1, h2, ?_, ?_⟩
  · show (CalcAdjacent.scan (env.iter m)).2.2 = k
    rw [h3]
  · show (CalcAdjacent.scan (env.iter m)).2.1 = mx
    rw [h3]

theorem CalcAdjacent_major_first_max_witness :
    ([(1, 2), (2, 3), (4, 3)] : List (Int × Int)) ≠ [] ∧
    (∀ e ∈ ([(1, 2), (2, 3), (4, 3)] : List (Int × Int)), 0 < e.2) ∧
    (CalcAdjacent realEnvId [(1, 2), (2, 3), (4, 3)]).major_word = 2 ∧
    (CalcAdjacent realEnvId [(1, 2), (2, 3), (4, 3)]).major_word_freq = 3 ∧
    ∃ pre k mx post, realEnvId.iter [(1, 2), (2, 3), (4, 3)] = pre ++ (k, mx) :: post ∧
      (∀ e ∈ pre, e.2 < mx) ∧ (∀ e ∈ post, e.2 ≤ mx) ∧
      (CalcAdjacent realEnvId [(1, 2), (2, 3), (4, 3)]).major_word = k ∧
      (CalcAdjacent realEnvId [(1, 2), (2, 3), (4, 3)]).major_word_freq = mx :=
  ⟨by decide, by decide, rfl, rfl,
    CalcAdjacent_major_first_max realEnvId [(1, 2), (2, 3), (4, 3)] (by decide) (by decide)⟩

/-! ## C15: the sign of the entropy -/

theorem H_nonneg (m : List (Int × Int)) (hpos : ∀ e ∈ m, 0 < e.2) : 0 ≤ H m := by
  unfold H
  apply List.sum_nonneg
  intro x hx
  rw [List.mem_map] at hx
  obtain ⟨e, he, rfl⟩ := hx
  have h1 : 0 < e.2 := hpos e he
  have h2 : e.2 ≤ (m.map Prod.snd).sum := by
    apply List.single_le_sum
    · intro y hy
      rw [List.mem_map] at hy
      obtain ⟨f, hf, rfl⟩ := hy
      exact (hpos f hf).le
    · exact List.mem_map_of_mem _ he
  have h1' : (0 : ℝ) < (e.2 : ℝ) := by exact_mod_cast h1
  have h2' : (e.2 : ℝ) ≤ (((m.map Prod.snd).sum : ℤ) : ℝ) := by exact_mod_cast h2
  have hε := eps_pos
  exact term_nonneg h1' (by linarith)

theorem CalcAdjacent_sumInt_eq (items : List (Int × Int)) (hpos : ∀ e ∈ items, 0 < e.2)
    (hsum : (items.map Prod.snd).sum ≤ 2147483647) :
    CalcAdjacent.sumInt items = (items.map Prod.snd).sum := by
  unfold CalcAdjacent.sumInt
  suffices hgen : ∀ (l : List (Int × Int)) (a : Int), (∀ e ∈ l, 0 < e.2) → 0 ≤ a →
      a + (l.map Prod.snd).sum ≤ 2147483647 →
      l.foldl (fun sum it => wrapInt (sum + it.2)) a = a + (l.map Prod.snd).sum by
    simpa using hgen items 0 hpos (le_refl 0) (by simpa using hsum)
  intro l
  induction l with
  | nil => intro a _ _ _; simp
  | cons x l ih =>
    intro a hp ha hs
    have hx : 0 < x.2 := hp x (List.mem_cons_self _ _)
    have hl : ∀ e ∈ l, 0 < e.2 := fun e he => hp e (List.mem_cons_of_mem _ he)
    have hnn : 0 ≤ (l.map Prod.snd).sum := by
      apply List.sum_nonneg
      intro y hy
      rw [List.mem_map] at hy
      obtain ⟨f, hf, rfl⟩ := hy
      exact (hl f hf).le
    simp only [List.map_cons, List.sum_cons] at hs
    have hw : wrapInt (a + x.2) = a + x.2 := by
      unfold wrapInt
      omega
    rw [List.foldl_cons, hw, ih (a + x.2) hl (by omega) (by omega)]
    simp only [List.map_cons, List.sum_cons]
    omega

/-- Within the range of `int` the exact sum of the model is the sum of the code. -/
theorem CalcAdjacentInt_eq (env : Env E) (m : List (Int × Int)) (hpos : ∀ e ∈ m, 0 < e.2)
    (hsum : (m.map Prod.snd).sum ≤ 2147483647) :
    CalcAdjacentInt env m = CalcAdjacent env m := by
  have hp := env.iter_perm m
  have h1 : ∀ e ∈ env.iter m, 0 < e.2 := fun e he => hpos e (hp.subset he)
  have h2 : ((env.iter m).map Prod.snd).sum = (m.map Prod.snd).sum := (hp.map _).sum_eq
  unfold CalcAdjacentInt CalcAdjacent
  simp only []
  rw [CalcAdjacent_sumInt_eq (env.iter m) h1 (by rw [h2]; exact hsum), CalcAdjacent_scan_fst]

theorem incr_sum (m : List (Int × Int)) (key : Int) :
    ((incr m key).map Prod.snd).sum = (m.map Prod.snd).sum + 1 := by
  induction m with
  | nil => simp [incr]
  | cons x m ih =>
    obtain ⟨k, v⟩ := x
    simp only [incr]
    split_ifs
    · simp only [List.map_cons, List.sum_cons]
      omega
    · simp only [List.map_cons, List.sum_cons, ih]
      omega

/-- The counts of the maps that `LeftAdjacent` and `RightAdjacent` build sum to the number
of positions they read, which is at most the length of the list of positions. -/
theorem collect_sum (doc : Document) (word_index : List Int) (index_offset : Int) :
    (((LeftAdjacent.collect doc word_index index_offset).1.map Prod.snd).sum ≤
      (word_index.length : Int)) ∧
    (((RightAdjacent.collect doc word_index).1.map Prod.snd).sum ≤
      (word_index.length : Int)) := by
  have hL : ∀ (l : List Int) (a : List (Int × Int) × List Int),
      (((l.foldl (fun a idx =>
          if idx > 0 then
            (incr a.1 (doc.word (idx - index_offset - 1)), a.2 ++ [idx - index_offset - 1])
          else a) a).1.map Prod.snd).sum ≤ (a.1.map Prod.snd).sum + (l.length : Int)) := by
    intro l
    induction l with
    | nil => intro a; simp
    | cons idx l ih =>
      intro a
      rw [List.foldl_cons]
      refine le_trans (ih _) ?_
      split_ifs
      · simp only [incr_sum, List.length_cons]
        push_cast
        omega
      · simp only [List.length_cons]
        push_cast
        omega
  have hR : ∀ (l : List Int) (a : List (Int × Int) × List Int),
      (((l.foldl (fun a idx =>
          if idx ≠ (doc.size : Int) - 1 then
            (incr a.1 (doc.word (idx + 1)), a.2 ++ [idx + 1])
          else a) a).1.map Prod.snd).sum ≤ (a.1.map Prod.snd).sum + (l.length : Int)) := by
    intro l
    induction l with
    | nil => intro a; simp
    | cons idx l ih =>
      intro a
      rw [List.foldl_cons]
      refine le_trans (ih _) ?_
      split_ifs
      · simp only [incr_sum, List.length_cons]
        push_cast
        omega
      · simp only [List.length_cons]
        push_cast
        omega
  refine ⟨?_, ?_⟩
  · have := hL word_index ([], [])
    simpa [LeftAdjacent.collect] using this
  · have := hR word_index ([], [])
    simpa [RightAdjacent.collect] using this

/-- C15, as stated, fails on the code: the counts of the map `{1: 2147483647, 2: 1}` are
positive, `int sum` wraps to `-2147483648`, so `p = count / (1e-38 + sum)` is negative for
both entries (its logarithm is not defined over the reals; the code yields NaN) and the
value of the sum of the terms `-p * ln p` is not non-negative. -/
theorem entropy_fails_on_overflow :
    (∀ e ∈ ([(1, 2147483647), (2, 1)] : List (Int × Int)), 0 < e.2) ∧
    CalcAdjacent.sumInt (realEnvId.iter [(1, 2147483647), (2, 1)]) = -2147483648 ∧
    (2147483647 : ℝ) / (((1e-38 : ℚ) : ℝ) + ((-2147483648 : ℤ) : ℝ)) < 0 ∧
    (1 : ℝ) / (((1e-38 : ℚ) : ℝ) + ((-2147483648 : ℤ) : ℝ)) < 0 ∧
    ¬ 0 ≤ (CalcAdjacentInt realEnvId [(1, 2147483647), (2, 1)]).entropy := by
  have hs : CalcAdjacent.sumInt (realEnvId.iter [(1, 2147483647), (2, 1)]) = -2147483648 := by
    decide
  have hε := eps_pos
  have hε' := eps_small
  have hent : (CalcAdjacentInt realEnvId [(1, 2147483647), (2, 1)]).entropy =
      -((2147483647 : ℝ) / (((1e-38 : ℚ) : ℝ) + ((-2147483648 : ℤ) : ℝ))) *
          Real.log ((2147483647 : ℝ) / (((1e-38 : ℚ) : ℝ) + ((-2147483648 : ℤ) : ℝ))) +
        -((1 : ℝ) / (((1e-38 : ℚ) : ℝ) + ((-2147483648 : ℤ) : ℝ))) *
          Real.log ((1 : ℝ) / (((1e-38 : ℚ) : ℝ) + ((-2147483648 : ℤ) : ℝ))) := by
    have hi : realEnvId.iter [(1, 2147483647), (2, 1)] = [(1, 2147483647), (2, 1)] := rfl
    unfold CalcAdjacentInt
    simp only []
    rw [hs, hi]
    unfold CalcAdjacent.entropy
    rw [realEnvId, entropy_real_aux]
    have h0 : (realEnv id (fun _ => List.Perm.refl _)).lit 0.0 = 0 := by norm_num [realEnv]
    rw [h0]
    simp only [List.map_cons, List.map_nil, List.sum_cons, List.sum_nil, zero_add, add_zero,
      Int.cast_ofNat, Int.cast_one]
  have key : ∀ c : ℝ, 0 < c → c ≤ 2147483647 →
      c / (((1e-38 : ℚ) : ℝ) + ((-2147483648 : ℤ) : ℝ)) < 0 ∧
      -(c / (((1e-38 : ℚ) : ℝ) + ((-2147483648 : ℤ) : ℝ))) *
        Real.log (c / (((1e-38 : ℚ) : ℝ) + ((-2147483648 : ℤ) : ℝ))) < 0 := by
    intro c hc0 hc1
    generalize ((1e-38 : ℚ) : ℝ) = ε at hε hε'
    have ht : ε + ((-2147483648 : ℤ) : ℝ) < 0 := by
      push_cast
      linarith
    have hp : c / (ε + ((-2147483648 : ℤ) : ℝ)) < 0 := div_neg_of_pos_of_neg hc0 ht
    refine ⟨hp, ?_⟩
    have hq0 : 0 < -(c / (ε + ((-2147483648 : ℤ) : ℝ))) := by linarith
    have hq1 : -(c / (ε + ((-2147483648 : ℤ) : ℝ))) < 1 := by
      rw [neg_lt, lt_div_iff_of_neg ht]
      push_cast
      linarith
    have hlog : Real.log (c / (ε + ((-2147483648 : ℤ) : ℝ))) < 0 := by
      rw [← Real.log_neg_eq_log]
      exact Real.log_neg hq0 hq1
    exact mul_neg_of_pos_of_neg hq0 hlog
  have k1 := key 2147483647 (by norm_num) (le_refl _)
  have k2 := key 1 (by norm_num) (by norm_num)
  refine ⟨by decide, hs, k1.1, k2.1, ?_⟩
  rw [hent]
  linarith [k1.2, k2.2]

/-- C15, amended: over the reals, for every frequency map with positive counts that sum to
at most `INT_MAX = 2147483647` (the empty map included), `int sum` does not wrap, the
entropy that `CalcAdjacent` computes is the sum `H m` of the terms `-p * ln p` with
`p = count / (1e-38 + sum)`, and it is non-negative. Every map that `LeftAdjacent` or
`RightAdjacent` builds from a list of at most `INT_MAX` positions is such a map. -/
theorem CalcAdjacent_entropy_nonneg (it : List (Int × Int) → List (Int × Int))
    (h : ∀ m, (it m).Perm m) :
    (∀ m : List (Int × Int), (∀ e ∈ m, 0 < e.2) → (m.map Prod.snd).sum ≤ 2147483647 →
      CalcAdjacent.sumInt ((realEnv it h).iter m) = (m.map Prod.snd).sum ∧
      (CalcAdjacentInt (realEnv it h) m).entropy = H m ∧
      0 ≤ (CalcAdjacentInt (realEnv it h) m).entropy ∧
      CalcAdjacentInt (realEnv it h) m = CalcAdjacent (realEnv it h) m) ∧
    (∀ (doc : Document) (word_index : List Int) (index_offset : Int),
      word_index.length ≤ 2147483647 →
        0 ≤ (CalcAdjacentInt (realEnv it h)
          (LeftAdjacent.collect doc word_index index_offset).1).entropy ∧
        0 ≤ (CalcAdjacentInt (realEnv it h)
          (RightAdjacent.collect doc word_index).1).entropy) := by
  have main : ∀ m : List (Int × Int), (∀ e ∈ m, 0 < e.2) →
      (m.map Prod.snd).sum ≤ 2147483647 →
      CalcAdjacent.sumInt ((realEnv it h).iter m) = (m.map Prod.snd).sum ∧
      (CalcAdjacentInt (realEnv it h) m).entropy = H m ∧
      0 ≤ (CalcAdjacentInt (realEnv it h) m).entropy ∧
      CalcAdjacentInt (realEnv it h) m = CalcAdjacent (realEnv it h) m := by
    intro m hpos hsum
    have hp := (realEnv it h).iter_perm m
    have h1 : ∀ e ∈ (realEnv it h).iter m, 0 < e.2 := fun e he => hpos e (hp.subset he)
    have h2 : (((realEnv it h).iter m).map Prod.snd).sum = (m.map Prod.snd).sum :=
      (hp.map _).sum_eq
    have he := CalcAdjacentInt_eq (realEnv it h) m hpos hsum
    refine ⟨?_, ?_, ?_, he⟩
    · rw [CalcAdjacent_sumInt_eq _ h1 (by rw [h2]; exact hsum), h2]
    · rw [he, CalcAdjacent_real_entropy]
    · rw [he, CalcAdjacent_real_entropy]
      exact H_nonneg m hpos
  refine ⟨main, ?_⟩
  intro doc word_index index_offset hlen
  have hlen' : (word_index.length : Int) ≤ 2147483647 := by exact_mod_cast hlen
  have hinv := collect_inv doc word_index index_offset
  have hsum := collect_sum doc word_index index_offset
  exact ⟨(main _ hinv.1.1 (le_trans hsum.1 hlen')).2.2.1,
    (main _ hinv.2.1 (le_trans hsum.2 hlen')).2.2.1⟩

theorem CalcAdjacent_entropy_nonneg_witness :
    (∀ m : List (Int × Int), (id m).Perm m) ∧
    (∀ e ∈ ([(1, 1), (2, 3)] : List (Int × Int)), 0 < e.2) ∧
    (([(1, 1), (2, 3)] : List (Int × Int)).map Prod.snd).sum ≤ 2147483647 ∧
    (CalcAdjacentInt realEnvId [(1, 1), (2, 3)]).entropy = H [(1, 1), (2, 3)] ∧
    0 ≤ (CalcAdjacentInt realEnvId [(1, 1), (2, 3)]).entropy ∧
    0 ≤ (CalcAdjacentInt realEnvId (RightAdjacent.collect doc7 [1, 3, 6]).1).entropy :=
  have hw := CalcAdjacent_entropy_nonneg id (fun _ => List.Perm.refl _)
  have h1 := hw.1 [(1, 1), (2, 3)] (by decide) (by decide)
  ⟨fun _ => List.Perm.refl _, by decide, by decide, h1.2.1, h1.2.2.1,
    (hw.2 doc7 [1, 3, 6] 0 (by decide)).2⟩


/-! ## C17: the words of a phrase -/

theorem Extract_frontier_words (env : Env E) (doc : Document) (prior : State E) (n : Nat) :
    ∀ c ∈ (Extract.steps env doc prior n).from_set,
      ∃ w0 rest, c.words = w0 :: rest ∧
        (doc.tf w0 > 1 ∧ doc.is_stopword w0 = false) ∧
        ∀ w ∈ rest, doc.tf w > 2 ∧ doc.is_stopword w = false := by
  apply Extract_frontier_induction
  · intro w _ c hc
    rw [PhraseBeginSet_seeds_eq] at hc
    split_ifs at hc with h0
    · rw [List.mem_singleton.1 hc]
      exact ⟨_, [], rfl, h0.1, by simp⟩
    · simp at hc
  · rintro c ⟨w0, rest, hw, h1, h2⟩ d hd
    rw [DoIteration_extended_eq] at hd
    split_ifs at hd with h0
    · rw [List.mem_singleton.1 hd]
      refine ⟨w0, rest ++ [(RightAdjacent env doc c.index).1.major_word], by simp [hw], h1, ?_⟩
      intro w hwm
      rcases List.mem_append.1 hwm with hwm | hwm
      · exact h2 w hwm
      · rw [List.mem_singleton.1 hwm]
        exact ⟨h0.2.1, h0.1⟩
    · simp at hd

/-- C17: for every document, every phrase in the output list of `Extract` has a first word
`w0` with `tf(w0) > 1` that is no stopword, and every later word `w` of the phrase has
`tf(w) > 2` and is no stopword. -/
theorem Extract_phrase_no_stopword (env : Env E) (doc : Document) (prior : State E)
    (n : Nat) (p : Phrase E) (hp : p ∈ (Extract.steps env doc prior n).phrases) :
    ∃ w0 rest, p.words = w0 :: rest ∧
      (doc.tf w0 > 1 ∧ doc.is_stopword w0 = false) ∧
      (∀ w ∈ rest, doc.tf w > 2 ∧ doc.is_stopword w = false) ∧
      ∀ w ∈ p.words, doc.is_stopword w = false := by
  obtain ⟨k, c, hk, hpc⟩ := Extract_phrase_origin env doc prior n p hp
  obtain ⟨w0, rest, hw, h1, h2⟩ := Extract_frontier_words env doc prior k c hk
  have hpw : p.words = c.words := by rw [(DoIteration_mem_emitted env doc c p hpc).1]
  refine ⟨w0, rest, by rw [hpw, hw], h1, h2, ?_⟩
  intro w hwm
  rw [hpw, hw] at hwm
  rcases List.mem_cons.1 hwm with hwm | hwm
  · rw [hwm]
    exact h1.2
  · exact (h2 w hwm).2

theorem Extract_phrase_no_stopword_witness :
    (⟨doc7, [0, 1], tfOf realEnvId doc7 3⟩ : Phrase ℝ) ∈
      (Extract.steps realEnvId doc7 State.empty 2).phrases ∧
    ∃ w0 rest, (⟨doc7, [0, 1], tfOf realEnvId doc7 3⟩ : Phrase ℝ).words = w0 :: rest ∧
      (doc7.tf w0 > 1 ∧ doc7.is_stopword w0 = false) ∧
      (∀ w ∈ rest, doc7.tf w > 2 ∧ doc7.is_stopword w = false) ∧
      ∀ w ∈ (⟨doc7, [0, 1], tfOf realEnvId doc7 3⟩ : Phrase ℝ).words,
        doc7.is_stopword w = false :=
  ⟨doc7_phrase_mem, Extract_phrase_no_stopword realEnvId doc7 State.empty 2 _ doc7_phrase_mem⟩

/-! ## C18: maps of fewer than two keys -/

theorem H_le_half_of_short (m : List (Int × Int)) (hpos : ∀ e ∈ m, 0 < e.2)
    (hlen : m.length < 2) : H m < 1 / 2 := by
  match m, hpos, hlen with
  | [], _, _ => rw [H_nil]; norm_num
  | [(k, c)], hpos, _ =>
    have hc : 0 < c := hpos (k, c) (List.mem_singleton.2 rfl)
    exact (H_single k c (by omega)).2
  | _ :: _ :: _, _, hlen => exact absurd hlen (by simp)

/-- C18: over the reals, a frequency map with positive counts and fewer than two keys
(empty, or a single neighbour word) has an entropy of at most `0.5`, so `IsBoundary` fails
on it. The maps that `LeftAdjacent` and `RightAdjacent` build have positive counts and
distinct keys; hence a word is seeded only when its left map holds at least two distinct
neighbour words, and a phrase is emitted only when both the right map and the left map of
its candidate hold at least two. -/
theorem boundary_needs_two_neighbours (it : List (Int × Int) → List (Int × Int))
    (h : ∀ m, (it m).Perm m) :
    (∀ m : List (Int × Int), (∀ e ∈ m, 0 < e.2) → m.length < 2 →
      (CalcAdjacent (realEnv it h) m).entropy ≤ 1 / 2 ∧
      IsBoundary (realEnv it h) (CalcAdjacent (realEnv it h) m) = false) ∧
    (∀ (doc : Document) (word : Int),
      PhraseBeginSet.seeds (realEnv it h) doc word ≠ [] →
        2 ≤ (LeftAdjacent.collect doc (doc.word_index word) 0).1.length ∧
        ((LeftAdjacent.collect doc (doc.word_index word) 0).1.map Prod.fst).Nodup) ∧
    (∀ (doc : Document) (c : PhraseCandidate),
      DoIteration.emitted (realEnv it h) doc c ≠ [] →
        (2 ≤ (RightAdjacent.collect doc c.index).1.length ∧
          ((RightAdjacent.collect doc c.index).1.map Prod.fst).Nodup) ∧
        (2 ≤ (LeftAdjacent.collect doc c.index ((c.words.length : Int) - 1)).1.length ∧
          ((LeftAdjacent.collect doc c.index
            ((c.words.length : Int) - 1)).1.map Prod.fst).Nodup)) := by
  have key : ∀ m : List (Int × Int), (∀ e ∈ m, 0 < e.2) →
      IsBoundary (realEnv it h) (CalcAdjacent (realEnv it h) m) = true → 2 ≤ m.length := by
    intro m hpos hb
    by_contra hlen
    have := H_le_half_of_short m hpos (by omega)
    rw [IsBoundary_real, decide_eq_true_eq] at hb
    linarith
  refine ⟨?_, ?_, ?_⟩
  · intro m hpos hlen
    have hH := H_le_half_of_short m hpos hlen
    rw [CalcAdjacent_real_entropy, IsBoundary_real]
    exact ⟨hH.le, decide_eq_false (by linarith)⟩
  · intro doc word hs
    rw [PhraseBeginSet_seeds_eq] at hs
    split_ifs at hs with h0
    · have hinv := (collect_inv doc (doc.word_index word) 0).1
      exact ⟨key _ hinv.1 (by rw [← LeftAdjacent_fst]; exact h0.2), hinv.2⟩
    · exact absurd rfl hs
  · intro doc c he
    rw [DoIteration_emitted_eq] at he
    split_ifs at he with h0
    · have hR := (collect_inv doc c.index 0).2
      have hL := (collect_inv doc c.index ((c.words.length : Int) - 1)).1
      refine ⟨⟨key _ hR.1 (by rw [← RightAdjacent_fst]; exact h0.1), hR.2⟩,
        ⟨key _ hL.1 ?_, hL.2⟩⟩
      have h3 := h0.2.2
      rw [LeftAdjacent_fst, lt_boundary_real] at h3
      rw [IsBoundary_real]
      exact h3
    · exact absurd rfl he

theorem doc7_emitted_ne :
    DoIteration.emitted realEnvId doc7 ⟨[0, 1], [1, 3, 6]⟩ ≠ [] := by
  have he : DoIteration.emitted realEnvId doc7 ⟨[0, 1], [1, 3, 6]⟩ =
      [⟨doc7, [0, 1], tfOf realEnvId doc7 3⟩] :=
    docABC_emitted_AB 0 1 2 (fun _ => false) (fun _ => 0) id (fun _ => List.Perm.refl _)
      (by decide) (by decide)
  rw [he]
  exact List.cons_ne_nil _ _

theorem boundary_needs_two_neighbours_witness :
    (∀ m : List (Int × Int), (id m).Perm m) ∧
    ((CalcAdjacent realEnvId [(1, 3)]).entropy ≤ 1 / 2 ∧
      IsBoundary realEnvId (CalcAdjacent realEnvId [(1, 3)]) = false) ∧
    DoIteration.emitted realEnvId doc7 ⟨[0, 1], [1, 3, 6]⟩ ≠ [] ∧
    (2 ≤ (RightAdjacent.collect doc7 [1, 3, 6]).1.length ∧
      ((RightAdjacent.collect doc7 [1, 3, 6]).1.map Prod.fst).Nodup) ∧
    (2 ≤ (LeftAdjacent.collect doc7 [1, 3, 6]
        ((([0, 1] : List Int).length : Int) - 1)).1.length ∧
      ((LeftAdjacent.collect doc7 [1, 3, 6]
        ((([0, 1] : List Int).length : Int) - 1)).1.map Prod.fst).Nodup) :=
  have hw := boundary_needs_two_neighbours id (fun _ => List.Perm.refl _)
  have he := hw.2.2 doc7 ⟨[0, 1], [1, 3, 6]⟩ doc7_emitted_ne
  ⟨fun _ => List.Perm.refl _, hw.1 [(1, 3)] (by decide) (by decide), doc7_emitted_ne,
    he.1, he.2⟩


/-! ## C19: a candidate without a right neighbour -/

theorem RightAdjacent_collect_end (doc : Document) (index : List Int)
    (hidx : ∀ p ∈ index, p = (doc.size : Int) - 1) :
    RightAdjacent.collect doc index = ([], []) := by
  unfold RightAdjacent.collect
  induction index with
  | nil => rfl
  | cons idx l ih =>
    have h1 : idx = (doc.size : Int) - 1 := hidx idx (List.mem_cons_self _ _)
    rw [List.foldl_cons]
    simp only [h1, ne_eq, not_true_eq_false, if_false]
    exact ih (fun p hp => hidx p (List.mem_cons_of_mem _ hp))

theorem DoIteration_reindex_end (doc : Document) (index : List Int) (major_word : Int)
    (hidx : ∀ p ∈ index, p = (doc.size : Int) - 1) :
    DoIteration.reindex doc index major_word = ([], []) := by
  unfold DoIteration.reindex
  induction index with
  | nil => rfl
  | cons idx l ih =>
    have h1 : idx = (doc.size : Int) - 1 := hidx idx (List.mem_cons_self _ _)
    rw [List.foldl_cons]
    simp only [h1, lt_self_iff_false, if_false]
    exact ih (fun p hp => hidx p (List.mem_cons_of_mem _ hp))

theorem CalcAdjacent_real_nil (it : List (Int × Int) → List (Int × Int))
    (h : ∀ m, (it m).Perm m) :
    CalcAdjacent (realEnv it h) [] = { entropy := 0, major_word := 0, major_word_freq := 0 } := by
  have hi : (realEnv it h).iter [] = [] := List.Perm.eq_nil ((realEnv it h).iter_perm [])
  have h0 : (realEnv it h).lit 0.0 = 0 := by norm_num [realEnv]
  simp only [CalcAdjacent, hi, CalcAdjacent.scan, CalcAdjacent.entropy, List.foldl_nil, h0]

/-- C19: over the reals, when the index of a candidate is empty or holds only the position
`size() - 1`, `RightAdjacent` reads nothing and yields entropy `0`, `major_word` `0` and
`major_word_freq` `0`; the loop body of `DoIteration` pushes an extended candidate if and
only if the word id `0` is no stopword and `tf(0) > 2`, that candidate has the words of the
candidate followed by `0` and an empty index, and no phrase is emitted for the candidate. -/
theorem DoIteration_without_right_neighbour (it : List (Int × Int) → List (Int × Int))
    (h : ∀ m, (it m).Perm m) (doc : Document) (c : PhraseCandidate)
    (hidx : ∀ p ∈ c.index, p = (doc.size : Int) - 1) :
    RightAdjacent (realEnv it h) doc c.index =
      ({ entropy := 0, major_word := 0, major_word_freq := 0 }, []) ∧
    DoIteration.extended (realEnv it h) doc c =
      (if doc.is_stopword 0 = false ∧ doc.tf 0 > 2 then
        [{ words := c.words ++ [0], index := [] }]
      else []) ∧
    DoIteration.emitted (realEnv it h) doc c = [] := by
  have hr : RightAdjacent (realEnv it h) doc c.index =
      ({ entropy := 0, major_word := 0, major_word_freq := 0 }, []) := by
    simp only [RightAdjacent, RightAdjacent_collect_end doc c.index hidx,
      CalcAdjacent_real_nil]
  have hp : IsPhrase (realEnv it h) { entropy := 0, major_word := 0, major_word_freq := 0 } =
      true := by
    simp only [IsPhrase, kShiftThreshold, realEnv]
    norm_num
  have hb : IsBoundary (realEnv it h) { entropy := 0, major_word := 0, major_word_freq := 0 } =
      false := by
    simp only [IsBoundary, kBoundaryThreshold, realEnv]
    norm_num
  refine ⟨hr, ?_, ?_⟩
  · rw [DoIteration_extended_eq, hr]
    simp only [hp, and_true, DoIteration_reindex_end doc c.index 0 hidx]
  · rw [DoIteration_emitted_eq, hr, if_neg]
    rintro ⟨h1, -⟩
    rw [hb] at h1
    exact Bool.false_ne_true h1

theorem DoIteration_without_right_neighbour_witness :
    (∀ m : List (Int × Int), (id m).Perm m) ∧
    (∀ p ∈ (⟨[0, 0, 0], [3]⟩ : PhraseCandidate).index, p = (doc4.size : Int) - 1) ∧
    RightAdjacent realEnvId doc4 [3] =
      ({ entropy := 0, major_word := 0, major_word_freq := 0 }, []) ∧
    DoIteration.extended realEnvId doc4 ⟨[0, 0, 0], [3]⟩ =
      (if doc4.is_stopword 0 = false ∧ doc4.tf 0 > 2 then
        [{ words := [0, 0, 0] ++ [0], index := [] }]
      else []) ∧
    DoIteration.emitted realEnvId doc4 ⟨[0, 0, 0], [3]⟩ = [] :=
  ⟨fun _ => List.Perm.refl _, by decide,
    DoIteration_without_right_neighbour id (fun _ => List.Perm.refl _) doc4
      ⟨[0, 0, 0], [3]⟩ (by decide)⟩


end MilkCat
